import Mathlib

set_option maxHeartbeats 1000000
set_option maxRecDepth 10000

namespace FluentQuery

/-! Shallow embedding of the fluent-query core (array-query.ts, where-builder.ts,
filter-expression.ts, logical-operators.ts, path.ts, regex.ts).
JavaScript runtime values are modelled by `Json`; numbers are rationals
(float rounding is outside the scope of the verified claims), `undefined`
is distinct from `null`, and objects are ordered association lists. -/

/-- JSON-like runtime value (the element type of the queried arrays). -/
inductive Json where
  | null
  | undef
  | bool (b : Bool)
  | num (q : ℚ)
  | str (s : String)
  | arr (elems : List Json)
  | obj (fields : List (String × Json))
deriving Inhabited

/-- Numeric value of a digit string (used by the `Number(...)` model). -/
def digitsVal (cs : List Char) : Nat :=
  cs.foldl (fun a c => a * 10 + (c.toNat - 48)) 0

/-- Whitespace class of the JavaScript regex `\s` and of `String.prototype.trim`
(ASCII part). -/
def isSpaceChar (c : Char) : Bool :=
  c = ' ' || c = '\t' || c = '\n' || c = '\x0d' || c = '\x0b' || c = '\x0c'

/-- Model of JavaScript `String.prototype.trim`. -/
def jsTrim (s : String) : String :=
  String.mk (((s.data.dropWhile isSpaceChar).reverse.dropWhile isSpaceChar).reverse)

/-- Model of JavaScript `toLowerCase` (ASCII case folding). -/
def lowerStr (s : String) : String :=
  String.mk (s.data.map Char.toLower)

/-- Lexicographic code-unit comparison of character lists (JavaScript string
`<`). -/
def listLtB : List Char → List Char → Bool
  | [], [] => false
  | [], _ :: _ => true
  | _ :: _, [] => false
  | a :: as₁, b :: bs₁ =>
    if a.val < b.val then true
    else if b.val < a.val then false
    else listLtB as₁ bs₁

/-- JavaScript string comparison `a < b`. -/
def strLtB (a b : String) : Bool :=
  listLtB a.data b.data

/-- Splitter for `path.split "."` (keeps empty pieces, like JavaScript). -/
def splitDotAux : List Char → List Char → List (List Char)
  | [], cur => [cur.reverse]
  | c :: rest, cur =>
    if c = '.' then cur.reverse :: splitDotAux rest []
    else splitDotAux rest (c :: cur)

/-- Model of JavaScript `path.split "."`. -/
def splitDot (s : String) : List String :=
  (splitDotAux s.data []).map String.mk

/-- Does the string start with the given character. -/
def strStartsWithCh (s : String) (c : Char) : Bool :=
  match s.data with
  | [] => false
  | d :: _ => d = c

/-- Does the string end with the given character. -/
def strEndsWithCh (s : String) (c : Char) : Bool :=
  match s.data.getLast? with
  | some d => d = c
  | none => false

/-- Substring (infix) test on character lists. -/
def listIsInfix : List Char → List Char → Bool
  | pat, [] => pat.isEmpty
  | pat, c :: t => pat.isPrefixOf (c :: t) || listIsInfix pat t

/-- Exponent tail of a JavaScript numeric literal (`e` / `E` part). -/
def jsExpTail (sgn mant : ℚ) (r : List Char) : Option ℚ :=
  let esgn : Int := match r with
    | '-' :: _ => -1
    | _ => 1
  let r1 : List Char := match r with
    | '-' :: rr => rr
    | '+' :: rr => rr
    | rr => rr
  let ed := r1.takeWhile Char.isDigit
  let r2 := r1.dropWhile Char.isDigit
  if ed.isEmpty || !r2.isEmpty then none
  else some (sgn * mant * (10 : ℚ) ^ (esgn * (digitsVal ed : Int)))

/-- Negates a rational when the flag is set (sign handling of `Number`). -/
def ratNegIf (neg : Bool) (q : ℚ) : ℚ :=
  if neg then -q else q

/-- Model of JavaScript `Number(string)`: `none` is NaN.  Covers the trimmed
empty string (0), sign, decimal and exponent forms; hexadecimal and
`Infinity` literals are outside the model.  The pure-integer case is
returned directly (without the fraction and exponent arithmetic) so that
it evaluates by reduction. -/
def jsNumOfString (s : String) : Option ℚ :=
  let cs0 := (jsTrim s).data
  if cs0.isEmpty then some 0 else
  let neg : Bool := match cs0 with
    | '-' :: _ => true
    | _ => false
  let cs1 : List Char := match cs0 with
    | '-' :: r => r
    | '+' :: r => r
    | r => r
  let intPart := cs1.takeWhile Char.isDigit
  let cs2 := cs1.dropWhile Char.isDigit
  let fracPart : List Char := match cs2 with
    | '.' :: r => r.takeWhile Char.isDigit
    | _ => []
  let cs3 : List Char := match cs2 with
    | '.' :: r => r.dropWhile Char.isDigit
    | r => r
  if intPart.isEmpty && fracPart.isEmpty then none else
  match cs3 with
  | [] =>
    if fracPart.isEmpty then some (ratNegIf neg (digitsVal intPart : ℚ))
    else some (ratNegIf neg
      ((digitsVal intPart : ℚ) + (digitsVal fracPart : ℚ) / ((10 : ℚ) ^ fracPart.length)))
  | 'e' :: r =>
    jsExpTail (ratNegIf neg 1)
      ((digitsVal intPart : ℚ) + (digitsVal fracPart : ℚ) / ((10 : ℚ) ^ fracPart.length)) r
  | 'E' :: r =>
    jsExpTail (ratNegIf neg 1)
      ((digitsVal intPart : ℚ) + (digitsVal fracPart : ℚ) / ((10 : ℚ) ^ fracPart.length)) r
  | _ => none

/-- Rendering of a rational as a JavaScript-ish number string (approximation
of float formatting; only integers occur in the verified claims). -/
def ratToJsString (q : ℚ) : String :=
  if q.den = 1 then toString q.num else toString q

mutual
/-- Model of JavaScript `String(value)` coercion. -/
def jsToString : Json → String
  | .null => "null"
  | .undef => "undefined"
  | .bool b => if b then "true" else "false"
  | .num q => ratToJsString q
  | .str s => s
  | .arr xs => String.intercalate "," (arrStrings xs)
  | .obj _ => "[object Object]"

/-- Element strings of `Array.prototype.toString` (null/undefined render empty). -/
def arrStrings : List Json → List String
  | [] => []
  | .null :: r => "" :: arrStrings r
  | .undef :: r => "" :: arrStrings r
  | x :: r => jsToString x :: arrStrings r
end

/-- Model of JavaScript `ToPrimitive` (number hint): arrays and objects
coerce through their string rendering, primitives are unchanged. -/
def toPrimitive : Json → Json
  | .arr xs => .str (String.intercalate "," (arrStrings xs))
  | .obj _ => .str "[object Object]"
  | v => v

/-- Model of JavaScript `ToNumber` on primitives: `none` is NaN. -/
def toNumber : Json → Option ℚ
  | .null => some 0
  | .undef => none
  | .bool b => some (if b then 1 else 0)
  | .num q => some q
  | .str s => jsNumOfString s
  | .arr _ => none
  | .obj _ => none

/-- Model of the JavaScript abstract relational comparison `a < b`:
both operands become primitives; two strings compare lexicographically,
otherwise both become numbers and NaN makes the comparison false. -/
def jsLtB (a b : Json) : Bool :=
  match toPrimitive a, toPrimitive b with
  | .str x, .str y => strLtB x y
  | pa, pb =>
    match toNumber pa, toNumber pb with
    | some x, some y => decide (x < y)
    | _, _ => false

/-- Loose nullishness (`value == null` in JavaScript). -/
def isNullish : Json → Bool
  | .null => true
  | .undef => true
  | _ => false

/-- Strict test for the `undefined` value (`value === undefined`). -/
def isUndef : Json → Bool
  | .undef => true
  | _ => false

mutual
/-- Structural value equality on `Json` (models `===` on primitives, which is
the only equality the engine applies to clause literals). -/
def jsonEq : Json → Json → Bool
  | .null, .null => true
  | .undef, .undef => true
  | .bool a, .bool b => a == b
  | .num a, .num b => a == b
  | .str a, .str b => a == b
  | .arr a, .arr b => jsonEqList a b
  | .obj a, .obj b => jsonEqFields a b
  | _, _ => false

/-- Elementwise equality for `Json` arrays. -/
def jsonEqList : List Json → List Json → Bool
  | [], [] => true
  | a :: as₁, b :: bs₁ => jsonEq a b && jsonEqList as₁ bs₁
  | _, _ => false

/-- Fieldwise equality for `Json` objects. -/
def jsonEqFields : List (String × Json) → List (String × Json) → Bool
  | [], [] => true
  | (ka, va) :: as₁, (kb, vb) :: bs₁ => ka == kb && jsonEq va vb && jsonEqFields as₁ bs₁
  | _, _ => false
end

/-- Model of JavaScript `typeof` (for the error message in `run`). -/
def jsTypeof : Json → String
  | .null => "object"
  | .undef => "undefined"
  | .bool _ => "boolean"
  | .num _ => "number"
  | .str _ => "string"
  | .arr _ => "object"
  | .obj _ => "object"

/-! Path addressing (helpers/path.ts).  The own-property lookup
`Object.prototype.hasOwnProperty.call(current, segment)` is modelled by
`getProp`: object fields are present own properties (an explicitly
`undefined` field is stored as a `(key, .undef)` entry), arrays expose
canonical index keys and `length`; primitives have no own properties. -/

/-- Own-property lookup with the accessed value; `none` means absent. -/
def getProp : Json → String → Option Json
  | .obj fs, k => fs.lookup k
  | .arr xs, k =>
    if k == "length" then some (.num xs.length)
    else match k.toNat? with
      | some n => if toString n == k then xs.get? n else none
      | none => none
  | _, _ => none

/-- Splits a path segment of the form `key[digits]` (the lazy-key anchored
regex admits exactly a nonempty key followed by one final bracketed
nonempty digit group).  Returns the key, the original digit string and
its numeric value. -/
def splitIndexSegment (seg : String) : Option (String × String × Nat) :=
  match seg.data.reverse with
  | ']' :: rest =>
    let ds := rest.takeWhile Char.isDigit
    match rest.dropWhile Char.isDigit with
    | '[' :: keyRev =>
      if ds.isEmpty || keyRev.isEmpty then none
      else
        let dsf := ds.reverse
        some (String.mk keyRev.reverse, String.mk dsf, digitsVal dsf)
    | _ => none
  | _ => none

/-- Path error text for a null/undefined intermediate value. -/
def pathErrNull (path seg : String) : String :=
  "Path \"" ++ path ++ "\" does not exist: null/undefined at \"" ++ seg ++ "\"."

/-- Path error text for a bracket segment whose key is not an array. -/
def pathErrNotArr (path key : String) : String :=
  "Path \"" ++ path ++ "\" does not exist: \"" ++ key ++ "\" is not an array."

/-- Path error text for an out-of-bounds index. -/
def pathErrIdx (path idxStr : String) : String :=
  "Path \"" ++ path ++ "\" does not exist: index " ++ idxStr ++ " out of bounds."

/-- Path error text for an absent property. -/
def pathErrProp (path seg : String) : String :=
  "Path \"" ++ path ++ "\" does not exist: property \"" ++ seg ++ "\" not found."

/-- Loop body of `getByPath` over the remaining segments (lenient mode). -/
def walkLenient (path : String) : Json → List String → Except String Json
  | current, [] => .ok current
  | current, seg :: rest =>
    if isNullish current then .error (pathErrNull path seg)
    else match splitIndexSegment seg with
    | some (key, idxStr, idx) =>
      let next := (getProp current key).getD .undef
      if isNullish next then .error (pathErrNull path key)
      else match next with
        | .arr xs =>
          if h : idx < xs.length then walkLenient path (xs.get ⟨idx, h⟩) rest
          else .error (pathErrIdx path idxStr)
        | _ => .error (pathErrNotArr path key)
    | none =>
      match getProp current seg with
      | none => .error (pathErrProp path seg)
      | some v => walkLenient path v rest

/-- Loop body of `getByPathStrict`: as lenient, but any `undefined` value
produced by a segment access is an error. -/
def walkStrict (path : String) : Json → List String → Except String Json
  | current, [] => .ok current
  | current, seg :: rest =>
    if isNullish current then .error (pathErrNull path seg)
    else match splitIndexSegment seg with
    | some (key, idxStr, idx) =>
      let collection := (getProp current key).getD .undef
      if isNullish collection then .error (pathErrNull path key)
      else match collection with
        | .arr xs =>
          if h : idx < xs.length then
            let elem := xs.get ⟨idx, h⟩
            if isUndef elem then .error (pathErrIdx path idxStr)
            else walkStrict path elem rest
          else .error (pathErrIdx path idxStr)
        | _ => .error (pathErrNotArr path key)
    | none =>
      match getProp current seg with
      | none => .error (pathErrProp path seg)
      | some v =>
        if isUndef v then .error (pathErrProp path seg)
        else walkStrict path v rest

/-- Lenient dot-path accessor `getByPath` (helpers/path.ts): preserves an
explicitly present `undefined` leaf, errors on missing or non-traversable
segments. -/
def getByPath (obj : Json) (path : String) : Except String Json :=
  if path = "" then .ok obj
  else walkLenient path obj (splitDot path)

/-- Strict dot-path accessor `getByPathStrict` (helpers/path.ts): as
`getByPath`, but any `undefined` result, including at the leaf, is an error. -/
def getByPathStrict (obj : Json) (path : String) : Except String Json :=
  if path = "" then .ok obj
  else walkStrict path obj (splitDot path)

/-! Regex model (helpers/regex.ts).  Every regular expression the engine
builds is `new RegExp(anchors(escapeRegex(lit)), flags)`: the escaped body
matches the literal text `lit` verbatim, so a regex is represented
semantically by its match mode (which anchors were added), the literal,
and the `i` flag.  Case folding is ASCII (`String.toLower`). -/

/-- Match modes for string constraints (types.ts `MatchMode`). -/
inductive MatchMode where
  | exact
  | contains
  | startsWith
  | endsWith
deriving DecidableEq

/-- Options of a single where clause (types.ts `WhereOptions`, with the
builder defaults already required). -/
structure WhereOptions where
  caseInsensitive : Bool
  trim : Bool
deriving DecidableEq

/-- Semantic representation of a regex built from an escaped literal. -/
structure RegexLit where
  mode : MatchMode
  lit : String
  ignoreCase : Bool
deriving DecidableEq

/-- Builds the regex for a match mode (helpers/regex.ts `makeRegex`):
the value is trimmed when `opts.trim`, escaped, and anchored per mode;
represented by its `RegexLit` data. -/
def makeRegex (value : String) (mode : MatchMode) (opts : WhereOptions) : RegexLit :=
  { mode := mode
    lit := if opts.trim then jsTrim value else value
    ignoreCase := opts.caseInsensitive }

/-- Tests a literal-based regex against a string. -/
def regexTest (re : RegexLit) (s : String) : Bool :=
  let hay := if re.ignoreCase then lowerStr s else s
  let pat := if re.ignoreCase then lowerStr re.lit else re.lit
  match re.mode with
  | .exact => hay == pat
  | .startsWith => pat.data.isPrefixOf hay.data
  | .endsWith => pat.data.reverse.isPrefixOf hay.data.reverse
  | .contains => listIsInfix pat.data hay.data

/-! Clause model.  The engine hands Mongo-style match objects to the external
`sift` library; the matcher itself is not part of this repository.
`matchClause` below is therefore modelled from the spec (section 4.3):
literal equality is strict value equality, numeric comparisons treat the
field value as a number and are never satisfied by non-numeric values,
set membership is strict equality per element, regexes test the field
value coerced to string, a custom predicate receives the whole record,
an empty conjunction matches everything, and a disjunction matches when
at least one side does. -/

/-- Field constraint of a match object (the value shapes produced by
WhereBuilder, whereIn/whereAll and expressionToSiftClause). -/
inductive FieldCon where
  | eqLit (v : Json)
  | ne (v : Json)
  | gt (v : Json)
  | gte (v : Json)
  | lt (v : Json)
  | lte (v : Json)
  | inSet (vs : List Json)
  | regex (re : RegexLit)
  | notRegex (re : RegexLit)
  | whereFn (f : Json → Bool)

/-- Match-object tree: one object of field constraints, a `$and` list, or a
`$or` list. -/
inductive Clause where
  | fields (l : List (String × FieldCon))
  | and (cs : List Clause)
  | or (cs : List Clause)

/-- Single-field match object `{path: con}`. -/
def singleField (path : String) (con : FieldCon) : Clause :=
  .fields [(path, con)]

/-- Modelled from the spec: sift-style field resolution for matching —
a dotted path is walked through own properties, any missing step yields
`undefined`. -/
def resolveField (r : Json) (path : String) : Json :=
  if path = "" then r
  else (splitDot path).foldl (fun c s => (getProp c s).getD .undef) r

/-- Modelled from the spec: evaluation of one field constraint against the
resolved field value (sift is external to the repository). -/
def matchFieldCon (r : Json) (path : String) (con : FieldCon) : Bool :=
  let v := resolveField r path
  match con with
  | .eqLit w => jsonEq v w
  | .ne w => !jsonEq v w
  | .gt w =>
    match v, w with
    | .num a, .num b => decide (b < a)
    | _, _ => false
  | .gte w =>
    match v, w with
    | .num a, .num b => decide (b ≤ a)
    | _, _ => false
  | .lt w =>
    match v, w with
    | .num a, .num b => decide (a < b)
    | _, _ => false
  | .lte w =>
    match v, w with
    | .num a, .num b => decide (a ≤ b)
    | _, _ => false
  | .inSet ws => ws.any (fun w => jsonEq v w)
  | .regex re => regexTest re (jsToString v)
  | .notRegex re => !regexTest re (jsToString v)
  | .whereFn f => f r

mutual
/-- Modelled from the spec: evaluation of a match-object tree against one
record. -/
def matchClause : Clause → Json → Bool
  | .fields l, r => matchFields l r
  | .and cs, r => matchAll cs r
  | .or cs, r => matchAny cs r

/-- Conjunction over the field constraints of one match object. -/
def matchFields : List (String × FieldCon) → Json → Bool
  | [], _ => true
  | (p, c) :: rest, r => matchFieldCon r p c && matchFields rest r

/-- Conjunction over a `$and` list (empty means true). -/
def matchAll : List Clause → Json → Bool
  | [], _ => true
  | c :: rest, r => matchClause c r && matchAll rest r

/-- Disjunction over a `$or` list (empty means false). -/
def matchAny : List Clause → Json → Bool
  | [], _ => false
  | c :: rest, r => matchClause c r || matchAny rest r
end

/-! WhereBuilder (core/where-builder.ts).  A builder is transient state
`(negate, opts)` threaded through modifier calls; a terminal call turns it
into one match object pushed on the parent query. -/

/-- Mutable state of a `WhereBuilder` (the parent query is kept separate). -/
structure WhereBuilder where
  negate : Bool
  opts : WhereOptions
deriving DecidableEq

/-- Fresh builder as created by `where(path)` / `whereNot(path)`:
options default to case-insensitive and trimming. -/
def initBuilder (negate : Bool) : WhereBuilder :=
  { negate := negate, opts := { caseInsensitive := true, trim := true } }

/-- Modifier methods of `WhereBuilder` (each returns `this` in the source). -/
inductive Modifier where
  | not
  | ignoreCase
  | caseSensitive
  | trim
  | noTrim
deriving DecidableEq

/-- Applies one modifier method to the builder state. -/
def applyModifier (w : WhereBuilder) : Modifier → WhereBuilder
  | .not => { w with negate := true }
  | .ignoreCase => { w with opts := { w.opts with caseInsensitive := true } }
  | .caseSensitive => { w with opts := { w.opts with caseInsensitive := false } }
  | .trim => { w with opts := { w.opts with trim := true } }
  | .noTrim => { w with opts := { w.opts with trim := false } }

/-- Optional per-terminal options argument `{ignoreCase?, trim?}`. -/
structure EqOpts where
  ignoreCase : Option Bool
  trim : Option Bool
deriving DecidableEq

/-- Merges a terminal options argument into the builder state (the source
overwrites each option only when it is provided). -/
def applyTermOpts (w : WhereBuilder) : Option EqOpts → WhereBuilder
  | none => w
  | some o =>
    let w1 := match o.ignoreCase with
      | some b => { w with opts := { w.opts with caseInsensitive := b } }
      | none => w
    match o.trim with
    | some b => { w1 with opts := { w1.opts with trim := b } }
    | none => w1

/-- Clause built by `WhereBuilder.equals`: strings under case-insensitive
matching compile to an anchored regex, otherwise strict equality or `$ne`. -/
def equalsClause (w : WhereBuilder) (path : String) (v : Json) (o : Option EqOpts) : Clause :=
  let w := applyTermOpts w o
  match v with
  | .str s =>
    if w.opts.caseInsensitive then
      let re := makeRegex s .exact w.opts
      singleField path (if w.negate then .notRegex re else .regex re)
    else if w.negate then singleField path (.ne v)
    else singleField path (.eqLit v)
  | _ =>
    if w.negate then singleField path (.ne v)
    else singleField path (.eqLit v)

/-- Clause built by the regex-mode terminals contains/startsWith/endsWith. -/
def regexModeClause (w : WhereBuilder) (path : String) (v : String) (mode : MatchMode)
    (o : Option EqOpts) : Clause :=
  let w := applyTermOpts w o
  let re := makeRegex v mode w.opts
  singleField path (if w.negate then .notRegex re else .regex re)

/-- Terminal methods of `WhereBuilder`, with their arguments. -/
inductive WTerm where
  | equals (v : Json) (o : Option EqOpts)
  | eq (v : Json) (o : Option EqOpts)
  | ne (v : Json) (o : Option EqOpts)
  | contains (v : String) (o : Option EqOpts)
  | startsWith (v : String) (o : Option EqOpts)
  | endsWith (v : String) (o : Option EqOpts)
  | matches (re : RegexLit)
  | greaterThan (v : ℚ)
  | gt (v : ℚ)
  | greaterThanOrEqual (v : ℚ)
  | gte (v : ℚ)
  | lessThan (v : ℚ)
  | lt (v : ℚ)
  | lessThanOrEqual (v : ℚ)
  | lte (v : ℚ)

/-- Clause produced by a `WhereBuilder` terminal call: numeric comparisons
flip to the complementary operator under negation, `ne` is
`not().equals`, the aliases delegate to their full-name methods. -/
def wbTerminal (w : WhereBuilder) (path : String) : WTerm → Clause
  | .equals v o => equalsClause w path v o
  | .eq v o => equalsClause w path v o
  | .ne v o => equalsClause { w with negate := true } path v o
  | .contains v o => regexModeClause w path v .contains o
  | .startsWith v o => regexModeClause w path v .startsWith o
  | .endsWith v o => regexModeClause w path v .endsWith o
  | .matches re => singleField path (if w.negate then .notRegex re else .regex re)
  | .greaterThan v => singleField path (if w.negate then .lte (.num v) else .gt (.num v))
  | .gt v => singleField path (if w.negate then .lte (.num v) else .gt (.num v))
  | .greaterThanOrEqual v => singleField path (if w.negate then .lt (.num v) else .gte (.num v))
  | .gte v => singleField path (if w.negate then .lt (.num v) else .gte (.num v))
  | .lessThan v => singleField path (if w.negate then .gte (.num v) else .lt (.num v))
  | .lt v => singleField path (if w.negate then .gte (.num v) else .lt (.num v))
  | .lessThanOrEqual v => singleField path (if w.negate then .gt (.num v) else .lte (.num v))
  | .lte v => singleField path (if w.negate then .gt (.num v) else .lte (.num v))

/-- Clause of a full where chain `where(path)`/`whereNot(path)` followed by
modifiers and a terminal (mode-independent in the source). -/
def whereChainClause (neg : Bool) (path : String) (mods : List Modifier) (t : WTerm) : Clause :=
  wbTerminal (mods.foldl applyModifier (initBuilder neg)) path t

/-! Filter expression parser (filters/filter-expression.ts).  The source
matches the anchored regex
`^\s*([a-zA-Z_][a-zA-Z0-9_.]*)\s+(===?|!==?|>=|<=|>|<|not|contains|startsWith|endsWith)\s+(.+)$`.
Because the field charset excludes whitespace and every operator
alternative starts with a non-whitespace character, backtracking is
resolved deterministically: the field is the maximal field-character run,
the gap is the maximal whitespace run, the alternatives are tried in
regex order (with the greedy `?` expanded), and `\s+(.+)$` matches when at
least one whitespace character is followed by a nonempty newline-free
remainder (backtracking can leave exactly one trailing whitespace
character as the value when the remainder is otherwise empty). -/

/-- Characters the JavaScript dot `.` does not match. -/
def isDotExcluded (c : Char) : Bool :=
  c = '\n' || c = '\x0d'

/-- First character of a field (`[a-zA-Z_]`). -/
def isFieldStart (c : Char) : Bool :=
  c.isAlpha || c = '_'

/-- Subsequent characters of a field (`[a-zA-Z0-9_.]`). -/
def isFieldChar (c : Char) : Bool :=
  c.isAlpha || c.isDigit || c = '_' || c = '.'

/-- Operator alternatives of the regex, in matching order with the greedy
optional characters expanded. -/
def opAlternatives : List String :=
  ["===", "==", "!==", "!=", ">=", "<=", ">", "<", "not", "contains", "startsWith", "endsWith"]

/-- Continuation `\s+(.+)$` of the regex after an operator: the matched
value characters, or `none` when the continuation fails. -/
def valueTail (rest : List Char) : Option (List Char) :=
  let ws := rest.takeWhile isSpaceChar
  let rem := rest.dropWhile isSpaceChar
  if ws.isEmpty then none
  else if rem.isEmpty then
    match ws.getLast? with
    | some c => if ws.length ≥ 2 && !isDotExcluded c then some [c] else none
    | none => none
  else if rem.all (fun c => !isDotExcluded c) then some rem else none

/-- First operator alternative that matches at the current position and
whose continuation succeeds, with the captured value characters. -/
def findOp (rest : List Char) : Option (String × List Char) :=
  (opAlternatives.filterMap (fun op =>
    if op.data.isPrefixOf rest then
      (valueTail (rest.drop op.data.length)).map (fun v => (op, v))
    else none)).head?

/-- Result of `parseFilterExpression`. -/
structure ParsedFilter where
  field : String
  operator : String
  value : Json
deriving Inhabited

/-- Value literal handling of `parseFilterExpression`: quoted string,
number, boolean, null, undefined, or a bare word kept as a string. -/
def parseFilterValue (valueStr : String) : Json :=
  let t := jsTrim valueStr
  if (strStartsWithCh t '"' && strEndsWithCh t '"')
      || (strStartsWithCh t (Char.ofNat 39) && strEndsWithCh t (Char.ofNat 39)) then
    .str (String.mk t.data.dropLast.tail)
  else
    match (if t = "" then none else jsNumOfString t) with
    | some q => .num q
    | none =>
      if t = "true" then .bool true
      else if t = "false" then .bool false
      else if t = "null" then .null
      else if t = "undefined" then .undef
      else .str t

/-- Syntax error text of `parseFilterExpression` (names the original string). -/
def invalidFilterMsg (expression : String) : String :=
  "Invalid filter expression: \"" ++ expression ++
    "\". Expected format: \"field operator value\" (e.g., \"status == 'Active'\")"

/-- Parses a single filter expression `field operator value`
(filters/filter-expression.ts `parseFilterExpression`); the operator is
returned lowercased. -/
def parseFilterExpression (expression : String) : Except String ParsedFilter :=
  let cs := expression.data.dropWhile isSpaceChar
  match cs with
  | [] => .error (invalidFilterMsg expression)
  | c0 :: rest0 =>
    if isFieldStart c0 then
      let field := String.mk (c0 :: rest0.takeWhile isFieldChar)
      let afterField := rest0.dropWhile isFieldChar
      if (afterField.takeWhile isSpaceChar).isEmpty then .error (invalidFilterMsg expression)
      else
        match findOp (afterField.dropWhile isSpaceChar) with
        | none => .error (invalidFilterMsg expression)
        | some (op, valueChars) =>
          .ok { field := field
                operator := lowerStr op
                value := parseFilterValue (String.mk valueChars) }
    else .error (invalidFilterMsg expression)

/-- Options argument of `filter()` / the expression compiler. -/
structure FilterOpts where
  caseSensitive : Option Bool
  trim : Option Bool
  decimals : Option Nat

/-- JavaScript `Math.round`: half away from zero rounds toward plus
infinity. -/
def jsRound (x : ℚ) : Int :=
  Int.floor (x + 1 / 2)

/-- Decimal-rounded equality predicate used by the `$where` clause of
`expressionToSiftClause` for `==`/`===` with a `decimals` option
(`this[field]` is a direct own-property access, not a path walk). -/
def decimalsEqPred (field : String) (value : ℚ) (decimals : Nat) (this : Json) : Bool :=
  match (getProp this field).getD .undef with
  | .num fv =>
    decide ((jsRound (fv * 10 ^ decimals) : ℚ) / 10 ^ decimals
      = (jsRound (value * 10 ^ decimals) : ℚ) / 10 ^ decimals)
  | _ => false

/-- Decimal-rounded inequality predicate for `!=`/`!==`/`not` with a
`decimals` option; a non-numeric field value satisfies it. -/
def decimalsNePred (field : String) (value : ℚ) (decimals : Nat) (this : Json) : Bool :=
  match (getProp this field).getD .undef with
  | .num fv =>
    decide (¬ ((jsRound (fv * 10 ^ decimals) : ℚ) / 10 ^ decimals
      = (jsRound (value * 10 ^ decimals) : ℚ) / 10 ^ decimals))
  | _ => true

/-- Converts one parsed expression to a sift clause
(filters/filter-expression.ts `expressionToSiftClause`): `flags` is `i`
unless `caseSensitive` is truthy, trimming of the pattern defaults to on,
and an unknown operator is an error. -/
def expressionToSiftClause (field : String) (operator : String) (value : Json)
    (options : Option FilterOpts) : Except String Clause :=
  let ign : Bool := !(match options with
    | some o => o.caseSensitive.getD false
    | none => false)
  let shouldTrim : Bool := !(match options with
    | some o => o.trim == some false
    | none => false)
  let decs : Option Nat := match options with
    | some o => o.decimals
    | none => none
  if operator = "==" || operator = "===" then
    match decs, value with
    | some d, .num q => .ok (singleField field (.whereFn (decimalsEqPred field q d)))
    | _, _ => .ok (singleField field (.eqLit value))
  else if operator = "!=" || operator = "!==" || operator = "not" then
    match decs, value with
    | some d, .num q => .ok (singleField field (.whereFn (decimalsNePred field q d)))
    | _, _ => .ok (singleField field (.ne value))
  else if operator = ">" then .ok (singleField field (.gt value))
  else if operator = ">=" then .ok (singleField field (.gte value))
  else if operator = "<" then .ok (singleField field (.lt value))
  else if operator = "<=" then .ok (singleField field (.lte value))
  else if operator = "contains" then
    let str := jsToString value
    let processed := if shouldTrim then jsTrim str else str
    .ok (singleField field (.regex { mode := .contains, lit := processed, ignoreCase := ign }))
  else if operator = "startswith" then
    let str := jsToString value
    let processed := if shouldTrim then jsTrim str else str
    .ok (singleField field (.regex { mode := .startsWith, lit := processed, ignoreCase := ign }))
  else if operator = "endswith" then
    let str := jsToString value
    let processed := if shouldTrim then jsTrim str else str
    .ok (singleField field (.regex { mode := .endsWith, lit := processed, ignoreCase := ign }))
  else .error ("Unknown operator: \"" ++ operator ++ "\"")

/-- Compilation of one atomic expression inside the composite parser
(parse, then convert — the body of the `map` in the source). -/
def atomToClause (e : String) (options : Option FilterOpts) : Except String Clause := do
  let pf ← parseFilterExpression e
  expressionToSiftClause pf.field pf.operator pf.value options

/-! Logical operators (filters/logical-operators.ts). -/

/-- Logical connectives recognized by the splitter. -/
inductive LogicalOp where
  | and
  | or
deriving DecidableEq

/-- Result of `splitLogicalOperators`. -/
structure SplitResult where
  expressions : List String
  operators : List LogicalOp
deriving DecidableEq

/-- Lowercased 5-character prefix test for `" and "` (the check
`remaining.toLowerCase().startsWith(" and ")` of the source). -/
def lowPrefixAnd (cs : List Char) : Bool :=
  (cs.take 5).map Char.toLower == [' ', 'a', 'n', 'd', ' ']

/-- Lowercased 4-character prefix test for `" or "`. -/
def lowPrefixOr (cs : List Char) : Bool :=
  (cs.take 4).map Char.toLower == [' ', 'o', 'r', ' ']

/-- Quote characters recognized by the splitter. -/
def isQuoteChar (c : Char) : Bool :=
  c = '"' || c = (Char.ofNat 39)

/-- End-of-scan handling: the remaining current text is pushed when nonempty
after trimming. -/
def splitFinish (current : List Char) (exprs : List String) (ops : List LogicalOp) : SplitResult :=
  let cur := jsTrim (String.mk current)
  if cur = "" then ⟨exprs, ops⟩ else ⟨exprs ++ [cur], ops⟩

/-- Scanning loop of `splitLogicalOperators`: walks the characters tracking
quoting; outside quotes a case-insensitive `" and "` / `" or "` closes the
current expression.  `prev` is the previously consumed character (the last
character of a consumed connective is its trailing space).  `fuel` bounds
the iteration count; every step consumes at least one character, so the
initial fuel `cs.length` makes the zero-fuel branch unreachable. -/
def splitLoop (fuel : Nat) (cs : List Char) (prev : Option Char) (inQuotes : Bool)
    (quoteChar : Char) (current : List Char) (exprs : List String) (ops : List LogicalOp) :
    SplitResult :=
  match fuel with
  | 0 => splitFinish current exprs ops
  | fuel + 1 =>
    match cs with
    | [] => splitFinish current exprs ops
    | c :: rest =>
      if isQuoteChar c && (prev.isNone || prev ≠ some '\\') then
        let inQ' := if !inQuotes then true else if c = quoteChar then false else inQuotes
        let qc' := if !inQuotes then c else quoteChar
        splitLoop fuel rest (some c) inQ' qc' (current ++ [c]) exprs ops
      else if inQuotes then
        splitLoop fuel rest (some c) inQuotes quoteChar (current ++ [c]) exprs ops
      else if lowPrefixAnd cs then
        splitLoop fuel (rest.drop 4) (some ' ') inQuotes quoteChar []
          (exprs ++ [jsTrim (String.mk current)]) (ops ++ [.and])
      else if lowPrefixOr cs then
        splitLoop fuel (rest.drop 3) (some ' ') inQuotes quoteChar []
          (exprs ++ [jsTrim (String.mk current)]) (ops ++ [.or])
      else
        splitLoop fuel rest (some c) inQuotes quoteChar (current ++ [c]) exprs ops

/-- Splits a composite filter expression into atomic expressions and the
operator list (filters/logical-operators.ts `splitLogicalOperators`). -/
def splitLogicalOperators (expression : String) : SplitResult :=
  splitLoop expression.data.length expression.data none false ' ' [] [] []

/-- Left fold of the composite clause list over the operator list: each step
wraps the running result and the next clause in a binary `$and` / `$or`. -/
def foldComposite (first : Clause) (pairs : List (LogicalOp × Clause)) : Clause :=
  pairs.foldl (fun acc oc =>
    match oc.1 with
    | .and => .and [acc, oc.2]
    | .or => .or [acc, oc.2]) first

/-- Parses a composite filter expression
(filters/logical-operators.ts `parseCompositeFilterExpression`): split,
compile each atom, then fold left to right with no precedence.  The
source pairs `operators[i]` with `clauses[i+1]`; the model folds over the
zipped pairs (a trailing operator without a following clause is outside
the model). -/
def parseCompositeFilterExpression (expression : String) (options : Option FilterOpts) :
    Except String Clause :=
  let sr := splitLogicalOperators expression
  match sr.expressions with
  | [] => .error ("No valid expressions found in filter: \"" ++ expression ++ "\"")
  | [single] => atomToClause single options
  | es => do
    let clauses ← es.mapM (fun e => atomToClause e options)
    match clauses with
    | [] => .error ("No valid expressions found in filter: \"" ++ expression ++ "\"")
    | c0 :: crest => .ok (foldComposite c0 (sr.operators.zip crest))

/-! Sorting (`_applySorting` in core/array-query.ts).  The source copies the
items and calls `Array.prototype.sort` with a comparator that resolves
the sort path strictly on both operands, sends nullish keys to the end,
and otherwise compares with `<` / `>` (negated for descending order).
ECMAScript sort is stable, and for two or more items every element is
compared at least once, so a strict-resolution failure anywhere aborts
the sort; the model checks all keys (reporting the leftmost failure) and
then runs a stable insertion sort. -/

/-- Sort direction. -/
inductive Dir where
  | asc
  | desc
deriving DecidableEq

/-- Comparator value on two already-resolved sort keys: nullish keys sort
after everything regardless of direction, otherwise `<` / `>` with the
sign flipped for descending. -/
def cmpValues (dir : Dir) (va vb : Json) : Int :=
  if isNullish va then (if isNullish vb then 0 else 1)
  else if isNullish vb then -1
  else
    let c : Int := if jsLtB va vb then -1 else if jsLtB vb va then 1 else 0
    match dir with
    | .asc => c
    | .desc => -c

/-- Resolved sort key of an item (used only when strict resolution of every
item succeeded, so the `null` fallback is never reached). -/
def sortKeyD (path : String) (x : Json) : Json :=
  ((getByPathStrict x path).toOption).getD .null

/-- Total comparator over items for a sort path and direction. -/
def keyedCmp (path : String) (dir : Dir) (a b : Json) : Int :=
  cmpValues dir (sortKeyD path a) (sortKeyD path b)

/-- Stable insertion of one element: it is placed before the first element
that compares strictly greater, hence after every tie. -/
def insertSorted (cmp : Json → Json → Int) (x : Json) : List Json → List Json
  | [] => [x]
  | y :: ys => if cmp x y < 0 then x :: y :: ys else y :: insertSorted cmp x ys

/-- Stable insertion sort (the model of the engine's stable sort). -/
def stableSort (cmp : Json → Json → Int) (l : List Json) : List Json :=
  l.foldl (fun acc x => insertSorted cmp x acc) []

/-- Applies the configured sort (`_applySorting`): no-op without a sort path
(or with the falsy empty path) and for fewer than two items; a strict
resolution failure of any key aborts with that path error; otherwise a
stable comparator sort. -/
def applySortingModel (sortPath : Option String) (dir : Dir) (items : List Json) :
    Except String (List Json) :=
  match sortPath with
  | none => .ok items
  | some p =>
    if p = "" then .ok items
    else if items.length ≤ 1 then .ok items
    else
      match items.findSome? (fun it =>
        match getByPathStrict it p with
        | .error e => some e
        | .ok _ => none) with
      | some e => .error e
      | none => .ok (stableSort (keyedCmp p dir) items)

/-! ArrayQuery (core/array-query.ts).  One structure carries both modes:
`items = none` is the unbound pipeline, `items = some _` the bound query.
Recorded steps are a deep embedding of `{method, args}` records; clauses,
paths and functions recorded in `args` appear as typed payloads. -/

/-- Group-provenance metadata (types.ts `ArrayQueryMetadata`; item metadata
entries are `(groupKey, itemIndex)` pairs). -/
structure ArrayQueryMetadata where
  groupsRootPath : Option String
  arrayPath : Option String
  itemMetadata : Option (List (String × Nat))

/-- Terminal methods that execute on a bound query and record themselves as
a step on an unbound pipeline. -/
inductive Terminal where
  | all
  | count
  | existsT
  | every
  | first
  | last
  | one (message : Option String)
  | nth (index : Int)
  | sum (path : String)

/-- Recorded pipeline step (core/pipeline-step.ts `PipelineStep`): either a
simple `{method, args}` record or the compound where-chain record
`{method, path, modifiers, terminal}`. -/
inductive PStep where
  | pushClause (c : Clause)
  | sortStep (path : String) (dir : Dir)
  | takeStep (n : Int)
  | dropStep (n : Int)
  | mapStep (f : Json → Json)
  | flatMapStep (f : Json → List Json)
  | scanStep (f : Json → Json → Json) (init : Json)
  | zipStep (other : List Json)
  | whereStep (neg : Bool) (path : String) (mods : List Modifier) (t : WTerm)
  | terminalStep (t : Terminal)

/-- The ArrayQuery state: items (none = unbound), step log, accumulated
clauses, embedded array path, provenance metadata, and sort spec. -/
structure ArrayQuery where
  items : Option (List Json)
  steps : List PStep
  clauses : List Clause
  arrayPath : Option String
  metadata : Option ArrayQueryMetadata
  sortPath : Option String
  sortDirection : Dir

/-- Bound factory `ArrayQuery._bound(items, metadata?)`. -/
def ArrayQuery._bound (items : List Json) (metadata : Option ArrayQueryMetadata) : ArrayQuery :=
  { items := some items
    steps := []
    clauses := []
    arrayPath := metadata.bind (fun m => m.arrayPath)
    metadata := metadata
    sortPath := none
    sortDirection := .asc }

/-- Unbound factory `ArrayQuery._unbound(steps?, arrayPath?)` (also
`_fromSteps`). -/
def ArrayQuery._unbound (steps : List PStep) (arrayPath : Option String) : ArrayQuery :=
  { items := none
    steps := steps
    clauses := []
    arrayPath := arrayPath
    metadata := none
    sortPath := none
    sortDirection := .asc }

/-- Entry factory `arrayPipeline()`: an empty unbound pipeline. -/
def arrayPipeline : ArrayQuery :=
  ArrayQuery._unbound [] none

/-- Copy-with-one-more-step helper `_appendStep`. -/
def ArrayQuery._appendStep (q : ArrayQuery) (s : PStep) : ArrayQuery :=
  { q with steps := q.steps ++ [s] }

/-- Clause-pushing helper `_pushClause`: records the step always, extends
the clause list only in bound mode. -/
def ArrayQuery._pushClause (q : ArrayQuery) (c : Clause) : ArrayQuery :=
  { q with
    steps := q.steps ++ [.pushClause c]
    clauses := if q.items.isSome then q.clauses ++ [c] else q.clauses }

/-- Type-changing unbound derivation `_deriveUnbound`: appends the step and
resets clauses, metadata and the sort spec, keeping the array path. -/
def ArrayQuery._deriveUnbound (q : ArrayQuery) (s : PStep) : ArrayQuery :=
  { items := none
    steps := q.steps ++ [s]
    clauses := []
    arrayPath := q.arrayPath
    metadata := none
    sortPath := none
    sortDirection := .asc }

/-- Materialization `_executeFilter`: no clauses passes the items through,
one clause filters by it, several filter by their `$and`; then the sort
is applied. -/
def ArrayQuery._executeFilter (q : ArrayQuery) : Except String (List Json) :=
  let items := q.items.getD []
  let results := match q.clauses with
    | [] => items
    | [c] => items.filter (fun x => matchClause c x)
    | cs => items.filter (fun x => matchClause (.and cs) x)
  applySortingModel q.sortPath q.sortDirection results

/-- Chain method `sort(path, direction)`: records the step and replaces the
sort spec. -/
def ArrayQuery.sortBy (q : ArrayQuery) (path : String) (dir : Dir) : ArrayQuery :=
  { q with
    steps := q.steps ++ [.sortStep path dir]
    sortPath := some path
    sortDirection := dir }

/-- JavaScript `slice(0, n)` on a list. -/
def jsSliceTake (l : List Json) (n : Int) : List Json :=
  let len : Int := l.length
  let e := if n < 0 then max (len + n) 0 else min n len
  l.take e.toNat

/-- JavaScript `slice(n)` on a list. -/
def jsSliceDrop (l : List Json) (n : Int) : List Json :=
  let len : Int := l.length
  let s := if n < 0 then max (len + n) 0 else min n len
  l.drop s.toNat

/-- Chain method `take(n)`: records on an unbound pipeline; on a bound query
returns a fresh bound instance over the slice of the filtered view. -/
def ArrayQuery.takeN (q : ArrayQuery) (n : Int) : Except String ArrayQuery :=
  if q.items.isNone then .ok (q._appendStep (.takeStep n))
  else do
    let r ← q._executeFilter
    .ok (ArrayQuery._bound (jsSliceTake r n) none)

/-- Chain method `drop(n)`. -/
def ArrayQuery.dropN (q : ArrayQuery) (n : Int) : Except String ArrayQuery :=
  if q.items.isNone then .ok (q._appendStep (.dropStep n))
  else do
    let r ← q._executeFilter
    .ok (ArrayQuery._bound (jsSliceDrop r n) none)

/-- Transform `map(fn)`: unbound derivation, or a fresh bound instance over
the mapped filtered view. -/
def ArrayQuery.map (q : ArrayQuery) (f : Json → Json) : Except String ArrayQuery :=
  if q.items.isNone then .ok (q._deriveUnbound (.mapStep f))
  else do
    let r ← q._executeFilter
    .ok (ArrayQuery._bound (r.map f) none)

/-- Transform `flatMap(fn)`. -/
def ArrayQuery.flatMap (q : ArrayQuery) (f : Json → List Json) : Except String ArrayQuery :=
  if q.items.isNone then .ok (q._deriveUnbound (.flatMapStep f))
  else do
    let r ← q._executeFilter
    .ok (ArrayQuery._bound (List.flatten (r.map f)) none)

/-- Accumulator loop of `scan` (the values pushed after the initial one). -/
def scanLoop (f : Json → Json → Json) (acc : Json) : List Json → List Json
  | [] => []
  | x :: rest =>
    let a := f acc x
    a :: scanLoop f a rest

/-- Transform `scan(fn, init)`: all intermediate accumulator values,
starting with `init` (output length is input length plus one). -/
def ArrayQuery.scan (q : ArrayQuery) (f : Json → Json → Json) (init : Json) :
    Except String ArrayQuery :=
  if q.items.isNone then .ok (q._deriveUnbound (.scanStep f init))
  else do
    let r ← q._executeFilter
    .ok (ArrayQuery._bound (init :: scanLoop f init r) none)

/-- Transform `zip(other)`: pairs (as two-element arrays) up to the shorter
length. -/
def ArrayQuery.zip (q : ArrayQuery) (other : List Json) : Except String ArrayQuery :=
  if q.items.isNone then .ok (q._deriveUnbound (.zipStep other))
  else do
    let r ← q._executeFilter
    .ok (ArrayQuery._bound ((r.zip other).map (fun ab => .arr [ab.1, ab.2])) none)

/-- Terminal result values. -/
inductive TRes where
  | queryResult (items : List Json) (steps : List PStep) (arrayPath : Option String)
  | natRes (n : Nat)
  | boolRes (b : Bool)
  | itemRes (x : Json)
  | numRes (q : ℚ)

/-- Outcome of a replay position: still a query, or a terminal result. -/
inductive ReplayOut where
  | query (q : ArrayQuery)
  | result (r : TRes)

/-- Terminal `one(message?)`: on an unbound pipeline records itself; on a
bound query requires exactly one match, else throws the message (default
names the actual match count). -/
def ArrayQuery.one (q : ArrayQuery) (message : Option String) : Except String ReplayOut :=
  if q.items.isNone then .ok (.query (q._appendStep (.terminalStep (.one message))))
  else do
    let results ← q._executeFilter
    match results with
    | [x] => .ok (.result (.itemRes x))
    | _ => .error (message.getD
        ("Expected exactly 1 match, found " ++ toString results.length ++ "."))

/-- Dispatch of a terminal method on a query (bound executes, unbound
records the terminal as a step). -/
def callTerminal (q : ArrayQuery) (t : Terminal) : Except String ReplayOut :=
  match t with
  | .all =>
    if q.items.isNone then .ok (.query (q._appendStep (.terminalStep .all)))
    else do
      let results ← q._executeFilter
      .ok (.result (.queryResult results (q.steps ++ [.terminalStep .all]) q.arrayPath))
  | .count =>
    if q.items.isNone then .ok (.query (q._appendStep (.terminalStep .count)))
    else do
      let results ← q._executeFilter
      .ok (.result (.natRes results.length))
  | .existsT =>
    if q.items.isNone then .ok (.query (q._appendStep (.terminalStep .existsT)))
    else do
      let results ← q._executeFilter
      .ok (.result (.boolRes (results.length > 0)))
  | .every =>
    if q.items.isNone then .ok (.query (q._appendStep (.terminalStep .every)))
    else do
      let results ← q._executeFilter
      .ok (.result (.boolRes (results.length == (q.items.getD []).length)))
  | .first =>
    if q.items.isNone then .ok (.query (q._appendStep (.terminalStep .first)))
    else do
      let results ← q._executeFilter
      match results with
      | [] => .error "No matches found for first()."
      | x :: _ => .ok (.result (.itemRes x))
  | .last =>
    if q.items.isNone then .ok (.query (q._appendStep (.terminalStep .last)))
    else do
      let results ← q._executeFilter
      match results.getLast? with
      | none => .error "No matches found for last()."
      | some x => .ok (.result (.itemRes x))
  | .one message => q.one message
  | .nth index =>
    if q.items.isNone then .ok (.query (q._appendStep (.terminalStep (.nth index))))
    else do
      let results ← q._executeFilter
      if h : 0 ≤ index ∧ index.toNat < results.length then
        .ok (.result (.itemRes (results.get ⟨index.toNat, h.2⟩)))
      else
        .error ("Index " ++ toString index ++ " out of bounds. Found " ++
          toString results.length ++ " matches.")
  | .sum path =>
    if q.items.isNone then .ok (.query (q._appendStep (.terminalStep (.sum path))))
    else do
      let results ← q._executeFilter
      let total ← results.foldlM (fun acc it => do
        let v ← getByPathStrict it path
        pure (acc + match v with
          | .num x => x
          | _ => 0)) (0 : ℚ)
      .ok (.result (.numRes total))

/-- Error text when a replayed step is applied to a terminal result (the
source would raise a TypeError calling a method on a non-query value). -/
def notAQueryMsg : String :=
  "TypeError: cannot apply a step to a terminal result"

/-- Dispatch of one recorded step on a query, as the replay loop does by
method name; the compound where step builds the where chain and invokes
its modifiers and terminal. -/
def applyStepOut (q : ArrayQuery) : PStep → Except String ReplayOut
  | .pushClause c => .ok (.query (q._pushClause c))
  | .sortStep p d => .ok (.query (q.sortBy p d))
  | .takeStep n => (q.takeN n).map .query
  | .dropStep n => (q.dropN n).map .query
  | .mapStep f => (q.map f).map .query
  | .flatMapStep f => (q.flatMap f).map .query
  | .scanStep f i => (q.scan f i).map .query
  | .zipStep other => (q.zip other).map .query
  | .whereStep neg path mods t => .ok (.query (q._pushClause (whereChainClause neg path mods t)))
  | .terminalStep t => callTerminal q t

/-- Replay loop (`_replay` body): folds the recorded steps over the current
value, which starts as a fresh bound query. -/
def replayFold (out : ReplayOut) : List PStep → Except String ReplayOut
  | [] => .ok out
  | s :: rest =>
    match out with
    | .query q => do
      let out' ← applyStepOut q s
      replayFold out' rest
    | .result _ => .error notAQueryMsg

/-- Replay `_replay(items, steps, metadata?)`: construct a fresh bound
instance and fold the step log over it. -/
def ArrayQuery._replay (items : List Json) (steps : List PStep)
    (metadata : Option ArrayQueryMetadata) : Except String ReplayOut :=
  replayFold (.query (ArrayQuery._bound items metadata)) steps

/-- Pipeline execution `run(input)` on an unbound query: with an embedded
array path the input is a root object and the path must resolve to an
array; otherwise the input itself is the data array. -/
def ArrayQuery.run (q : ArrayQuery) (input : Json) : Except String ReplayOut :=
  match q.arrayPath with
  | some p => do
    let v ← getByPathStrict input p
    match v with
    | .arr xs => ArrayQuery._replay xs q.steps none
    | other => .error ("Expected array at path \"" ++ p ++ "\", got " ++ jsTypeof other ++ ".")
  | none =>
    match input with
    | .arr xs => ArrayQuery._replay xs q.steps none
    | _ => .error "TypeError: run() input is not an array"

/-- Recipe application `boundQuery.run(recipe)` (the bound branch of `run`):
replays the recipe's steps over the already-materialized results. -/
def ArrayQuery.runRecipe (q recipe : ArrayQuery) : Except String ReplayOut := do
  let r ← q._executeFilter
  ArrayQuery._replay r recipe.steps none

/-- Recipe extraction `toRecipe(stripTerminal?)`: an unbound pipeline over a
copy of the step log, optionally dropping the final step. -/
def ArrayQuery.toRecipe (q : ArrayQuery) (stripTerminal : Bool) : ArrayQuery :=
  let steps := if stripTerminal && !q.steps.isEmpty then q.steps.dropLast else q.steps
  ArrayQuery._unbound steps q.arrayPath

/-! Surface chain calls.  `Call` is the deep embedding of the chainable
methods quantified over by the parity and immutability claims; `applyCall`
executes one call directly on a query (both modes), exactly as the
corresponding method body does. -/

/-- Chainable surface calls (same element type in and out). -/
inductive Call where
  | whereChain (neg : Bool) (path : String) (mods : List Modifier) (t : WTerm)
  | whereSift (c : Clause)
  | filterExpr (e : String) (opts : Option FilterOpts)
  | whereIn (path : String) (vals : List Json)
  | whereAll (criteria : List (String × Json))
  | sortCall (path : String) (dir : Dir)
  | takeCall (n : Int)
  | dropCall (n : Int)
  | mapCall (f : Json → Json)
  | flatMapCall (f : Json → List Json)
  | scanCall (f : Json → Json → Json) (init : Json)
  | zipCall (other : List Json)

/-- Error text of `whereIn` with an empty value list. -/
def whereInEmptyMsg (path : String) : String :=
  "whereIn(\"" ++ path ++ "\") requires a non-empty array of values."

/-- Direct execution of one chain call on a query. -/
def applyCall (q : ArrayQuery) : Call → Except String ArrayQuery
  | .whereChain neg path mods t => .ok (q._pushClause (whereChainClause neg path mods t))
  | .whereSift c => .ok (q._pushClause c)
  | .filterExpr e o => do
    let c ← parseCompositeFilterExpression e o
    .ok (q._pushClause c)
  | .whereIn p vs =>
    if vs.isEmpty then .error (whereInEmptyMsg p)
    else .ok (q._pushClause (singleField p (.inSet vs)))
  | .whereAll criteria =>
    .ok (q._pushClause (.fields (criteria.map (fun kv => (kv.1, FieldCon.eqLit kv.2)))))
  | .sortCall p d => .ok (q.sortBy p d)
  | .takeCall n => q.takeN n
  | .dropCall n => q.dropN n
  | .mapCall f => q.map f
  | .flatMapCall f => q.flatMap f
  | .scanCall f init => q.scan f init
  | .zipCall other => q.zip other

/-- Fold of a list of chain calls over a query. -/
def chainFold (q : ArrayQuery) : List Call → Except String ArrayQuery
  | [] => .ok q
  | c :: rest => do
    let q' ← applyCall q c
    chainFold q' rest

/-! Heap model for the immutability claim.  JavaScript arrays are mutable
references; every chain method copies with a spread (`[...this.steps, s]`,
`[...this.clauses, c]`) instead of mutating in place.  The heap model
makes this observable: a `Store` is the list of allocated step and clause
arrays, a query holds indices into it, and every copy allocates a fresh
array at the end of the store.  `absQuery` maps a store and a reference
back to the pure `ArrayQuery` state. -/

/-- Allocation store of step arrays and clause arrays. -/
structure Store where
  stepArrays : List (List PStep)
  clauseArrays : List (List Clause)

/-- ArrayQuery state with its two arrays held by reference. -/
structure ArrayQueryRef where
  items : Option (List Json)
  stepsRef : Nat
  clausesRef : Nat
  arrayPath : Option String
  metadata : Option ArrayQueryMetadata
  sortPath : Option String
  sortDirection : Dir

/-- Dereferences a step array. -/
def Store.getSteps (s : Store) (i : Nat) : List PStep :=
  (s.stepArrays.get? i).getD []

/-- Dereferences a clause array. -/
def Store.getClauses (s : Store) (i : Nat) : List Clause :=
  (s.clauseArrays.get? i).getD []

/-- Allocates a fresh step array, returning its index. -/
def Store.allocSteps (s : Store) (xs : List PStep) : Store × Nat :=
  ({ s with stepArrays := s.stepArrays ++ [xs] }, s.stepArrays.length)

/-- Allocates a fresh clause array, returning its index. -/
def Store.allocClauses (s : Store) (xs : List Clause) : Store × Nat :=
  ({ s with clauseArrays := s.clauseArrays ++ [xs] }, s.clauseArrays.length)

/-- References are in range of the store. -/
def validRef (s : Store) (p : ArrayQueryRef) : Prop :=
  p.stepsRef < s.stepArrays.length ∧ p.clausesRef < s.clauseArrays.length

/-- Abstraction of a store and a reference to the pure query state. -/
def absQuery (s : Store) (p : ArrayQueryRef) : ArrayQuery :=
  { items := p.items
    steps := s.getSteps p.stepsRef
    clauses := s.getClauses p.clausesRef
    arrayPath := p.arrayPath
    metadata := p.metadata
    sortPath := p.sortPath
    sortDirection := p.sortDirection }

/-- Heap version of `_appendStep`: copies the step array with one more
entry into a fresh allocation; the clause array stays shared. -/
def appendStepRef (s : Store) (p : ArrayQueryRef) (step : PStep) : Store × ArrayQueryRef :=
  let (s1, si) := s.allocSteps (s.getSteps p.stepsRef ++ [step])
  (s1, { p with stepsRef := si })

/-- Heap version of `_pushClause`: fresh step array always; in bound mode
also a fresh extended clause array, in unbound mode the clause array is
shared unchanged. -/
def pushClauseRef (s : Store) (p : ArrayQueryRef) (c : Clause) : Store × ArrayQueryRef :=
  let (s1, si) := s.allocSteps (s.getSteps p.stepsRef ++ [.pushClause c])
  if p.items.isSome then
    let (s2, ci) := s1.allocClauses (s.getClauses p.clausesRef ++ [c])
    (s2, { p with stepsRef := si, clausesRef := ci })
  else
    (s1, { p with stepsRef := si })

/-- Heap version of `sort`: fresh step array, clause array shared, sort spec
replaced. -/
def sortByRef (s : Store) (p : ArrayQueryRef) (path : String) (dir : Dir) :
    Store × ArrayQueryRef :=
  let (s1, si) := s.allocSteps (s.getSteps p.stepsRef ++ [.sortStep path dir])
  (s1, { p with stepsRef := si, sortPath := some path, sortDirection := dir })

/-- Heap version of `_bound` with no metadata: two fresh empty arrays. -/
def boundMkRef (s : Store) (items : List Json) : Store × ArrayQueryRef :=
  let (s1, si) := s.allocSteps []
  let (s2, ci) := s1.allocClauses []
  (s2,
    { items := some items
      stepsRef := si
      clausesRef := ci
      arrayPath := none
      metadata := none
      sortPath := none
      sortDirection := .asc })

/-- Heap version of `_deriveUnbound`: fresh extended step array and a fresh
empty clause array. -/
def deriveUnboundRef (s : Store) (p : ArrayQueryRef) (step : PStep) : Store × ArrayQueryRef :=
  let (s1, si) := s.allocSteps (s.getSteps p.stepsRef ++ [step])
  let (s2, ci) := s1.allocClauses []
  (s2,
    { items := none
      stepsRef := si
      clausesRef := ci
      arrayPath := p.arrayPath
      metadata := none
      sortPath := none
      sortDirection := .asc })

/-- Direct execution of one chain call in the heap model (errors are thrown
before any allocation, as in the source). -/
def applyCallRef (s : Store) (p : ArrayQueryRef) : Call → Store × Except String ArrayQueryRef
  | .whereChain neg path mods t =>
    let (s', p') := pushClauseRef s p (whereChainClause neg path mods t)
    (s', .ok p')
  | .whereSift c =>
    let (s', p') := pushClauseRef s p c
    (s', .ok p')
  | .filterExpr e o =>
    match parseCompositeFilterExpression e o with
    | .error err => (s, .error err)
    | .ok c =>
      let (s', p') := pushClauseRef s p c
      (s', .ok p')
  | .whereIn path vs =>
    if vs.isEmpty then (s, .error (whereInEmptyMsg path))
    else
      let (s', p') := pushClauseRef s p (singleField path (.inSet vs))
      (s', .ok p')
  | .whereAll criteria =>
    let (s', p') := pushClauseRef s p (.fields (criteria.map (fun kv => (kv.1, FieldCon.eqLit kv.2))))
    (s', .ok p')
  | .sortCall path dir =>
    let (s', p') := sortByRef s p path dir
    (s', .ok p')
  | .takeCall n =>
    if p.items.isNone then
      let (s', p') := appendStepRef s p (.takeStep n)
      (s', .ok p')
    else
      match (absQuery s p)._executeFilter with
      | .error e => (s, .error e)
      | .ok r =>
        let (s', p') := boundMkRef s (jsSliceTake r n)
        (s', .ok p')
  | .dropCall n =>
    if p.items.isNone then
      let (s', p') := appendStepRef s p (.dropStep n)
      (s', .ok p')
    else
      match (absQuery s p)._executeFilter with
      | .error e => (s, .error e)
      | .ok r =>
        let (s', p') := boundMkRef s (jsSliceDrop r n)
        (s', .ok p')
  | .mapCall f =>
    if p.items.isNone then
      let (s', p') := deriveUnboundRef s p (.mapStep f)
      (s', .ok p')
    else
      match (absQuery s p)._executeFilter with
      | .error e => (s, .error e)
      | .ok r =>
        let (s', p') := boundMkRef s (r.map f)
        (s', .ok p')
  | .flatMapCall f =>
    if p.items.isNone then
      let (s', p') := deriveUnboundRef s p (.flatMapStep f)
      (s', .ok p')
    else
      match (absQuery s p)._executeFilter with
      | .error e => (s, .error e)
      | .ok r =>
        let (s', p') := boundMkRef s (List.flatten (r.map f))
        (s', .ok p')
  | .scanCall f init =>
    if p.items.isNone then
      let (s', p') := deriveUnboundRef s p (.scanStep f init)
      (s', .ok p')
    else
      match (absQuery s p)._executeFilter with
      | .error e => (s, .error e)
      | .ok r =>
        let (s', p') := boundMkRef s (init :: scanLoop f init r)
        (s', .ok p')
  | .zipCall other =>
    if p.items.isNone then
      let (s', p') := deriveUnboundRef s p (.zipStep other)
      (s', .ok p')
    else
      match (absQuery s p)._executeFilter with
      | .error e => (s, .error e)
      | .ok r =>
        let (s', p') := boundMkRef s ((r.zip other).map (fun ab => .arr [ab.1, ab.2]))
        (s', .ok p')

/-- Observable outcome of a chain call from a reference: the abstract state
of the produced instance, or the thrown error. -/
def branchObs (s : Store) (p : ArrayQueryRef) (c : Call) : Except String ArrayQuery :=
  match applyCallRef s p c with
  | (s', .ok p') => .ok (absQuery s' p')
  | (_, .error e) => .error e

/-- Store extension: every already-allocated array is preserved; an
execution step may only append new allocations. -/
def storeExt (s s2 : Store) : Prop :=
  (exists t : List (List PStep), s2.stepArrays = s.stepArrays ++ t) /\
  (exists t : List (List Clause), s2.clauseArrays = s.clauseArrays ++ t)

/-! Statement-support definitions used by the claim theorems. -/

/-- Boolean success test for `Except`. -/
def isOkE {α : Type} : Except String α → Bool
  | .ok _ => true
  | .error _ => false

/-- Default cardinality message of `one()` for a given match count. -/
def oneDefaultMsg (n : Nat) : String :=
  "Expected exactly 1 match, found " ++ toString n ++ "."

/-- Key-class test: the resolved sort key is `null`. -/
def keyIsNull (p : String) (x : Json) : Bool :=
  match sortKeyD p x with
  | .null => true
  | _ => false

/-- Key-class test: the resolved sort key is a number or `null`. -/
def keyIsNumOrNull (p : String) (x : Json) : Bool :=
  match sortKeyD p x with
  | .num _ => true
  | .null => true
  | _ => false

/-- Key-class test: the resolved sort key is a string or `null`. -/
def keyIsStrOrNull (p : String) (x : Json) : Bool :=
  match sortKeyD p x with
  | .str _ => true
  | .null => true
  | _ => false

/-- Rank of an item's sort key under a partial embedding into a linear
order; unembeddable keys (in particular `null`) rank at the top. -/
def rankOf {W : Type} (emb : Json → Option W) (p : String) (x : Json) : WithTop W :=
  match emb (sortKeyD p x) with
  | some w => (w : WithTop W)
  | none => ⊤

/-- Integer comparator generated by a linear-order rank. -/
def rankCmp {W : Type} [LinearOrder W] (ra rb : WithTop W) : Int :=
  if ra < rb then -1 else if rb < ra then 1 else 0

/-- Embedding for ascending numeric sort keys. -/
def embNumAsc : Json → Option ℚ
  | .num q => some q
  | _ => none

/-- Embedding for descending numeric sort keys (into the dual order). -/
def embNumDesc : Json → Option (OrderDual ℚ)
  | .num q => some (OrderDual.toDual q)
  | _ => none

/-- Embedding for ascending string sort keys. -/
def embStrAsc : Json → Option String
  | .str s => some s
  | _ => none

/-- Embedding for descending string sort keys (into the dual order). -/
def embStrDesc : Json → Option (OrderDual String)
  | .str s => some (OrderDual.toDual s)
  | _ => none

/-- Well-formed field characters for a filter expression
(`[a-zA-Z_][a-zA-Z0-9_.]*`). -/
def wfFieldChars : List Char → Bool
  | [] => false
  | c :: r => isFieldStart c && r.all isFieldChar

/-- Well-formed value characters for a filter expression: nonempty, not
starting with whitespace, and free of newline-class characters. -/
def wfValueChars : List Char → Bool
  | [] => false
  | c :: r => !isSpaceChar c && !isDotExcluded c && r.all (fun d => !isDotExcluded d)

/-- Character-level case variation: the character is the given one, its
uppercase form, or its lowercase form (so a variant word is any
letter-casing of the canonical word). -/
def caseVariantChar (c d : Char) : Prop :=
  c = d ∨ c = d.toUpper ∨ c = d.toLower

/-- The word-form operators of the filter grammar, in canonical spelling. -/
def wordOps : List String :=
  ["not", "contains", "startsWith", "endsWith"]

/-- One-segment step of the lenient walk. -/
def stepLenient (path : String) (c : Json) (seg : String) : Except String Json :=
  walkLenient path c [seg]

/-- One-segment step of the strict walk. -/
def stepStrict (path : String) (c : Json) (seg : String) : Except String Json :=
  walkStrict path c [seg]

/-- Execution of the bound-or-replayed tail of a chain-call list from a
replay position (used to state parity). -/
def applyCallsOut (o : ReplayOut) (calls : List Call) : Except String ReplayOut :=
  match o with
  | .query q => (chainFold q calls).map .query
  | .result r =>
    match calls with
    | [] => .ok (.result r)
    | _ :: _ => .error notAQueryMsg

/-- Is the value a number. -/
def isNum : Json → Bool
  | .num _ => true
  | _ => false

/-- Sample record (spec scenario dataset). -/
def itemA : Json :=
  .obj [("id", .num 1), ("type", .str "Premium"), ("price", .num 500)]

/-- Sample record (spec scenario dataset). -/
def itemB : Json :=
  .obj [("id", .num 2), ("type", .str "Basic"), ("price", .num 50)]

/-- Sample record (spec scenario dataset). -/
def itemC : Json :=
  .obj [("id", .num 3), ("type", .str "Premium"), ("price", .num 300)]

/-- Sample dataset of the spec scenarios. -/
def sampleItems : List Json :=
  [itemA, itemB, itemC]

/-- A concrete call chain for the parity scenario: sift filter on type,
sort by price descending, take one. -/
def parityCalls : List Call :=
  [.whereSift (singleField "type" (.eqLit (.str "Premium"))),
   .sortCall "price" .desc,
   .takeCall 1]

/-- The unbound pipeline obtained by recording `parityCalls` on the entry
pipeline. -/
def parityRecorded : ArrayQuery :=
  ((arrayPipeline._pushClause (singleField "type" (.eqLit (.str "Premium")))).sortBy
    "price" .desc)._appendStep (.takeStep 1)

/-- Sample records for the sort scenario: numeric and null price keys,
with a duplicated key value. -/
def wSortItems : List Json :=
  [.obj [("price", .num 5), ("id", .num 1)],
   .obj [("price", .null), ("id", .num 2)],
   .obj [("price", .num 3), ("id", .num 3)],
   .obj [("price", .num 5), ("id", .num 4)]]

/-- A concrete one-allocation store for the immutability scenario. -/
def wStore : Store :=
  { stepArrays := [[]], clauseArrays := [[]] }

/-- A concrete unbound reference into `wStore`. -/
def wRef : ArrayQueryRef :=
  { items := none
    stepsRef := 0
    clausesRef := 0
    arrayPath := none
    metadata := none
    sortPath := none
    sortDirection := .asc }

/-! Theorems. -/

/-- C6: on a bound query, `one()` returns the single record exactly when
precisely one record matches the accumulated clauses; zero and two-or-more
matches fail with the default message reporting the actual match count,
and the messages for zero and for two matches are distinct. -/
theorem one_cardinality (q : ArrayQuery) (xs res : List Json)
    (hb : q.items = some xs) (hex : q._executeFilter = .ok res) :
    (∀ x, res = [x] → q.one none = .ok (.result (.itemRes x))) ∧
    (res.length ≠ 1 → q.one none = .error (oneDefaultMsg res.length)) ∧
    oneDefaultMsg 0 ≠ oneDefaultMsg 2 := by
  refine ⟨?_, ?_, by decide⟩
  · intro x hres
    subst hres
    simp only [ArrayQuery.one, hb, hex, Option.isNone_some, Bool.false_eq_true, if_false]
    rfl
  · intro hlen
    match hres : res with
    | [] =>
      simp only [ArrayQuery.one, hb, hex, hres, Option.isNone_some, Bool.false_eq_true, if_false]
      rfl
    | [x] => simp [hres] at hlen
    | x :: y :: rest =>
      simp only [ArrayQuery.one, hb, hex, hres, Option.isNone_some, Bool.false_eq_true, if_false]
      rfl

/-- C6 witness: a bound query over the sample dataset with a clause matching
no record; `one()` fails reporting zero matches. -/
theorem one_cardinality_witness :
    ((ArrayQuery._bound sampleItems none)._pushClause
        (singleField "id" (.eqLit (.num 7)))).items = some sampleItems ∧
    ((ArrayQuery._bound sampleItems none)._pushClause
        (singleField "id" (.eqLit (.num 7))))._executeFilter = .ok [] ∧
    ((ArrayQuery._bound sampleItems none)._pushClause
        (singleField "id" (.eqLit (.num 7)))).one none = .error (oneDefaultMsg 0) ∧
    oneDefaultMsg 0 ≠ oneDefaultMsg 2 := by
  refine ⟨rfl, rfl, ?_, ?_⟩
  · have h := one_cardinality
      ((ArrayQuery._bound sampleItems none)._pushClause (singleField "id" (.eqLit (.num 7))))
      sampleItems [] rfl rfl
    exact h.2.1 (by decide)
  · exact (one_cardinality
      ((ArrayQuery._bound sampleItems none)._pushClause (singleField "id" (.eqLit (.num 7))))
      sampleItems [] rfl rfl).2.2

/-- C7: negated numeric comparisons flip to the complementary operator
(`whereNot`/`not()` turn `$gt` into `$lte`, `$gte` into `$lt`, `$lt` into
`$gte`, `$lte` into `$gt`), and a record whose field value is non-numeric
satisfies neither a numeric comparison nor its negation. -/
theorem negated_numeric_comparisons (path : String) (v : ℚ) :
    (whereChainClause true path [] (.greaterThan v) = singleField path (.lte (.num v))) ∧
    (whereChainClause false path [.not] (.greaterThan v) = singleField path (.lte (.num v))) ∧
    (whereChainClause true path [] (.greaterThanOrEqual v) = singleField path (.lt (.num v))) ∧
    (whereChainClause true path [] (.lessThan v) = singleField path (.gte (.num v))) ∧
    (whereChainClause true path [] (.lessThanOrEqual v) = singleField path (.gt (.num v))) ∧
    (whereChainClause false path [] (.greaterThan v) = singleField path (.gt (.num v))) ∧
    (∀ r : Json, isNum (resolveField r path) = false →
      matchClause (singleField path (.gt (.num v))) r = false ∧
      matchClause (singleField path (.lte (.num v))) r = false ∧
      matchClause (singleField path (.gte (.num v))) r = false ∧
      matchClause (singleField path (.lt (.num v))) r = false) := by
  refine ⟨rfl, rfl, rfl, rfl, rfl, rfl, ?_⟩
  intro r hnn
  simp only [matchClause, singleField, matchFields, matchFieldCon, Bool.and_true]
  cases hval : resolveField r path <;>
    simp_all [isNum, matchClause, matchFields, matchFieldCon]

/-- C7 witness: the flipped clauses at path `price` with bound 100, and a
record whose `price` is the string `abc` matching neither direction. -/
theorem negated_numeric_comparisons_witness :
    isNum (resolveField (.obj [("price", .str "abc")]) "price") = false ∧
    whereChainClause true "price" [] (.greaterThan 100) = singleField "price" (.lte (.num 100)) ∧
    matchClause (singleField "price" (.gt (.num 100))) (.obj [("price", .str "abc")]) = false ∧
    matchClause (singleField "price" (.lte (.num 100))) (.obj [("price", .str "abc")]) = false := by
  have h := negated_numeric_comparisons "price" 100
  have h2 := h.2.2.2.2.2.2 (.obj [("price", .str "abc")]) rfl
  exact ⟨rfl, h.1, h2.1, h2.2.1⟩

/-- C9: on a bound query, `map` returns a fresh bound instance built by
`_bound` over the transformed filtered view, with empty clauses, an empty
step log and no metadata or array path; `toRecipe` on the transformed
instance therefore yields a pipeline with zero recorded steps. -/
theorem map_discards_history (q : ArrayQuery) (xs res : List Json) (f : Json → Json)
    (hb : q.items = some xs) (hex : q._executeFilter = .ok res) :
    q.map f = .ok (ArrayQuery._bound (res.map f) none) ∧
    (ArrayQuery._bound (res.map f) none).items = some (res.map f) ∧
    (ArrayQuery._bound (res.map f) none).steps = [] ∧
    (ArrayQuery._bound (res.map f) none).clauses = [] ∧
    (ArrayQuery._bound (res.map f) none).metadata = none ∧
    (ArrayQuery._bound (res.map f) none).arrayPath = none ∧
    (∀ strip : Bool, ((ArrayQuery._bound (res.map f) none).toRecipe strip).steps = []) := by
  refine ⟨?_, rfl, rfl, rfl, rfl, rfl, ?_⟩
  · simp only [ArrayQuery.map, hb, hex, Option.isNone_some, Bool.false_eq_true, if_false]
    rfl
  · intro strip
    cases strip <;> rfl

/-- C9 witness: mapping the identity over the bound sample dataset. -/
theorem map_discards_history_witness :
    (ArrayQuery._bound sampleItems none)._executeFilter = .ok sampleItems ∧
    (ArrayQuery._bound sampleItems none).map (fun v => v) =
      .ok (ArrayQuery._bound (sampleItems.map (fun v => v)) none) ∧
    (∀ strip : Bool,
      ((ArrayQuery._bound (sampleItems.map (fun v => v)) none).toRecipe strip).steps = []) := by
  have h := map_discards_history (ArrayQuery._bound sampleItems none) sampleItems sampleItems
    (fun v => v) rfl rfl
  exact ⟨rfl, h.1, h.2.2.2.2.2.2⟩

/-- Length and entries of the scan accumulator list. -/
theorem scanLoop_spec (f : Json → Json → Json) :
    ∀ (l : List Json) (a : Json),
      (scanLoop f a l).length = l.length ∧
      ∀ i : Nat, i < l.length →
        (scanLoop f a l).get? i = some (List.foldl f a (l.take (i + 1))) := by
  intro l
  induction l with
  | nil => intro a; exact ⟨rfl, by intro i hi; cases hi⟩
  | cons x rest ih =>
    intro a
    refine ⟨by simp [scanLoop, (ih (f a x)).1], ?_⟩
    intro i hi
    cases i with
    | zero => simp [scanLoop]
    | succ j =>
      have hj : j < rest.length := by simpa using hi
      simpa [scanLoop] using (ih (f a x)).2 j hj

/-- C10: on a bound query whose filtered-and-sorted view has `k` records,
`scan(fn, init)` returns a bound query over a list of length `k + 1` whose
first element is `init` and whose `(i+1)`-th element is the left fold of
`fn` over the first `i` records starting from `init`; with zero matching
records the result is the one-element list `[init]`. -/
theorem scan_postcondition (q : ArrayQuery) (xs res : List Json)
    (f : Json → Json → Json) (init : Json)
    (hb : q.items = some xs) (hex : q._executeFilter = .ok res) :
    q.scan f init = .ok (ArrayQuery._bound (init :: scanLoop f init res) none) ∧
    (init :: scanLoop f init res).length = res.length + 1 ∧
    (init :: scanLoop f init res).get? 0 = some init ∧
    (∀ i : Nat, i ≤ res.length →
      (init :: scanLoop f init res).get? i = some (List.foldl f init (res.take i))) ∧
    (res = [] → init :: scanLoop f init res = [init]) := by
  refine ⟨?_, by simp [(scanLoop_spec f res init).1], rfl, ?_, ?_⟩
  · simp only [ArrayQuery.scan, hb, hex, Option.isNone_some, Bool.false_eq_true, if_false]
    rfl
  · intro i hi
    cases i with
    | zero => rfl
    | succ j =>
      have hj : j < res.length := by omega
      simpa using (scanLoop_spec f res init).2 j hj
  · intro hres
    subst hres
    rfl

/-- C10 witness: scanning the sample dataset with a constant function, and
the empty-input case. -/
theorem scan_postcondition_witness :
    (ArrayQuery._bound sampleItems none).scan (fun a _ => a) (.num 0) =
      .ok (ArrayQuery._bound
        [.num 0, .num 0, .num 0, .num 0] none) ∧
    (ArrayQuery._bound ([] : List Json) none).scan (fun a _ => a) (.num 0) =
      .ok (ArrayQuery._bound [.num 0] none) := by
  have h1 := scan_postcondition (ArrayQuery._bound sampleItems none) sampleItems sampleItems
    (fun a _ => a) (.num 0) rfl rfl
  have h2 := scan_postcondition (ArrayQuery._bound ([] : List Json) none) [] []
    (fun a _ => a) (.num 0) rfl rfl
  exact ⟨h1.1, h2.1⟩

/-- C3: multi-clause filter expressions fold left to right with no
precedence between `and` and `or`: a split into atoms `A B C` with
operators `[and, or]` compiles to `{$or: [{$and: [A, B]}, C]}`, and with
operators `[or, and]` to `{$and: [{$or: [A, B]}, C]}`. -/
theorem left_fold_composition (s : String) (o : Option FilterOpts) (ea eb ec : String)
    (A B C : Clause)
    (hA : atomToClause ea o = .ok A) (hB : atomToClause eb o = .ok B)
    (hC : atomToClause ec o = .ok C) :
    (splitLogicalOperators s = ⟨[ea, eb, ec], [.and, .or]⟩ →
      parseCompositeFilterExpression s o = .ok (.or [.and [A, B], C])) ∧
    (splitLogicalOperators s = ⟨[ea, eb, ec], [.or, .and]⟩ →
      parseCompositeFilterExpression s o = .ok (.and [.or [A, B], C])) := by
  constructor <;>
  · intro hsplit
    simp only [parseCompositeFilterExpression, hsplit]
    simp only [List.mapM, List.mapM.loop, hA, hB, hC]
    rfl

/-- C3 witness: the composite expressions `a == 'x' and b == 'y' or c == 'z'`
and `a == 'x' or b == 'y' and c == 'z'` compile to the two claimed shapes. -/
theorem left_fold_composition_witness :
    atomToClause "a == 'x'" none = .ok (singleField "a" (.eqLit (.str "x"))) ∧
    parseCompositeFilterExpression "a == 'x' and b == 'y' or c == 'z'" none =
      .ok (.or [.and [singleField "a" (.eqLit (.str "x")), singleField "b" (.eqLit (.str "y"))],
                singleField "c" (.eqLit (.str "z"))]) ∧
    parseCompositeFilterExpression "a == 'x' or b == 'y' and c == 'z'" none =
      .ok (.and [.or [singleField "a" (.eqLit (.str "x")), singleField "b" (.eqLit (.str "y"))],
                 singleField "c" (.eqLit (.str "z"))]) := by
  have h1 := left_fold_composition "a == 'x' and b == 'y' or c == 'z'" none
    "a == 'x'" "b == 'y'" "c == 'z'"
    (singleField "a" (.eqLit (.str "x"))) (singleField "b" (.eqLit (.str "y")))
    (singleField "c" (.eqLit (.str "z"))) rfl rfl rfl
  have h2 := left_fold_composition "a == 'x' or b == 'y' and c == 'z'" none
    "a == 'x'" "b == 'y'" "c == 'z'"
    (singleField "a" (.eqLit (.str "x"))) (singleField "b" (.eqLit (.str "y")))
    (singleField "c" (.eqLit (.str "z"))) rfl rfl rfl
  exact ⟨rfl, h1.1 rfl, h2.2 rfl⟩

/-- Take/drop-while through an append whose left part satisfies the
predicate and whose boundary element does not. -/
theorem takeWhile_dropWhile_append {p : Char → Bool} :
    ∀ (l : List Char) (x : Char) (r : List Char),
      (∀ c ∈ l, p c = true) → p x = false →
      (l ++ x :: r).takeWhile p = l ∧ (l ++ x :: r).dropWhile p = x :: r := by
  intro l
  induction l with
  | nil =>
    intro x r _ hx
    simp [List.takeWhile_cons, List.dropWhile_cons, hx]
  | cons c l ih =>
    intro x r hall hx
    have hc : p c = true := hall c (List.mem_cons_self c l)
    have ih' := ih x r (fun d hd => hall d (List.mem_cons_of_mem c hd)) hx
    simp [List.takeWhile_cons, List.dropWhile_cons, hc, ih'.1, ih'.2]

/-- A whitespace character is not a field-start character. -/
theorem fieldStart_not_space (c : Char) (h : isFieldStart c = true) : isSpaceChar c = false := by
  cases hsp : isSpaceChar c
  · rfl
  · exfalso
    simp only [isSpaceChar, Bool.or_eq_true, decide_eq_true_eq] at hsp
    rcases hsp with ((((h1 | h1) | h1) | h1) | h1) | h1 <;> subst h1 <;> simp [isFieldStart] at h

/-- A prefix as long as the left part of an append forces equality with it. -/
theorem isPrefixOf_append_length_eq :
    ∀ (ws cs rest : List Char), ws.length = cs.length →
      ws.isPrefixOf (cs ++ rest) = true → cs = ws := by
  intro ws
  induction ws with
  | nil =>
    intro cs rest hlen _
    cases cs
    · rfl
    · simp at hlen
  | cons w ws ih =>
    intro cs rest hlen hpre
    cases cs with
    | nil => simp at hlen
    | cons c cs =>
      simp only [List.cons_append, List.isPrefixOf, Bool.and_eq_true, beq_iff_eq] at hpre
      have := ih cs rest (by simpa using hlen) hpre.2
      simp [hpre.1, this]

/-- The parse of `field SPACE mid` where the field is well-formed and `mid`
starts with a non-space character: the field is consumed, then the
operator search runs on `mid`. -/
theorem parseFilterExpression_split (fieldCs : List Char) (midCs : List Char)
    (hf : wfFieldChars fieldCs = true)
    (hmidne : midCs ≠ [])
    (hmid : ∀ c, midCs.head? = some c → isSpaceChar c = false) :
    parseFilterExpression (String.mk (fieldCs ++ ' ' :: midCs)) =
      match findOp midCs with
      | none => .error (invalidFilterMsg (String.mk (fieldCs ++ ' ' :: midCs)))
      | some (op, valueChars) =>
        .ok { field := String.mk fieldCs, operator := lowerStr op,
              value := parseFilterValue (String.mk valueChars) } := by
  cases fieldCs with
  | nil => simp [wfFieldChars] at hf
  | cons c0 ftail =>
    simp only [wfFieldChars, Bool.and_eq_true, List.all_eq_true] at hf
    obtain ⟨h0, hall⟩ := hf
    have h0sp : isSpaceChar c0 = false := fieldStart_not_space c0 h0
    obtain ⟨vc, vr, rfl⟩ : ∃ vc vr, midCs = vc :: vr := by
      cases midCs with
      | nil => exact absurd rfl hmidne
      | cons vc vr => exact ⟨vc, vr, rfl⟩
    have hvc : isSpaceChar vc = false := hmid vc rfl
    have htd := takeWhile_dropWhile_append (p := isFieldChar) ftail ' ' (vc :: vr)
      (fun c hc => hall c hc) (by decide)
    simp only [parseFilterExpression]
    show (match (c0 :: (ftail ++ ' ' :: vc :: vr)).dropWhile isSpaceChar with
      | [] => _ | c0 :: rest0 => _) = _
    rw [List.dropWhile_cons_of_neg (by simp [h0sp])]
    simp only [h0, if_true]
    rw [htd.1, htd.2]
    rw [List.takeWhile_cons_of_pos (by decide)]
    simp only [List.isEmpty_cons, Bool.false_eq_true, if_false]
    rw [List.dropWhile_cons_of_pos (by decide), List.dropWhile_cons_of_neg (by simp [hvc])]

/-- Value continuation after a single space in front of well-formed value
characters. -/
theorem valueTail_space (vs : List Char) (hv : wfValueChars vs = true) :
    valueTail (' ' :: vs) = some vs := by
  cases vs with
  | nil => simp [wfValueChars] at hv
  | cons vc vr =>
    simp only [wfValueChars, Bool.and_eq_true, List.all_eq_true, Bool.not_eq_true'] at hv
    obtain ⟨⟨hvc, hvd⟩, hall⟩ := hv
    rw [valueTail]
    rw [List.takeWhile_cons_of_pos (by decide), List.takeWhile_cons_of_neg (by simp [hvc]),
      List.dropWhile_cons_of_pos (by decide), List.dropWhile_cons_of_neg (by simp [hvc])]
    simp only [List.isEmpty_cons, Bool.false_eq_true, if_false]
    have : (vc :: vr).all (fun c => !isDotExcluded c) = true := by
      simp only [List.all_cons, List.all_eq_true, Bool.not_eq_true', Bool.and_eq_true]
      exact ⟨hvd, hall⟩
    simp [this]

/-- Operator search on the four canonical word operators followed by a space
and well-formed value characters. -/
theorem findOp_canonical (vs : List Char) (hv : wfValueChars vs = true) :
    findOp ('n' :: 'o' :: 't' :: ' ' :: vs) = some ("not", vs) ∧
    findOp ('c' :: 'o' :: 'n' :: 't' :: 'a' :: 'i' :: 'n' :: 's' :: ' ' :: vs) =
      some ("contains", vs) ∧
    findOp ('s' :: 't' :: 'a' :: 'r' :: 't' :: 's' :: 'W' :: 'i' :: 't' :: 'h' :: ' ' :: vs) =
      some ("startsWith", vs) ∧
    findOp ('e' :: 'n' :: 'd' :: 's' :: 'W' :: 'i' :: 't' :: 'h' :: ' ' :: vs) =
      some ("endsWith", vs) := by
  have hvt := valueTail_space vs hv
  refine ⟨?_, ?_, ?_, ?_⟩ <;>
    simp [findOp, opAlternatives, List.filterMap, List.isPrefixOf, hvt]

/-- The operator search fails when no alternative prefix-matches. -/
theorem findOp_none_of_prefix_false (rest : List Char)
    (h : ∀ a ∈ opAlternatives, a.data.isPrefixOf rest = false) :
    findOp rest = none := by
  have hnil : opAlternatives.filterMap (fun op =>
      if op.data.isPrefixOf rest then
        (valueTail (rest.drop op.data.length)).map (fun v => (op, v))
      else none) = [] := by
    rw [List.filterMap_eq_nil_iff]
    intro a ha
    rw [h a ha]
    simp
  rw [findOp, hnil]
  rfl

/-- A case variant of a word-form operator that differs from the canonical
spelling matches no operator alternative. -/
theorem findOp_variant_none (w : String) (hw : w ∈ wordOps) (opCs vs : List Char)
    (hvar : List.Forall₂ caseVariantChar opCs w.data) (hne : opCs ≠ w.data) :
    findOp (opCs ++ ' ' :: vs) = none := by
  have hlen : opCs.length = w.data.length := hvar.length_eq
  have hpre : (w.data.isPrefixOf (opCs ++ ' ' :: vs)) = false := by
    cases hp : w.data.isPrefixOf (opCs ++ ' ' :: vs)
    · rfl
    · exact absurd (isPrefixOf_append_length_eq w.data opCs (' ' :: vs) hlen.symm hp) hne
  simp only [wordOps, List.mem_cons, List.not_mem_nil, or_false] at hw
  rcases hw with rfl | rfl | rfl | rfl
  · rw [show ("not".data) = ['n', 'o', 't'] from rfl] at hvar
    rcases hvar with _ | ⟨h1, -⟩
    apply findOp_none_of_prefix_false
    intro a ha
    fin_cases ha <;> rcases h1 with rfl | rfl | rfl <;> first | exact hpre | rfl
  · rw [show ("contains".data) = ['c', 'o', 'n', 't', 'a', 'i', 'n', 's'] from rfl] at hvar
    rcases hvar with _ | ⟨h1, -⟩
    apply findOp_none_of_prefix_false
    intro a ha
    fin_cases ha <;> rcases h1 with rfl | rfl | rfl <;> first | exact hpre | rfl
  · rw [show ("startsWith".data) = ['s', 't', 'a', 'r', 't', 's', 'W', 'i', 't', 'h'] from rfl] at hvar
    rcases hvar with _ | ⟨h1, -⟩
    apply findOp_none_of_prefix_false
    intro a ha
    fin_cases ha <;> rcases h1 with rfl | rfl | rfl <;> first | exact hpre | rfl
  · rw [show ("endsWith".data) = ['e', 'n', 'd', 's', 'W', 'i', 't', 'h'] from rfl] at hvar
    rcases hvar with _ | ⟨h1, -⟩
    apply findOp_none_of_prefix_false
    intro a ha
    fin_cases ha <;> rcases h1 with rfl | rfl | rfl <;> first | exact hpre | rfl

/-- C5 (amended): word-form operators are recognized case-sensitively in
their canonical spelling only.  A single-clause expression whose operator
is spelled exactly `not`, `contains`, `startsWith` or `endsWith` parses,
with the operator token lowercased; any other letter-casing of these
words is not recognized and parsing fails with the syntax error naming
the original string. -/
theorem word_operator_case_sensitive :
    (∀ (fieldCs valueCs : List Char) (op : String), op ∈ wordOps →
      wfFieldChars fieldCs = true → wfValueChars valueCs = true →
      parseFilterExpression (String.mk (fieldCs ++ ' ' :: (op.data ++ ' ' :: valueCs))) =
        .ok { field := String.mk fieldCs, operator := lowerStr op,
              value := parseFilterValue (String.mk valueCs) }) ∧
    (∀ (fieldCs valueCs opCs : List Char) (w : String), w ∈ wordOps →
      List.Forall₂ caseVariantChar opCs w.data → opCs ≠ w.data →
      wfFieldChars fieldCs = true → wfValueChars valueCs = true →
      parseFilterExpression (String.mk (fieldCs ++ ' ' :: (opCs ++ ' ' :: valueCs))) =
        .error (invalidFilterMsg (String.mk (fieldCs ++ ' ' :: (opCs ++ ' ' :: valueCs))))) := by
  constructor
  · intro fieldCs valueCs op hop hf hv
    have hfind := findOp_canonical valueCs hv
    simp only [wordOps, List.mem_cons, List.not_mem_nil, or_false] at hop
    rcases hop with rfl | rfl | rfl | rfl
    · rw [show (("not" : String).data ++ ' ' :: valueCs) = 'n' :: 'o' :: 't' :: ' ' :: valueCs
          from rfl,
        parseFilterExpression_split fieldCs _ hf (by simp)
          (fun c hc => by
            simp only [List.head?_cons, Option.some.injEq] at hc
            subst hc
            rfl),
        hfind.1]
    · rw [show (("contains" : String).data ++ ' ' :: valueCs)
            = 'c' :: 'o' :: 'n' :: 't' :: 'a' :: 'i' :: 'n' :: 's' :: ' ' :: valueCs from rfl,
        parseFilterExpression_split fieldCs _ hf (by simp)
          (fun c hc => by
            simp only [List.head?_cons, Option.some.injEq] at hc
            subst hc
            rfl),
        hfind.2.1]
    · rw [show (("startsWith" : String).data ++ ' ' :: valueCs)
            = 's' :: 't' :: 'a' :: 'r' :: 't' :: 's' :: 'W' :: 'i' :: 't' :: 'h' :: ' ' :: valueCs
          from rfl,
        parseFilterExpression_split fieldCs _ hf (by simp)
          (fun c hc => by
            simp only [List.head?_cons, Option.some.injEq] at hc
            subst hc
            rfl),
        hfind.2.2.1]
    · rw [show (("endsWith" : String).data ++ ' ' :: valueCs)
            = 'e' :: 'n' :: 'd' :: 's' :: 'W' :: 'i' :: 't' :: 'h' :: ' ' :: valueCs from rfl,
        parseFilterExpression_split fieldCs _ hf (by simp)
          (fun c hc => by
            simp only [List.head?_cons, Option.some.injEq] at hc
            subst hc
            rfl),
        hfind.2.2.2]
  · intro fieldCs valueCs opCs w hw hvar hne hf hv
    have hfind := findOp_variant_none w hw opCs valueCs hvar hne
    have hopne : opCs ≠ [] := by
      intro hnil
      subst hnil
      have := hvar.length_eq
      simp only [wordOps, List.mem_cons, List.not_mem_nil, or_false] at hw
      rcases hw with rfl | rfl | rfl | rfl <;> simp at this
    have hheadvar : ∀ c, opCs.head? = some c → isSpaceChar c = false := by
      simp only [wordOps, List.mem_cons, List.not_mem_nil, or_false] at hw
      rcases hw with rfl | rfl | rfl | rfl
      · rw [show (("not" : String).data) = ['n', 'o', 't'] from rfl] at hvar
        rcases hvar with _ | ⟨h1, -⟩
        intro c hc
        simp only [List.head?_cons, Option.some.injEq] at hc
        subst hc
        rcases h1 with rfl | rfl | rfl <;> rfl
      · rw [show (("contains" : String).data) = ['c', 'o', 'n', 't', 'a', 'i', 'n', 's'] from rfl]
          at hvar
        rcases hvar with _ | ⟨h1, -⟩
        intro c hc
        simp only [List.head?_cons, Option.some.injEq] at hc
        subst hc
        rcases h1 with rfl | rfl | rfl <;> rfl
      · rw [show (("startsWith" : String).data)
            = ['s', 't', 'a', 'r', 't', 's', 'W', 'i', 't', 'h'] from rfl] at hvar
        rcases hvar with _ | ⟨h1, -⟩
        intro c hc
        simp only [List.head?_cons, Option.some.injEq] at hc
        subst hc
        rcases h1 with rfl | rfl | rfl <;> rfl
      · rw [show (("endsWith" : String).data) = ['e', 'n', 'd', 's', 'W', 'i', 't', 'h'] from rfl]
          at hvar
        rcases hvar with _ | ⟨h1, -⟩
        intro c hc
        simp only [List.head?_cons, Option.some.injEq] at hc
        subst hc
        rcases h1 with rfl | rfl | rfl <;> rfl
    have hc1 : ∀ c, (opCs ++ ' ' :: valueCs).head? = some c → isSpaceChar c = false := by
      intro c hc
      apply hheadvar c
      cases opCs with
      | nil => exact absurd rfl hopne
      | cons a l => simpa using hc
    rw [parseFilterExpression_split fieldCs _ hf (by simp) hc1, hfind]

/-- C5 counterexample: the word-form operator written in upper case is not
recognized — `name CONTAINS 'x'` fails with the syntax error naming the
original string, refuting case-insensitive operator matching. -/
theorem word_operator_uppercase_rejected :
    parseFilterExpression "name CONTAINS 'x'" =
      .error (invalidFilterMsg "name CONTAINS 'x'") ∧
    parseFilterExpression "name contains 'x'" =
      .ok { field := "name", operator := "contains", value := .str "x" } := by
  exact ⟨rfl, rfl⟩

/-- C5 witness: the amended theorem applied at the concrete expression
`name contains 'x'` (canonical parses), its upper-case variant
`name CONTAINS 'x'` (rejected with the syntax error), and the
lower-case variant `name startswith 'x'` (also rejected). -/
theorem word_operator_case_sensitive_witness :
    String.mk ("name".data ++ ' ' :: ("contains".data ++ ' ' :: "'x'".data)) =
      "name contains 'x'" ∧
    String.mk ("name".data ++ ' ' :: ("CONTAINS".data ++ ' ' :: "'x'".data)) =
      "name CONTAINS 'x'" ∧
    String.mk ("name".data ++ ' ' :: ("startswith".data ++ ' ' :: "'x'".data)) =
      "name startswith 'x'" ∧
    parseFilterExpression (String.mk ("name".data ++ ' ' :: ("contains".data ++ ' ' :: "'x'".data)))
      = .ok { field := String.mk "name".data, operator := lowerStr "contains",
              value := parseFilterValue (String.mk "'x'".data) } ∧
    parseFilterExpression (String.mk ("name".data ++ ' ' :: ("CONTAINS".data ++ ' ' :: "'x'".data)))
      = .error (invalidFilterMsg
          (String.mk ("name".data ++ ' ' :: ("CONTAINS".data ++ ' ' :: "'x'".data)))) ∧
    parseFilterExpression
        (String.mk ("name".data ++ ' ' :: ("startswith".data ++ ' ' :: "'x'".data)))
      = .error (invalidFilterMsg
          (String.mk ("name".data ++ ' ' :: ("startswith".data ++ ' ' :: "'x'".data)))) := by
  have hvar : List.Forall₂ caseVariantChar "CONTAINS".data "contains".data := by
    rw [show (("CONTAINS" : String).data) = ['C', 'O', 'N', 'T', 'A', 'I', 'N', 'S'] from rfl,
      show (("contains" : String).data) = ['c', 'o', 'n', 't', 'a', 'i', 'n', 's'] from rfl]
    refine .cons (Or.inr (Or.inl rfl)) (.cons (Or.inr (Or.inl rfl))
      (.cons (Or.inr (Or.inl rfl)) (.cons (Or.inr (Or.inl rfl))
        (.cons (Or.inr (Or.inl rfl)) (.cons (Or.inr (Or.inl rfl))
          (.cons (Or.inr (Or.inl rfl)) (.cons (Or.inr (Or.inl rfl)) .nil)))))))
  have hvar2 : List.Forall₂ caseVariantChar "startswith".data "startsWith".data := by
    rw [show (("startswith" : String).data)
          = ['s', 't', 'a', 'r', 't', 's', 'w', 'i', 't', 'h'] from rfl,
      show (("startsWith" : String).data)
          = ['s', 't', 'a', 'r', 't', 's', 'W', 'i', 't', 'h'] from rfl]
    refine .cons (Or.inl rfl) (.cons (Or.inl rfl) (.cons (Or.inl rfl) (.cons (Or.inl rfl)
      (.cons (Or.inl rfl) (.cons (Or.inl rfl) (.cons (Or.inr (Or.inr rfl))
        (.cons (Or.inl rfl) (.cons (Or.inl rfl) (.cons (Or.inl rfl) .nil)))))))))
  refine ⟨rfl, rfl, rfl, ?_, ?_, ?_⟩
  · exact word_operator_case_sensitive.1 "name".data "'x'".data "contains"
      (by simp [wordOps]) rfl rfl
  · exact word_operator_case_sensitive.2 "name".data "'x'".data "CONTAINS".data "contains"
      (by simp [wordOps]) hvar (by decide) rfl rfl
  · exact word_operator_case_sensitive.2 "name".data "'x'".data "startswith".data "startsWith"
      (by simp [wordOps]) hvar2 (by decide) rfl rfl

/-- Binding the pure continuation is the identity on `Except`. -/
theorem exceptBind_pure {α : Type} (e : Except String α) : e.bind Except.ok = e := by
  cases e <;> rfl

/-- Replay distributes over step-log concatenation. -/
theorem replayFold_append (s₁ s₂ : List PStep) :
    ∀ out : ReplayOut,
      replayFold out (s₁ ++ s₂) = (replayFold out s₁).bind (fun o => replayFold o s₂) := by
  induction s₁ with
  | nil => intro out; rfl
  | cons s rest ih =>
    intro out
    cases out with
    | query q =>
      rw [show replayFold (ReplayOut.query q) ((s :: rest) ++ s₂)
            = (applyStepOut q s).bind (fun o => replayFold o (rest ++ s₂)) from rfl,
        show replayFold (ReplayOut.query q) (s :: rest)
            = (applyStepOut q s).bind (fun o => replayFold o rest) from rfl]
      cases happ : applyStepOut q s with
      | error e => rfl
      | ok o => exact ih o
    | result r => rfl

/-- Replay of a single step from a query position. -/
theorem replayFold_single (q : ArrayQuery) (s : PStep) :
    replayFold (.query q) [s] = applyStepOut q s := by
  show (applyStepOut q s).bind (fun o => replayFold o []) = applyStepOut q s
  cases happ : applyStepOut q s <;> rfl

/-- Unbound terminal calls record the terminal as a step and return the
pipeline. -/
theorem callTerminal_unbound (q : ArrayQuery) (t : Terminal) (hu : q.items = none) :
    callTerminal q t = .ok (.query (q._appendStep (.terminalStep t))) := by
  cases t <;> simp [callTerminal, ArrayQuery.one, hu]

/-- A successful chain call on an unbound query records exactly one step,
keeps the query unbound with the same array path, and the recorded step
replays on any query as the direct call does. -/
theorem applyCall_unbound_record (u : ArrayQuery) (c : Call) (u' : ArrayQuery)
    (hu : u.items = none) (h : applyCall u c = .ok u') :
    u'.items = none ∧ u'.arrayPath = u.arrayPath ∧
    ∃ s : PStep, u'.steps = u.steps ++ [s] ∧
      ∀ b : ArrayQuery, applyStepOut b s = (applyCall b c).map ReplayOut.query := by
  cases c with
  | whereChain neg path mods t =>
    simp only [applyCall] at h
    injection h with h
    subst h
    exact ⟨hu, rfl, ⟨_, rfl, fun b => rfl⟩⟩
  | whereSift cl =>
    simp only [applyCall] at h
    injection h with h
    subst h
    exact ⟨hu, rfl, ⟨_, rfl, fun b => rfl⟩⟩
  | filterExpr e o =>
    simp only [applyCall] at h
    cases hp : parseCompositeFilterExpression e o with
    | error err => rw [hp] at h; exact Except.noConfusion h
    | ok cl =>
      rw [hp] at h
      injection h with h
      subst h
      refine ⟨hu, rfl, ⟨.pushClause cl, rfl, fun b => ?_⟩⟩
      show Except.ok (ReplayOut.query (b._pushClause cl))
        = (applyCall b (.filterExpr e o)).map ReplayOut.query
      rw [show applyCall b (.filterExpr e o)
            = (parseCompositeFilterExpression e o).bind (fun d => Except.ok (b._pushClause d))
          from rfl, hp]
      rfl
  | whereIn path vs =>
    simp only [applyCall] at h
    cases hemp : vs.isEmpty with
    | true => rw [hemp] at h; simp at h
    | false =>
      rw [hemp] at h
      simp only [Bool.false_eq_true, if_false] at h
      injection h with h
      subst h
      refine ⟨hu, rfl, ⟨.pushClause (singleField path (.inSet vs)), rfl, fun b => ?_⟩⟩
      show Except.ok (ReplayOut.query (b._pushClause (singleField path (.inSet vs))))
        = (applyCall b (.whereIn path vs)).map ReplayOut.query
      rw [show applyCall b (.whereIn path vs)
            = (if vs.isEmpty then Except.error (whereInEmptyMsg path)
               else Except.ok (b._pushClause (singleField path (.inSet vs)))) from rfl, hemp]
      rfl
  | whereAll criteria =>
    simp only [applyCall] at h
    injection h with h
    subst h
    exact ⟨hu, rfl, ⟨_, rfl, fun b => rfl⟩⟩
  | sortCall path dir =>
    simp only [applyCall] at h
    injection h with h
    subst h
    exact ⟨hu, rfl, ⟨_, rfl, fun b => rfl⟩⟩
  | takeCall n =>
    simp only [applyCall, ArrayQuery.takeN, hu, Option.isNone_none, if_true] at h
    injection h with h
    subst h
    exact ⟨hu, rfl, ⟨_, rfl, fun b => rfl⟩⟩
  | dropCall n =>
    simp only [applyCall, ArrayQuery.dropN, hu, Option.isNone_none, if_true] at h
    injection h with h
    subst h
    exact ⟨hu, rfl, ⟨_, rfl, fun b => rfl⟩⟩
  | mapCall f =>
    simp only [applyCall, ArrayQuery.map, hu, Option.isNone_none, if_true] at h
    injection h with h
    subst h
    exact ⟨rfl, rfl, ⟨_, rfl, fun b => rfl⟩⟩
  | flatMapCall f =>
    simp only [applyCall, ArrayQuery.flatMap, hu, Option.isNone_none, if_true] at h
    injection h with h
    subst h
    exact ⟨rfl, rfl, ⟨_, rfl, fun b => rfl⟩⟩
  | scanCall f init =>
    simp only [applyCall, ArrayQuery.scan, hu, Option.isNone_none, if_true] at h
    injection h with h
    subst h
    exact ⟨rfl, rfl, ⟨_, rfl, fun b => rfl⟩⟩
  | zipCall other =>
    simp only [applyCall, ArrayQuery.zip, hu, Option.isNone_none, if_true] at h
    injection h with h
    subst h
    exact ⟨rfl, rfl, ⟨_, rfl, fun b => rfl⟩⟩

/-- A successful fold of chain calls on an unbound pipeline stays unbound,
keeps the array path, and only appends steps whose replay from any position
is exactly the direct fold of the same calls. -/
theorem chainFold_record (calls : List Call) :
    forall u uf : ArrayQuery, u.items = none -> chainFold u calls = .ok uf ->
      uf.items = none /\ uf.arrayPath = u.arrayPath /\
      exists ss : List PStep, uf.steps = u.steps ++ ss /\
        forall out : ReplayOut, replayFold out ss = applyCallsOut out calls := by
  induction calls with
  | nil =>
    intro u uf hu h
    injection h with h
    subst h
    refine ⟨hu, rfl, [], by simp, ?_⟩
    intro out
    cases out with
    | query q => rfl
    | result r => rfl
  | cons c rest ih =>
    intro u uf hu h
    cases hac : applyCall u c with
    | error e =>
      rw [show chainFold u (c :: rest)
            = Except.bind (applyCall u c) (fun q => chainFold q rest) from rfl, hac] at h
      exact Except.noConfusion h
    | ok m =>
      have h2 : chainFold m rest = .ok uf := by
        rw [show chainFold u (c :: rest)
              = Except.bind (applyCall u c) (fun q => chainFold q rest) from rfl, hac] at h
        exact h
      obtain ⟨hmi, hmpath, s, hms, hstep⟩ := applyCall_unbound_record u c m hu hac
      obtain ⟨hui, hupath, ss2, hsteps, hrep⟩ := ih m uf hmi h2
      refine ⟨hui, hupath.trans hmpath, s :: ss2, ?_, ?_⟩
      · rw [hsteps, hms]; simp
      · intro out
        cases out with
        | result r => rfl
        | query b =>
          show (applyStepOut b s).bind (fun o => replayFold o ss2) = _
          rw [hstep b]
          show ((applyCall b c).map ReplayOut.query).bind (fun o => replayFold o ss2)
            = (chainFold b (c :: rest)).map ReplayOut.query
          rw [show chainFold b (c :: rest)
                = Except.bind (applyCall b c) (fun q => chainFold q rest) from rfl]
          cases applyCall b c with
          | error e => rfl
          | ok b2 =>
            show replayFold (.query b2) ss2 = (chainFold b2 rest).map ReplayOut.query
            rw [hrep (.query b2)]
            rfl

/-- With no embedded array path, running on an array input replays the
recorded steps over a fresh bound query on that array. -/
theorem run_arr_of_path_none (q : ArrayQuery) (data : List Json) (h : q.arrayPath = none) :
    ArrayQuery.run q (.arr data)
      = replayFold (.query (ArrayQuery._bound data none)) q.steps := by
  unfold ArrayQuery.run
  rw [h]
  rfl

/-- C1: Bound/unbound parity. For any chain-call sequence whose recording
on the unbound entry pipeline succeeds, running the recorded pipeline over
an array input yields exactly the direct bound execution of the same calls
over that array; a terminal method on the unbound pipeline records a
terminal step; running the pipeline with that terminal appended dispatches
the same terminal on the direct bound result; and a replayed compound
where step applies the where-chain builder with the recorded negation,
path, modifiers and terminal exactly as the direct chain call does. -/
theorem bound_unbound_parity (calls : List Call) (data : List Json) (u : ArrayQuery)
    (hrec : chainFold arrayPipeline calls = .ok u) :
    ArrayQuery.run u (.arr data)
      = (chainFold (ArrayQuery._bound data none) calls).map ReplayOut.query /\
    (forall t : Terminal,
      callTerminal u t = .ok (.query (u._appendStep (.terminalStep t)))) /\
    (forall t : Terminal,
      ArrayQuery.run (u._appendStep (.terminalStep t)) (.arr data)
        = (chainFold (ArrayQuery._bound data none) calls).bind
            (fun b => callTerminal b t)) /\
    (forall (b : ArrayQuery) (neg : Bool) (path : String) (mods : List Modifier)
        (t : WTerm),
      applyStepOut b (.whereStep neg path mods t)
        = (applyCall b (.whereChain neg path mods t)).map ReplayOut.query) := by
  obtain ⟨hui, hupath, ss, hsteps, hrep⟩ :=
    chainFold_record calls arrayPipeline u rfl hrec
  have hpath : u.arrayPath = none := hupath
  have hsteps2 : u.steps = ss := by simpa using hsteps
  refine ⟨?_, ?_, ?_, ?_⟩
  · rw [run_arr_of_path_none u data hpath, hsteps2, hrep]
    rfl
  · intro t
    exact callTerminal_unbound u t hui
  · intro t
    rw [run_arr_of_path_none (u._appendStep (.terminalStep t)) data hpath,
      show (u._appendStep (.terminalStep t)).steps
        = u.steps ++ [.terminalStep t] from rfl,
      replayFold_append, hsteps2, hrep]
    show ((chainFold (ArrayQuery._bound data none) calls).map ReplayOut.query).bind
        (fun o => replayFold o [.terminalStep t]) = _
    cases chainFold (ArrayQuery._bound data none) calls with
    | error e => rfl
    | ok b =>
      show replayFold (.query b) [.terminalStep t] = callTerminal b t
      rw [replayFold_single]
      rfl
  · intro b neg path mods t
    rfl

/-- Witness: recording the concrete parity scenario succeeds, and running
the recorded pipeline over the sample dataset equals the direct bound
execution of the same calls. -/
theorem bound_unbound_parity_witness :
    chainFold arrayPipeline parityCalls = .ok parityRecorded /\
    ArrayQuery.run parityRecorded (.arr sampleItems)
      = (chainFold (ArrayQuery._bound sampleItems none) parityCalls).map
          ReplayOut.query :=
  ⟨rfl, (bound_unbound_parity parityCalls sampleItems parityRecorded rfl).1⟩

/-- Inversion of an `Except` bind that produced a success. -/
theorem exceptBind_ok {a b : Type} (e : Except String a) (f : a -> Except String b)
    (v : b) (h : e.bind f = .ok v) : exists w, e = .ok w /\ f w = .ok v := by
  cases e with
  | error msg => exact Except.noConfusion h
  | ok w => exact ⟨w, rfl, h⟩

/-- The lenient walk consumes one segment at a time. -/
theorem walkLenient_cons (path : String) (c : Json) (seg : String) (rest : List String) :
    walkLenient path c (seg :: rest)
      = (stepLenient path c seg).bind (fun v => walkLenient path v rest) := by
  by_cases hn : isNullish c = true
  · simp [walkLenient, stepLenient, hn, Except.bind]
  · rw [Bool.not_eq_true] at hn
    cases hsp : splitIndexSegment seg with
    | none =>
      cases hg : getProp c seg with
      | none => simp [walkLenient, stepLenient, hn, hsp, hg, Except.bind]
      | some v => simp [walkLenient, stepLenient, hn, hsp, hg, Except.bind]
    | some kv =>
      obtain ⟨key, idxStr, idx⟩ := kv
      cases hnext : (getProp c key).getD .undef with
      | arr xs =>
        have hnn : isNullish (Json.arr xs) = false := rfl
        by_cases hlt : idx < xs.length
        · simp [walkLenient, stepLenient, hn, hsp, hnext, hnn, hlt, Except.bind]
        · simp [walkLenient, stepLenient, hn, hsp, hnext, hnn, hlt, Except.bind]
      | null =>
        have hnn : isNullish Json.null = true := rfl
        simp [walkLenient, stepLenient, hn, hsp, hnext, hnn, Except.bind]
      | undef =>
        have hnn : isNullish Json.undef = true := rfl
        simp [walkLenient, stepLenient, hn, hsp, hnext, hnn, Except.bind]
      | bool b =>
        have hnn : isNullish (Json.bool b) = false := rfl
        simp [walkLenient, stepLenient, hn, hsp, hnext, hnn, Except.bind]
      | num q =>
        have hnn : isNullish (Json.num q) = false := rfl
        simp [walkLenient, stepLenient, hn, hsp, hnext, hnn, Except.bind]
      | str s =>
        have hnn : isNullish (Json.str s) = false := rfl
        simp [walkLenient, stepLenient, hn, hsp, hnext, hnn, Except.bind]
      | obj fs =>
        have hnn : isNullish (Json.obj fs) = false := rfl
        simp [walkLenient, stepLenient, hn, hsp, hnext, hnn, Except.bind]

/-- The strict walk consumes one segment at a time. -/
theorem walkStrict_cons (path : String) (c : Json) (seg : String) (rest : List String) :
    walkStrict path c (seg :: rest)
      = (stepStrict path c seg).bind (fun v => walkStrict path v rest) := by
  by_cases hn : isNullish c = true
  · simp [walkStrict, stepStrict, hn, Except.bind]
  · rw [Bool.not_eq_true] at hn
    cases hsp : splitIndexSegment seg with
    | none =>
      cases hg : getProp c seg with
      | none => simp [walkStrict, stepStrict, hn, hsp, hg, Except.bind]
      | some v =>
        by_cases hv : isUndef v = true
        · simp [walkStrict, stepStrict, hn, hsp, hg, hv, Except.bind]
        · rw [Bool.not_eq_true] at hv
          simp [walkStrict, stepStrict, hn, hsp, hg, hv, Except.bind]
    | some kv =>
      obtain ⟨key, idxStr, idx⟩ := kv
      cases hnext : (getProp c key).getD .undef with
      | arr xs =>
        have hnn : isNullish (Json.arr xs) = false := rfl
        by_cases hlt : idx < xs.length
        · by_cases he : isUndef xs[idx] = true
          · simp [walkStrict, stepStrict, hn, hsp, hnext, hnn, hlt, he, Except.bind]
          · rw [Bool.not_eq_true] at he
            simp [walkStrict, stepStrict, hn, hsp, hnext, hnn, hlt, he, Except.bind]
        · simp [walkStrict, stepStrict, hn, hsp, hnext, hnn, hlt, Except.bind]
      | null =>
        have hnn : isNullish Json.null = true := rfl
        simp [walkStrict, stepStrict, hn, hsp, hnext, hnn, Except.bind]
      | undef =>
        have hnn : isNullish Json.undef = true := rfl
        simp [walkStrict, stepStrict, hn, hsp, hnext, hnn, Except.bind]
      | bool b =>
        have hnn : isNullish (Json.bool b) = false := rfl
        simp [walkStrict, stepStrict, hn, hsp, hnext, hnn, Except.bind]
      | num q =>
        have hnn : isNullish (Json.num q) = false := rfl
        simp [walkStrict, stepStrict, hn, hsp, hnext, hnn, Except.bind]
      | str s =>
        have hnn : isNullish (Json.str s) = false := rfl
        simp [walkStrict, stepStrict, hn, hsp, hnext, hnn, Except.bind]
      | obj fs =>
        have hnn : isNullish (Json.obj fs) = false := rfl
        simp [walkStrict, stepStrict, hn, hsp, hnext, hnn, Except.bind]

/-- On a non-nullish value, a bracket segment succeeds exactly when the key
resolves to an array with the index in bounds, yielding that element
(lenient mode). -/
theorem stepLenient_bracket_ok_iff (path : String) (c : Json) (seg key idxStr : String)
    (idx : Nat) (hsp : splitIndexSegment seg = some (key, idxStr, idx))
    (hn : isNullish c = false) (v : Json) :
    stepLenient path c seg = .ok v <->
      exists xs : List Json, getProp c key = some (.arr xs) /\
        exists h : idx < xs.length, v = xs.get ⟨idx, h⟩ := by
  constructor
  · intro hok
    cases hg : getProp c key with
    | none =>
      simp [stepLenient, walkLenient, hn, hsp, hg,
        show isNullish Json.undef = true from rfl] at hok
    | some next =>
      cases next with
      | arr xs =>
        by_cases hlt : idx < xs.length
        · simp [stepLenient, walkLenient, hn, hsp, hg, hlt,
            show isNullish (Json.arr xs) = false from rfl] at hok
          exact ⟨xs, rfl, hlt, hok.symm⟩
        · simp [stepLenient, walkLenient, hn, hsp, hg, hlt,
            show isNullish (Json.arr xs) = false from rfl] at hok
      | null =>
        simp [stepLenient, walkLenient, hn, hsp, hg,
          show isNullish Json.null = true from rfl] at hok
      | undef =>
        simp [stepLenient, walkLenient, hn, hsp, hg,
          show isNullish Json.undef = true from rfl] at hok
      | bool b =>
        simp [stepLenient, walkLenient, hn, hsp, hg,
          show isNullish (Json.bool b) = false from rfl] at hok
      | num q =>
        simp [stepLenient, walkLenient, hn, hsp, hg,
          show isNullish (Json.num q) = false from rfl] at hok
      | str s =>
        simp [stepLenient, walkLenient, hn, hsp, hg,
          show isNullish (Json.str s) = false from rfl] at hok
      | obj fs =>
        simp [stepLenient, walkLenient, hn, hsp, hg,
          show isNullish (Json.obj fs) = false from rfl] at hok
  · rintro ⟨xs, hg, hlt, rfl⟩
    simp [stepLenient, walkLenient, hn, hsp, hg, hlt,
      show isNullish (Json.arr xs) = false from rfl]

/-- On a non-nullish value, a bracket segment that fails fails with a
path error: nullish key value, non-array key value, or index out of
bounds (lenient mode). -/
theorem stepLenient_bracket_error (path : String) (c : Json) (seg key idxStr : String)
    (idx : Nat) (hsp : splitIndexSegment seg = some (key, idxStr, idx))
    (hn : isNullish c = false) (e : String)
    (herr : stepLenient path c seg = .error e) :
    e = pathErrNull path key \/ e = pathErrNotArr path key \/ e = pathErrIdx path idxStr := by
  cases hg : getProp c key with
  | none =>
    simp [stepLenient, walkLenient, hn, hsp, hg,
      show isNullish Json.undef = true from rfl] at herr
    exact Or.inl herr.symm
  | some next =>
    cases next with
    | arr xs =>
      by_cases hlt : idx < xs.length
      · simp [stepLenient, walkLenient, hn, hsp, hg, hlt,
          show isNullish (Json.arr xs) = false from rfl] at herr
      · simp [stepLenient, walkLenient, hn, hsp, hg, hlt,
          show isNullish (Json.arr xs) = false from rfl] at herr
        exact Or.inr (Or.inr herr.symm)
    | null =>
      simp [stepLenient, walkLenient, hn, hsp, hg,
        show isNullish Json.null = true from rfl] at herr
      exact Or.inl herr.symm
    | undef =>
      simp [stepLenient, walkLenient, hn, hsp, hg,
        show isNullish Json.undef = true from rfl] at herr
      exact Or.inl herr.symm
    | bool b =>
      simp [stepLenient, walkLenient, hn, hsp, hg,
        show isNullish (Json.bool b) = false from rfl] at herr
      exact Or.inr (Or.inl herr.symm)
    | num q =>
      simp [stepLenient, walkLenient, hn, hsp, hg,
        show isNullish (Json.num q) = false from rfl] at herr
      exact Or.inr (Or.inl herr.symm)
    | str s =>
      simp [stepLenient, walkLenient, hn, hsp, hg,
        show isNullish (Json.str s) = false from rfl] at herr
      exact Or.inr (Or.inl herr.symm)
    | obj fs =>
      simp [stepLenient, walkLenient, hn, hsp, hg,
        show isNullish (Json.obj fs) = false from rfl] at herr
      exact Or.inr (Or.inl herr.symm)

/-- On a non-nullish value, a plain segment succeeds exactly when the
property is present, yielding its value; failing otherwise with the
property path error (lenient mode). -/
theorem stepLenient_plain (path : String) (c : Json) (seg : String)
    (hsp : splitIndexSegment seg = none) (hn : isNullish c = false) :
    (forall v : Json, stepLenient path c seg = .ok v <-> getProp c seg = some v) /\
    (forall e : String, stepLenient path c seg = .error e -> e = pathErrProp path seg) := by
  constructor
  · intro v
    constructor
    · intro hok
      cases hg : getProp c seg with
      | none => simp [stepLenient, walkLenient, hn, hsp, hg] at hok
      | some w =>
        simp [stepLenient, walkLenient, hn, hsp, hg] at hok
        rw [hok]
    · intro hg
      simp [stepLenient, walkLenient, hn, hsp, hg]
  · intro e herr
    cases hg : getProp c seg with
    | none =>
      simp [stepLenient, walkLenient, hn, hsp, hg] at herr
      exact herr.symm
    | some w => simp [stepLenient, walkLenient, hn, hsp, hg] at herr

/-- A nullish current value makes either walk fail the next segment with
the null path error. -/
theorem step_nullish (path : String) (c : Json) (seg : String) (hn : isNullish c = true) :
    stepLenient path c seg = .error (pathErrNull path seg) /\
    stepStrict path c seg = .error (pathErrNull path seg) := by
  constructor
  · simp [stepLenient, walkLenient, hn]
  · simp [stepStrict, walkStrict, hn]

/-- The strict one-segment step succeeds exactly when the lenient step
succeeds with a non-undefined value. -/
theorem stepStrict_ok_iff (path : String) (c : Json) (seg : String) (v : Json) :
    stepStrict path c seg = .ok v <->
      stepLenient path c seg = .ok v /\ isUndef v = false := by
  by_cases hn : isNullish c = true
  · obtain ⟨hl, hs⟩ := step_nullish path c seg hn
    rw [hl, hs]
    constructor
    · intro h
      exact Except.noConfusion h
    · rintro ⟨h, -⟩
      exact Except.noConfusion h
  · rw [Bool.not_eq_true] at hn
    cases hsp : splitIndexSegment seg with
    | none =>
      cases hg : getProp c seg with
      | none =>
        have hl : stepLenient path c seg = .error (pathErrProp path seg) := by
          simp [stepLenient, walkLenient, hn, hsp, hg]
        have hs : stepStrict path c seg = .error (pathErrProp path seg) := by
          simp [stepStrict, walkStrict, hn, hsp, hg]
        rw [hl, hs]
        constructor
        · intro h
          exact Except.noConfusion h
        · rintro ⟨h, -⟩
          exact Except.noConfusion h
      | some w =>
        have hl : stepLenient path c seg = .ok w := by
          simp [stepLenient, walkLenient, hn, hsp, hg]
        by_cases hw : isUndef w = true
        · have hs : stepStrict path c seg = .error (pathErrProp path seg) := by
            simp [stepStrict, walkStrict, hn, hsp, hg, hw]
          rw [hl, hs]
          constructor
          · intro h
            exact Except.noConfusion h
          · rintro ⟨h, hv⟩
            injection h with h
            subst h
            exact absurd hv (by simp [hw])
        · rw [Bool.not_eq_true] at hw
          have hs : stepStrict path c seg = .ok w := by
            simp [stepStrict, walkStrict, hn, hsp, hg, hw]
          rw [hl, hs]
          constructor
          · intro h
            injection h with h
            subst h
            exact ⟨rfl, hw⟩
          · rintro ⟨h, -⟩
            exact h
    | some kv =>
      obtain ⟨key, idxStr, idx⟩ := kv
      cases hg : getProp c key with
      | none =>
        have hl : stepLenient path c seg = .error (pathErrNull path key) := by
          simp [stepLenient, walkLenient, hn, hsp, hg,
            show isNullish Json.undef = true from rfl]
        have hs : stepStrict path c seg = .error (pathErrNull path key) := by
          simp [stepStrict, walkStrict, hn, hsp, hg,
            show isNullish Json.undef = true from rfl]
        rw [hl, hs]
        constructor
        · intro h
          exact Except.noConfusion h
        · rintro ⟨h, -⟩
          exact Except.noConfusion h
      | some next =>
        cases next with
        | arr xs =>
          by_cases hlt : idx < xs.length
          · by_cases he : isUndef xs[idx] = true
            · have hl : stepLenient path c seg = .ok xs[idx] := by
                simp [stepLenient, walkLenient, hn, hsp, hg, hlt,
                  show isNullish (Json.arr xs) = false from rfl]
              have hs : stepStrict path c seg = .error (pathErrIdx path idxStr) := by
                simp [stepStrict, walkStrict, hn, hsp, hg, hlt, he,
                  show isNullish (Json.arr xs) = false from rfl]
              rw [hl, hs]
              constructor
              · intro h
                exact Except.noConfusion h
              · rintro ⟨h, hv⟩
                injection h with h
                subst h
                exact absurd hv (by simp [he])
            · rw [Bool.not_eq_true] at he
              have hl : stepLenient path c seg = .ok xs[idx] := by
                simp [stepLenient, walkLenient, hn, hsp, hg, hlt,
                  show isNullish (Json.arr xs) = false from rfl]
              have hs : stepStrict path c seg = .ok xs[idx] := by
                simp [stepStrict, walkStrict, hn, hsp, hg, hlt, he,
                  show isNullish (Json.arr xs) = false from rfl]
              rw [hl, hs]
              constructor
              · intro h
                injection h with h
                subst h
                exact ⟨rfl, he⟩
              · rintro ⟨h, -⟩
                exact h
          · have hl : stepLenient path c seg = .error (pathErrIdx path idxStr) := by
              simp [stepLenient, walkLenient, hn, hsp, hg, hlt,
                show isNullish (Json.arr xs) = false from rfl]
            have hs : stepStrict path c seg = .error (pathErrIdx path idxStr) := by
              simp [stepStrict, walkStrict, hn, hsp, hg, hlt,
                show isNullish (Json.arr xs) = false from rfl]
            rw [hl, hs]
            constructor
            · intro h
              exact Except.noConfusion h
            · rintro ⟨h, -⟩
              exact Except.noConfusion h
        | null =>
          have hl : stepLenient path c seg = .error (pathErrNull path key) := by
            simp [stepLenient, walkLenient, hn, hsp, hg,
              show isNullish Json.null = true from rfl]
          have hs : stepStrict path c seg = .error (pathErrNull path key) := by
            simp [stepStrict, walkStrict, hn, hsp, hg,
              show isNullish Json.null = true from rfl]
          rw [hl, hs]
          constructor
          · intro h
            exact Except.noConfusion h
          · rintro ⟨h, -⟩
            exact Except.noConfusion h
        | undef =>
          have hl : stepLenient path c seg = .error (pathErrNull path key) := by
            simp [stepLenient, walkLenient, hn, hsp, hg,
              show isNullish Json.undef = true from rfl]
          have hs : stepStrict path c seg = .error (pathErrNull path key) := by
            simp [stepStrict, walkStrict, hn, hsp, hg,
              show isNullish Json.undef = true from rfl]
          rw [hl, hs]
          constructor
          · intro h
            exact Except.noConfusion h
          · rintro ⟨h, -⟩
            exact Except.noConfusion h
        | bool b =>
          have hl : stepLenient path c seg = .error (pathErrNotArr path key) := by
            simp [stepLenient, walkLenient, hn, hsp, hg,
              show isNullish (Json.bool b) = false from rfl]
          have hs : stepStrict path c seg = .error (pathErrNotArr path key) := by
            simp [stepStrict, walkStrict, hn, hsp, hg,
              show isNullish (Json.bool b) = false from rfl]
          rw [hl, hs]
          constructor
          · intro h
            exact Except.noConfusion h
          · rintro ⟨h, -⟩
            exact Except.noConfusion h
        | num q =>
          have hl : stepLenient path c seg = .error (pathErrNotArr path key) := by
            simp [stepLenient, walkLenient, hn, hsp, hg,
              show isNullish (Json.num q) = false from rfl]
          have hs : stepStrict path c seg = .error (pathErrNotArr path key) := by
            simp [stepStrict, walkStrict, hn, hsp, hg,
              show isNullish (Json.num q) = false from rfl]
          rw [hl, hs]
          constructor
          · intro h
            exact Except.noConfusion h
          · rintro ⟨h, -⟩
            exact Except.noConfusion h
        | str s =>
          have hl : stepLenient path c seg = .error (pathErrNotArr path key) := by
            simp [stepLenient, walkLenient, hn, hsp, hg,
              show isNullish (Json.str s) = false from rfl]
          have hs : stepStrict path c seg = .error (pathErrNotArr path key) := by
            simp [stepStrict, walkStrict, hn, hsp, hg,
              show isNullish (Json.str s) = false from rfl]
          rw [hl, hs]
          constructor
          · intro h
            exact Except.noConfusion h
          · rintro ⟨h, -⟩
            exact Except.noConfusion h
        | obj fs =>
          have hl : stepLenient path c seg = .error (pathErrNotArr path key) := by
            simp [stepLenient, walkLenient, hn, hsp, hg,
              show isNullish (Json.obj fs) = false from rfl]
          have hs : stepStrict path c seg = .error (pathErrNotArr path key) := by
            simp [stepStrict, walkStrict, hn, hsp, hg,
              show isNullish (Json.obj fs) = false from rfl]
          rw [hl, hs]
          constructor
          · intro h
            exact Except.noConfusion h
          · rintro ⟨h, -⟩
            exact Except.noConfusion h

/-- A strict walk success is also a lenient walk success, and over at
least one segment the value is never `undefined`. -/
theorem walkStrict_refines (path : String) :
    forall (segs : List String) (c v : Json),
      walkStrict path c segs = .ok v ->
      walkLenient path c segs = .ok v /\ (segs ≠ [] -> isUndef v = false)
  | [], c, v, h => by
    injection h with h
    subst h
    exact ⟨rfl, fun hne => absurd rfl hne⟩
  | seg :: rest, c, v, h => by
    rw [walkStrict_cons] at h
    obtain ⟨w, hw, hrest⟩ := exceptBind_ok _ _ _ h
    have hstep := (stepStrict_ok_iff path c seg w).mp hw
    cases rest with
    | nil =>
      injection hrest with hv
      subst hv
      refine ⟨?_, fun h2 => hstep.2⟩
      rw [walkLenient_cons, hstep.1]
      rfl
    | cons s2 r2 =>
      have ih := walkStrict_refines path (s2 :: r2) w v hrest
      refine ⟨?_, fun h2 => ih.2 (by simp)⟩
      rw [walkLenient_cons, hstep.1]
      exact ih.1

/-- A lenient walk over at least one segment that yields an
explicitly-present `undefined` leaf makes the strict walk fail. -/
theorem walkStrict_undef_leaf (path : String) (c : Json) (segs : List String)
    (hlen : walkLenient path c segs = .ok .undef) (hne : segs ≠ []) :
    exists e, walkStrict path c segs = .error e := by
  cases hs : walkStrict path c segs with
  | error e => exact ⟨e, rfl⟩
  | ok w =>
    obtain ⟨hl, hu⟩ := walkStrict_refines path segs c w hs
    rw [hlen] at hl
    injection hl with hl
    subst hl
    exact absurd (hu hne) (by decide)

/-- C8: Path resolution. The accessors walk the dot segments one at a
time; a null or undefined current value is a path error at the segment; a
bracket segment requires the preceding key to resolve to an array with
the index in bounds, yielding that element, and otherwise fails with a
path error (nullish key value, non-array key value or index out of
bounds); a plain segment requires the key to be present, yielding its
value, and otherwise fails with the property path error; the strict step
is the lenient step with `undefined` results excluded; a strict walk
success is a lenient success and (over at least one segment) never
`undefined`; a lenient walk reaching an explicitly-present `undefined`
leaf makes the strict walk fail. -/
theorem path_resolution (path : String) :
    (forall obj : Json, path ≠ "" ->
      getByPath obj path = walkLenient path obj (splitDot path) /\
      getByPathStrict obj path = walkStrict path obj (splitDot path)) /\
    (forall (c : Json) (seg : String) (rest : List String),
      walkLenient path c (seg :: rest)
        = (stepLenient path c seg).bind (fun v => walkLenient path v rest) /\
      walkStrict path c (seg :: rest)
        = (stepStrict path c seg).bind (fun v => walkStrict path v rest)) /\
    (forall (c : Json) (seg : String), isNullish c = true ->
      stepLenient path c seg = .error (pathErrNull path seg) /\
      stepStrict path c seg = .error (pathErrNull path seg)) /\
    (forall (c : Json) (seg key idxStr : String) (idx : Nat) (v : Json),
      splitIndexSegment seg = some (key, idxStr, idx) -> isNullish c = false ->
      (stepLenient path c seg = .ok v <->
        exists xs : List Json, getProp c key = some (.arr xs) /\
          exists h : idx < xs.length, v = xs.get ⟨idx, h⟩)) /\
    (forall (c : Json) (seg key idxStr : String) (idx : Nat) (e : String),
      splitIndexSegment seg = some (key, idxStr, idx) -> isNullish c = false ->
      stepLenient path c seg = .error e ->
      e = pathErrNull path key \/ e = pathErrNotArr path key \/
        e = pathErrIdx path idxStr) /\
    (forall (c : Json) (seg : String),
      splitIndexSegment seg = none -> isNullish c = false ->
      (forall v : Json, stepLenient path c seg = .ok v <-> getProp c seg = some v) /\
      (forall e : String,
        stepLenient path c seg = .error e -> e = pathErrProp path seg)) /\
    (forall (c : Json) (seg : String) (v : Json),
      stepStrict path c seg = .ok v <->
        stepLenient path c seg = .ok v /\ isUndef v = false) /\
    (forall (segs : List String) (c v : Json),
      walkStrict path c segs = .ok v ->
      walkLenient path c segs = .ok v /\ (segs ≠ [] -> isUndef v = false)) /\
    (forall (c : Json) (segs : List String),
      walkLenient path c segs = .ok .undef -> segs ≠ [] ->
      exists e, walkStrict path c segs = .error e) := by
  refine ⟨?_, ?_, ?_, ?_, ?_, ?_, ?_, ?_, ?_⟩
  · intro obj hne
    constructor
    · simp [getByPath, hne]
    · simp [getByPathStrict, hne]
  · intro c seg rest
    exact ⟨walkLenient_cons path c seg rest, walkStrict_cons path c seg rest⟩
  · intro c seg hn
    exact step_nullish path c seg hn
  · intro c seg key idxStr idx v hsp hn
    exact stepLenient_bracket_ok_iff path c seg key idxStr idx hsp hn v
  · intro c seg key idxStr idx e hsp hn herr
    exact stepLenient_bracket_error path c seg key idxStr idx hsp hn e herr
  · intro c seg hsp hn
    exact stepLenient_plain path c seg hsp hn
  · intro c seg v
    exact stepStrict_ok_iff path c seg v
  · intro segs c v h
    exact walkStrict_refines path segs c v h
  · intro c segs hlen hne
    exact walkStrict_undef_leaf path c segs hlen hne

/-- Witness: on a record with a two-element array, the bracket segment of
the path resolves to the element at the index. -/
theorem path_resolution_witness :
    stepLenient "items[1]" (Json.obj [("items", Json.arr [Json.num 3, Json.num 7])])
      "items[1]" = .ok (.num 7) := by
  obtain ⟨h1, h2, h3, h4, h5, h6, h7, h8, h9⟩ := path_resolution "items[1]"
  exact (h4 (Json.obj [("items", Json.arr [Json.num 3, Json.num 7])]) "items[1]"
      "items" "1" 1 (.num 7) rfl rfl).mpr
    ⟨[Json.num 3, Json.num 7], rfl, by decide, rfl⟩

/-- A negative rank comparison means a strictly smaller rank. -/
theorem rankCmp_neg_iff {W : Type} [LinearOrder W] (ra rb : WithTop W) :
    rankCmp ra rb < 0 <-> ra < rb := by
  by_cases h1 : ra < rb
  · simp only [rankCmp, if_pos h1]
    exact iff_of_true (by norm_num) h1
  · by_cases h2 : rb < ra
    · simp only [rankCmp, if_neg h1, if_pos h2]
      exact iff_of_false (by norm_num) h1
    · simp only [rankCmp, if_neg h1, if_neg h2]
      exact iff_of_false (by norm_num) h1

/-- A nonpositive rank comparison means rank order. -/
theorem rankCmp_nonpos_iff {W : Type} [LinearOrder W] (ra rb : WithTop W) :
    rankCmp ra rb ≤ 0 <-> ra ≤ rb := by
  by_cases h1 : ra < rb
  · simp only [rankCmp, if_pos h1]
    exact iff_of_true (by norm_num) (le_of_lt h1)
  · by_cases h2 : rb < ra
    · simp only [rankCmp, if_neg h1, if_pos h2]
      exact iff_of_false (by norm_num) (not_le.mpr h2)
    · simp only [rankCmp, if_neg h1, if_neg h2]
      exact iff_of_true (by norm_num) (le_of_not_lt h2)

/-- Stable insertion permutes the inserted element onto the list. -/
theorem insertSorted_perm (cmp : Json -> Json -> Int) (x : Json) :
    forall l : List Json, (insertSorted cmp x l).Perm (x :: l)
  | [] => List.Perm.refl _
  | y :: ys => by
    by_cases h : cmp x y < 0
    · simp only [insertSorted, if_pos h]
      exact List.Perm.refl _
    · simp only [insertSorted, if_neg h]
      exact ((insertSorted_perm cmp x ys).cons y).trans (List.Perm.swap x y ys)

/-- Membership after a stable insertion. -/
theorem insertSorted_mem (cmp : Json -> Json -> Int) (x : Json) (l : List Json)
    (b : Json) (h : b ∈ insertSorted cmp x l) : b = x \/ b ∈ l :=
  List.mem_cons.mp ((insertSorted_perm cmp x l).mem_iff.mp h)

/-- Folded stable insertion permutes the remaining input onto the
accumulator. -/
theorem stableSort_perm_aux (cmp : Json -> Json -> Int) :
    forall (l acc : List Json),
      (List.foldl (fun a x => insertSorted cmp x a) acc l).Perm (acc ++ l)
  | [], acc => by simp
  | x :: l, acc => by
    have ih := stableSort_perm_aux cmp l (insertSorted cmp x acc)
    refine ih.trans ?_
    refine (List.Perm.append_right l (insertSorted_perm cmp x acc)).trans ?_
    exact List.perm_middle.symm

/-- The stable sort is a permutation of its input. -/
theorem stableSort_perm (cmp : Json -> Json -> Int) (l : List Json) :
    (stableSort cmp l).Perm l := by
  have h := stableSort_perm_aux cmp l []
  simpa [stableSort] using h

/-- Stable insertion only inspects comparisons against the inserted
element. -/
theorem insertSorted_congr (cmp cmp2 : Json -> Json -> Int) (x : Json) :
    forall l : List Json, (forall b, b ∈ l -> cmp x b = cmp2 x b) ->
      insertSorted cmp x l = insertSorted cmp2 x l
  | [], h => rfl
  | y :: ys, h => by
    have hy := h y (List.mem_cons_self y ys)
    rw [show insertSorted cmp x (y :: ys)
          = if cmp x y < 0 then x :: y :: ys else y :: insertSorted cmp x ys from rfl,
        show insertSorted cmp2 x (y :: ys)
          = if cmp2 x y < 0 then x :: y :: ys else y :: insertSorted cmp2 x ys from rfl,
        hy]
    by_cases hc : cmp2 x y < 0
    · rw [if_pos hc, if_pos hc]
    · rw [if_neg hc, if_neg hc,
        insertSorted_congr cmp cmp2 x ys (fun b hb => h b (List.mem_cons_of_mem y hb))]

/-- The folded stable sort only inspects comparisons among its elements. -/
theorem stableSort_congr_aux (cmp cmp2 : Json -> Json -> Int) :
    forall (l acc : List Json),
      (forall a, a ∈ l -> forall b, (b ∈ acc \/ b ∈ l) -> cmp a b = cmp2 a b) ->
      List.foldl (fun a x => insertSorted cmp x a) acc l
        = List.foldl (fun a x => insertSorted cmp2 x a) acc l
  | [], acc, h => rfl
  | x :: l, acc, h => by
    have hins : insertSorted cmp x acc = insertSorted cmp2 x acc :=
      insertSorted_congr cmp cmp2 x acc
        (fun b hb => h x (List.mem_cons_self x l) b (Or.inl hb))
    show List.foldl (fun a x => insertSorted cmp x a) (insertSorted cmp x acc) l
        = List.foldl (fun a x => insertSorted cmp2 x a) (insertSorted cmp2 x acc) l
    rw [hins]
    apply stableSort_congr_aux
    intro a ha b hb
    refine h a (List.mem_cons_of_mem x ha) b ?_
    cases hb with
    | inl hb2 =>
      rcases insertSorted_mem cmp2 x acc b hb2 with h3 | h3
      · exact Or.inr (h3 ▸ List.mem_cons_self x l)
      · exact Or.inl h3
    | inr hb2 => exact Or.inr (List.mem_cons_of_mem x hb2)

/-- The stable sort only inspects comparisons among its elements. -/
theorem stableSort_congr (cmp cmp2 : Json -> Json -> Int) (l : List Json)
    (h : forall a, a ∈ l -> forall b, b ∈ l -> cmp a b = cmp2 a b) :
    stableSort cmp l = stableSort cmp2 l := by
  apply stableSort_congr_aux
  intro a ha b hb
  cases hb with
  | inl hb2 => exact absurd hb2 (List.not_mem_nil b)
  | inr hb2 => exact h a ha b hb2

/-- Stable insertion for a rank comparator preserves rank sortedness. -/
theorem insertSorted_pairwise {W : Type} [LinearOrder W] (r : Json -> WithTop W) (x : Json) :
    forall l : List Json, l.Pairwise (fun a b => r a ≤ r b) ->
      (insertSorted (fun a b => rankCmp (r a) (r b)) x l).Pairwise (fun a b => r a ≤ r b)
  | [], h => by simp [insertSorted]
  | y :: ys, h => by
    rcases List.pairwise_cons.mp h with ⟨hy, hys⟩
    by_cases hc : rankCmp (r x) (r y) < 0
    · simp only [insertSorted, if_pos hc]
      have hxy : r x ≤ r y := le_of_lt ((rankCmp_neg_iff (r x) (r y)).mp hc)
      refine List.pairwise_cons.mpr ⟨?_, h⟩
      intro b hb
      rcases List.mem_cons.mp hb with h2 | h2
      · exact h2 ▸ hxy
      · exact le_trans hxy (hy b h2)
    · simp only [insertSorted, if_neg hc]
      have hyx : r y ≤ r x :=
        le_of_not_lt (fun hlt => hc ((rankCmp_neg_iff (r x) (r y)).mpr hlt))
      refine List.pairwise_cons.mpr ⟨?_, insertSorted_pairwise r x ys hys⟩
      intro b hb
      rcases insertSorted_mem _ x ys b hb with h2 | h2
      · exact h2 ▸ hyx
      · exact hy b h2

/-- The folded stable sort for a rank comparator is rank sorted. -/
theorem stableSort_pairwise_aux {W : Type} [LinearOrder W] (r : Json -> WithTop W) :
    forall (l acc : List Json), acc.Pairwise (fun a b => r a ≤ r b) ->
      (List.foldl (fun a x => insertSorted (fun a b => rankCmp (r a) (r b)) x a) acc
        l).Pairwise (fun a b => r a ≤ r b)
  | [], acc, h => h
  | x :: l, acc, h =>
    stableSort_pairwise_aux r l (insertSorted (fun a b => rankCmp (r a) (r b)) x acc)
      (insertSorted_pairwise r x acc h)

/-- The stable sort under a rank comparator is sorted by rank. -/
theorem stableSort_pairwise {W : Type} [LinearOrder W] (r : Json -> WithTop W)
    (l : List Json) :
    (stableSort (fun a b => rankCmp (r a) (r b)) l).Pairwise (fun a b => r a ≤ r b) :=
  stableSort_pairwise_aux r l [] List.Pairwise.nil

/-- Stable insertion appends an element of a rank class after the class
(rank-sorted accumulator). -/
theorem insertSorted_filter {W : Type} [LinearOrder W] [DecidableEq W]
    (r : Json -> WithTop W) (k : WithTop W) (x : Json) :
    forall l : List Json, l.Pairwise (fun a b => r a ≤ r b) ->
      (insertSorted (fun a b => rankCmp (r a) (r b)) x l).filter
          (fun y => decide (r y = k))
        = l.filter (fun y => decide (r y = k)) ++ (if r x = k then [x] else [])
  | [], h => by
    by_cases hk : r x = k
    · simp [insertSorted, hk]
    · simp [insertSorted, hk]
  | y :: ys, h => by
    rcases List.pairwise_cons.mp h with ⟨hy, hys⟩
    by_cases hc : rankCmp (r x) (r y) < 0
    · have hxy : r x < r y := (rankCmp_neg_iff (r x) (r y)).mp hc
      simp only [insertSorted, if_pos hc]
      by_cases hk : r x = k
      · have hemp : (y :: ys).filter (fun z => decide (r z = k)) = [] := by
          rw [List.filter_eq_nil_iff]
          intro z hz
          have hlt : r x < r z := by
            rcases List.mem_cons.mp hz with h2 | h2
            · exact h2 ▸ hxy
            · exact lt_of_lt_of_le hxy (hy z h2)
          simp only [decide_eq_true_eq]
          intro he
          rw [hk, he] at hlt
          exact absurd hlt (lt_irrefl k)
        have h1 : List.filter (fun z => decide (r z = k)) (x :: y :: ys)
            = x :: List.filter (fun z => decide (r z = k)) (y :: ys) := by
          simp [List.filter_cons, hk]
        rw [h1, hemp, if_pos hk]
        rfl
      · have h1 : List.filter (fun z => decide (r z = k)) (x :: y :: ys)
            = List.filter (fun z => decide (r z = k)) (y :: ys) := by
          simp [List.filter_cons, hk]
        rw [h1, if_neg hk, List.append_nil]
    · simp only [insertSorted, if_neg hc]
      have ih := insertSorted_filter r k x ys hys
      by_cases hky : r y = k
      · have h1 : List.filter (fun z => decide (r z = k))
            (y :: insertSorted (fun a b => rankCmp (r a) (r b)) x ys)
            = y :: List.filter (fun z => decide (r z = k))
                (insertSorted (fun a b => rankCmp (r a) (r b)) x ys) := by
          simp [List.filter_cons, hky]
        have h2 : List.filter (fun z => decide (r z = k)) (y :: ys)
            = y :: List.filter (fun z => decide (r z = k)) ys := by
          simp [List.filter_cons, hky]
        rw [h1, ih, h2]
        rfl
      · have h1 : List.filter (fun z => decide (r z = k))
            (y :: insertSorted (fun a b => rankCmp (r a) (r b)) x ys)
            = List.filter (fun z => decide (r z = k))
                (insertSorted (fun a b => rankCmp (r a) (r b)) x ys) := by
          simp [List.filter_cons, hky]
        have h2 : List.filter (fun z => decide (r z = k)) (y :: ys)
            = List.filter (fun z => decide (r z = k)) ys := by
          simp [List.filter_cons, hky]
        rw [h1, ih, h2]

/-- The folded stable sort preserves each rank class in input order. -/
theorem stableSort_filter_aux {W : Type} [LinearOrder W] [DecidableEq W]
    (r : Json -> WithTop W) (k : WithTop W) :
    forall (l acc : List Json), acc.Pairwise (fun a b => r a ≤ r b) ->
      (List.foldl (fun a x => insertSorted (fun a b => rankCmp (r a) (r b)) x a) acc
          l).filter (fun y => decide (r y = k))
        = acc.filter (fun y => decide (r y = k)) ++ l.filter (fun y => decide (r y = k))
  | [], acc, h => by simp
  | x :: l, acc, h => by
    have ih := stableSort_filter_aux r k l
      (insertSorted (fun a b => rankCmp (r a) (r b)) x acc)
      (insertSorted_pairwise r x acc h)
    show (List.foldl (fun a x => insertSorted (fun a b => rankCmp (r a) (r b)) x a)
        (insertSorted (fun a b => rankCmp (r a) (r b)) x acc) l).filter
          (fun y => decide (r y = k)) = _
    rw [ih, insertSorted_filter r k x acc h]
    by_cases hk : r x = k
    · rw [if_pos hk]
      simp [List.filter_cons, hk]
    · rw [if_neg hk]
      simp [List.filter_cons, hk]

/-- The stable sort under a rank comparator preserves each rank class in
input order (stability). -/
theorem stableSort_filter {W : Type} [LinearOrder W] [DecidableEq W]
    (r : Json -> WithTop W) (k : WithTop W) (l : List Json) :
    (stableSort (fun a b => rankCmp (r a) (r b)) l).filter (fun y => decide (r y = k))
      = l.filter (fun y => decide (r y = k)) := by
  have h := stableSort_filter_aux r k l [] List.Pairwise.nil
  simpa [stableSort] using h

/-- The character-list comparison agrees with the lexicographic order on
character lists. -/
theorem listLtB_iff (l1 : List Char) : forall l2 : List Char, listLtB l1 l2 = true <-> l1 < l2 := by
  induction l1 with
  | nil =>
    intro l2
    cases l2 with
    | nil =>
      constructor
      · intro h
        exact absurd h (by decide)
      · intro h
        cases h
    | cons b bs =>
      constructor
      · intro h2
        exact List.Lex.nil
      · intro h2
        rfl
  | cons a as ih =>
    intro l2
    cases l2 with
    | nil =>
      constructor
      · intro h
        exact absurd h (by simp [listLtB])
      · intro h
        cases h
    | cons b bs =>
      by_cases hab : a.val < b.val
      · constructor
        · intro h2
          exact List.Lex.rel hab
        · intro h2
          simp [listLtB, hab]
      · by_cases hba : b.val < a.val
        · constructor
          · intro h
            rw [show listLtB (a :: as) (b :: bs)
                  = (if a.val < b.val then true else if b.val < a.val then false
                     else listLtB as bs) from rfl, if_neg hab, if_pos hba] at h
            exact Bool.noConfusion h
          · intro h
            cases h with
            | cons h3 => exact absurd hba hab
            | rel h1 => exact absurd h1 hab
        · have heq : a = b := le_antisymm (le_of_not_lt hba) (le_of_not_lt hab)
          have key : listLtB (a :: as) (b :: bs) = listLtB as bs := by
            rw [show listLtB (a :: as) (b :: bs)
                  = (if a.val < b.val then true else if b.val < a.val then false
                     else listLtB as bs) from rfl, if_neg hab, if_neg hba]
          rw [key, ih bs]
          subst heq
          constructor
          · intro h
            exact List.Lex.cons h
          · intro h
            cases h with
            | cons h3 => exact h3
            | rel h1 => exact absurd h1 hab

/-- The string comparison agrees with the linear order on strings. -/
theorem strLtB_iff (a b : String) : strLtB a b = true <-> a < b := by
  rw [show strLtB a b = listLtB a.data b.data from rfl, listLtB_iff,
    String.lt_iff_toList_lt]
  rfl

/-- Comparator value on two numeric keys, ascending. -/
theorem cmpValues_num_asc (qa qb : ℚ) :
    cmpValues .asc (.num qa) (.num qb)
      = if qa < qb then -1 else if qb < qa then 1 else 0 := by
  simp [cmpValues, jsLtB, toPrimitive, toNumber, isNullish]

/-- Comparator value on two numeric keys, descending (the negation flips
the strict comparisons). -/
theorem cmpValues_num_desc (qa qb : ℚ) :
    cmpValues .desc (.num qa) (.num qb)
      = if qb < qa then -1 else if qa < qb then 1 else 0 := by
  rcases lt_trichotomy qa qb with h | h | h
  · have h2 : ¬ qb < qa := lt_asymm h
    simp [cmpValues, jsLtB, toPrimitive, toNumber, isNullish, h, h2]
  · subst h
    simp [cmpValues, jsLtB, toPrimitive, toNumber, isNullish, lt_irrefl]
  · have h2 : ¬ qa < qb := lt_asymm h
    simp [cmpValues, jsLtB, toPrimitive, toNumber, isNullish, h, h2]

/-- Comparator value on two string keys, ascending. -/
theorem cmpValues_str_asc (sa sb : String) :
    cmpValues .asc (.str sa) (.str sb)
      = if sa < sb then -1 else if sb < sa then 1 else 0 := by
  simp [cmpValues, jsLtB, toPrimitive, isNullish, strLtB_iff]

/-- Comparator value on two string keys, descending. -/
theorem cmpValues_str_desc (sa sb : String) :
    cmpValues .desc (.str sa) (.str sb)
      = if sb < sa then -1 else if sa < sb then 1 else 0 := by
  rcases lt_trichotomy sa sb with h | h | h
  · have h2 : ¬ sb < sa := lt_asymm h
    simp [cmpValues, jsLtB, toPrimitive, isNullish, strLtB_iff, h, h2]
  · subst h
    simp [cmpValues, jsLtB, toPrimitive, isNullish, strLtB_iff, lt_irrefl]
  · have h2 : ¬ sa < sb := lt_asymm h
    simp [cmpValues, jsLtB, toPrimitive, isNullish, strLtB_iff, h, h2]

/-- A null key sorts after any non-nullish key, in either direction. -/
theorem cmpValues_null_left (dir : Dir) (v : Json) (hv : isNullish v = false) :
    cmpValues dir .null v = 1 := by
  cases dir <;> simp [cmpValues, hv, show isNullish Json.null = true from rfl]

/-- Any non-nullish key sorts before a null key, in either direction. -/
theorem cmpValues_null_right (dir : Dir) (v : Json) (hv : isNullish v = false) :
    cmpValues dir v .null = -1 := by
  cases dir <;> simp [cmpValues, hv, show isNullish Json.null = true from rfl]

/-- Two null keys tie, in either direction. -/
theorem cmpValues_null_null (dir : Dir) : cmpValues dir .null .null = 0 := by
  cases dir <;> simp [cmpValues, isNullish]

/-- Shape of a number-or-null sort key. -/
theorem keyNumOrNull_cases (p : String) (x : Json) (h : keyIsNumOrNull p x = true) :
    (exists q : ℚ, sortKeyD p x = .num q) \/ sortKeyD p x = .null := by
  cases hk : sortKeyD p x with
  | num q => exact Or.inl ⟨q, rfl⟩
  | null => exact Or.inr rfl
  | undef => simp [keyIsNumOrNull, hk] at h
  | bool b => simp [keyIsNumOrNull, hk] at h
  | str s => simp [keyIsNumOrNull, hk] at h
  | arr xs => simp [keyIsNumOrNull, hk] at h
  | obj fs => simp [keyIsNumOrNull, hk] at h

/-- Shape of a string-or-null sort key. -/
theorem keyStrOrNull_cases (p : String) (x : Json) (h : keyIsStrOrNull p x = true) :
    (exists s : String, sortKeyD p x = .str s) \/ sortKeyD p x = .null := by
  cases hk : sortKeyD p x with
  | str s => exact Or.inl ⟨s, rfl⟩
  | null => exact Or.inr rfl
  | undef => simp [keyIsStrOrNull, hk] at h
  | bool b => simp [keyIsStrOrNull, hk] at h
  | num q => simp [keyIsStrOrNull, hk] at h
  | arr xs => simp [keyIsStrOrNull, hk] at h
  | obj fs => simp [keyIsStrOrNull, hk] at h

/-- On number-or-null keys, the ascending comparator is the rank
comparator of the numeric embedding. -/
theorem keyedCmp_rank_num_asc (p : String) (a b : Json)
    (ha : keyIsNumOrNull p a = true) (hb : keyIsNumOrNull p b = true) :
    keyedCmp p .asc a b = rankCmp (rankOf embNumAsc p a) (rankOf embNumAsc p b) := by
  show cmpValues .asc (sortKeyD p a) (sortKeyD p b) = _
  rcases keyNumOrNull_cases p a ha with ⟨qa, hka⟩ | hka <;>
    rcases keyNumOrNull_cases p b hb with ⟨qb, hkb⟩ | hkb
  · rw [hka, hkb, cmpValues_num_asc,
      show rankOf embNumAsc p a = ((qa : ℚ) : WithTop ℚ) from by
        simp [rankOf, hka, embNumAsc],
      show rankOf embNumAsc p b = ((qb : ℚ) : WithTop ℚ) from by
        simp [rankOf, hkb, embNumAsc]]
    simp [rankCmp, WithTop.coe_lt_coe]
  · rw [hka, hkb, cmpValues_null_right .asc (.num qa) rfl,
      show rankOf embNumAsc p a = ((qa : ℚ) : WithTop ℚ) from by
        simp [rankOf, hka, embNumAsc],
      show rankOf embNumAsc p b = (⊤ : WithTop ℚ) from by
        simp [rankOf, hkb, embNumAsc]]
    simp [rankCmp, WithTop.coe_lt_top, not_top_lt]
  · rw [hka, hkb, cmpValues_null_left .asc (.num qb) rfl,
      show rankOf embNumAsc p a = (⊤ : WithTop ℚ) from by
        simp [rankOf, hka, embNumAsc],
      show rankOf embNumAsc p b = ((qb : ℚ) : WithTop ℚ) from by
        simp [rankOf, hkb, embNumAsc]]
    simp [rankCmp, WithTop.coe_lt_top, not_top_lt]
  · rw [hka, hkb, cmpValues_null_null,
      show rankOf embNumAsc p a = (⊤ : WithTop ℚ) from by
        simp [rankOf, hka, embNumAsc],
      show rankOf embNumAsc p b = (⊤ : WithTop ℚ) from by
        simp [rankOf, hkb, embNumAsc]]
    simp [rankCmp, lt_irrefl]

/-- On number-or-null keys, the descending comparator is the rank
comparator of the dual numeric embedding. -/
theorem keyedCmp_rank_num_desc (p : String) (a b : Json)
    (ha : keyIsNumOrNull p a = true) (hb : keyIsNumOrNull p b = true) :
    keyedCmp p .desc a b = rankCmp (rankOf embNumDesc p a) (rankOf embNumDesc p b) := by
  show cmpValues .desc (sortKeyD p a) (sortKeyD p b) = _
  rcases keyNumOrNull_cases p a ha with ⟨qa, hka⟩ | hka <;>
    rcases keyNumOrNull_cases p b hb with ⟨qb, hkb⟩ | hkb
  · rw [hka, hkb, cmpValues_num_desc,
      show rankOf embNumDesc p a
          = ((OrderDual.toDual qa : OrderDual ℚ) : WithTop (OrderDual ℚ)) from by
        simp [rankOf, hka, embNumDesc],
      show rankOf embNumDesc p b
          = ((OrderDual.toDual qb : OrderDual ℚ) : WithTop (OrderDual ℚ)) from by
        simp [rankOf, hkb, embNumDesc]]
    simp [rankCmp, WithTop.coe_lt_coe]
  · rw [hka, hkb, cmpValues_null_right .desc (.num qa) rfl,
      show rankOf embNumDesc p a
          = ((OrderDual.toDual qa : OrderDual ℚ) : WithTop (OrderDual ℚ)) from by
        simp [rankOf, hka, embNumDesc],
      show rankOf embNumDesc p b = (⊤ : WithTop (OrderDual ℚ)) from by
        simp [rankOf, hkb, embNumDesc]]
    simp [rankCmp, WithTop.coe_lt_top, not_top_lt]
  · rw [hka, hkb, cmpValues_null_left .desc (.num qb) rfl,
      show rankOf embNumDesc p a = (⊤ : WithTop (OrderDual ℚ)) from by
        simp [rankOf, hka, embNumDesc],
      show rankOf embNumDesc p b
          = ((OrderDual.toDual qb : OrderDual ℚ) : WithTop (OrderDual ℚ)) from by
        simp [rankOf, hkb, embNumDesc]]
    simp [rankCmp, WithTop.coe_lt_top, not_top_lt]
  · rw [hka, hkb, cmpValues_null_null,
      show rankOf embNumDesc p a = (⊤ : WithTop (OrderDual ℚ)) from by
        simp [rankOf, hka, embNumDesc],
      show rankOf embNumDesc p b = (⊤ : WithTop (OrderDual ℚ)) from by
        simp [rankOf, hkb, embNumDesc]]
    simp [rankCmp, lt_irrefl]

/-- On string-or-null keys, the ascending comparator is the rank
comparator of the string embedding. -/
theorem keyedCmp_rank_str_asc (p : String) (a b : Json)
    (ha : keyIsStrOrNull p a = true) (hb : keyIsStrOrNull p b = true) :
    keyedCmp p .asc a b = rankCmp (rankOf embStrAsc p a) (rankOf embStrAsc p b) := by
  show cmpValues .asc (sortKeyD p a) (sortKeyD p b) = _
  rcases keyStrOrNull_cases p a ha with ⟨sa, hka⟩ | hka <;>
    rcases keyStrOrNull_cases p b hb with ⟨sb, hkb⟩ | hkb
  · rw [hka, hkb, cmpValues_str_asc,
      show rankOf embStrAsc p a = ((sa : String) : WithTop String) from by
        simp [rankOf, hka, embStrAsc],
      show rankOf embStrAsc p b = ((sb : String) : WithTop String) from by
        simp [rankOf, hkb, embStrAsc]]
    simp [rankCmp, WithTop.coe_lt_coe]
  · rw [hka, hkb, cmpValues_null_right .asc (.str sa) rfl,
      show rankOf embStrAsc p a = ((sa : String) : WithTop String) from by
        simp [rankOf, hka, embStrAsc],
      show rankOf embStrAsc p b = (⊤ : WithTop String) from by
        simp [rankOf, hkb, embStrAsc]]
    simp [rankCmp, WithTop.coe_lt_top, not_top_lt]
  · rw [hka, hkb, cmpValues_null_left .asc (.str sb) rfl,
      show rankOf embStrAsc p a = (⊤ : WithTop String) from by
        simp [rankOf, hka, embStrAsc],
      show rankOf embStrAsc p b = ((sb : String) : WithTop String) from by
        simp [rankOf, hkb, embStrAsc]]
    simp [rankCmp, WithTop.coe_lt_top, not_top_lt]
  · rw [hka, hkb, cmpValues_null_null,
      show rankOf embStrAsc p a = (⊤ : WithTop String) from by
        simp [rankOf, hka, embStrAsc],
      show rankOf embStrAsc p b = (⊤ : WithTop String) from by
        simp [rankOf, hkb, embStrAsc]]
    simp [rankCmp, lt_irrefl]

/-- On string-or-null keys, the descending comparator is the rank
comparator of the dual string embedding. -/
theorem keyedCmp_rank_str_desc (p : String) (a b : Json)
    (ha : keyIsStrOrNull p a = true) (hb : keyIsStrOrNull p b = true) :
    keyedCmp p .desc a b = rankCmp (rankOf embStrDesc p a) (rankOf embStrDesc p b) := by
  show cmpValues .desc (sortKeyD p a) (sortKeyD p b) = _
  rcases keyStrOrNull_cases p a ha with ⟨sa, hka⟩ | hka <;>
    rcases keyStrOrNull_cases p b hb with ⟨sb, hkb⟩ | hkb
  · rw [hka, hkb, cmpValues_str_desc,
      show rankOf embStrDesc p a
          = ((OrderDual.toDual sa : OrderDual String) : WithTop (OrderDual String)) from by
        simp [rankOf, hka, embStrDesc],
      show rankOf embStrDesc p b
          = ((OrderDual.toDual sb : OrderDual String) : WithTop (OrderDual String)) from by
        simp [rankOf, hkb, embStrDesc]]
    simp [rankCmp, WithTop.coe_lt_coe]
  · rw [hka, hkb, cmpValues_null_right .desc (.str sa) rfl,
      show rankOf embStrDesc p a
          = ((OrderDual.toDual sa : OrderDual String) : WithTop (OrderDual String)) from by
        simp [rankOf, hka, embStrDesc],
      show rankOf embStrDesc p b = (⊤ : WithTop (OrderDual String)) from by
        simp [rankOf, hkb, embStrDesc]]
    simp [rankCmp, WithTop.coe_lt_top, not_top_lt]
  · rw [hka, hkb, cmpValues_null_left .desc (.str sb) rfl,
      show rankOf embStrDesc p a = (⊤ : WithTop (OrderDual String)) from by
        simp [rankOf, hka, embStrDesc],
      show rankOf embStrDesc p b
          = ((OrderDual.toDual sb : OrderDual String) : WithTop (OrderDual String)) from by
        simp [rankOf, hkb, embStrDesc]]
    simp [rankCmp, WithTop.coe_lt_top, not_top_lt]
  · rw [hka, hkb, cmpValues_null_null,
      show rankOf embStrDesc p a = (⊤ : WithTop (OrderDual String)) from by
        simp [rankOf, hka, embStrDesc],
      show rankOf embStrDesc p b = (⊤ : WithTop (OrderDual String)) from by
        simp [rankOf, hkb, embStrDesc]]
    simp [rankCmp, lt_irrefl]

/-- On number-or-null keys, key equality is rank equality (ascending
embedding). -/
theorem keyEq_rank_num_asc (p : String) (x y : Json)
    (hx : keyIsNumOrNull p x = true) (hy : keyIsNumOrNull p y = true) :
    jsonEq (sortKeyD p y) (sortKeyD p x)
      = decide (rankOf embNumAsc p y = rankOf embNumAsc p x) := by
  rcases keyNumOrNull_cases p x hx with ⟨qx, hkx⟩ | hkx <;>
    rcases keyNumOrNull_cases p y hy with ⟨qy, hky⟩ | hky
  · rw [hkx, hky,
      show rankOf embNumAsc p x = ((qx : ℚ) : WithTop ℚ) from by simp [rankOf, hkx, embNumAsc],
      show rankOf embNumAsc p y = ((qy : ℚ) : WithTop ℚ) from by simp [rankOf, hky, embNumAsc]]
    by_cases h : qy = qx
    · subst h
      simp [jsonEq]
    · simp [jsonEq, h, WithTop.coe_eq_coe]
  · rw [hkx, hky,
      show rankOf embNumAsc p x = ((qx : ℚ) : WithTop ℚ) from by simp [rankOf, hkx, embNumAsc],
      show rankOf embNumAsc p y = (⊤ : WithTop ℚ) from by simp [rankOf, hky, embNumAsc]]
    simp [jsonEq]
  · rw [hkx, hky,
      show rankOf embNumAsc p x = (⊤ : WithTop ℚ) from by simp [rankOf, hkx, embNumAsc],
      show rankOf embNumAsc p y = ((qy : ℚ) : WithTop ℚ) from by simp [rankOf, hky, embNumAsc]]
    simp [jsonEq]
  · rw [hkx, hky,
      show rankOf embNumAsc p x = (⊤ : WithTop ℚ) from by simp [rankOf, hkx, embNumAsc],
      show rankOf embNumAsc p y = (⊤ : WithTop ℚ) from by simp [rankOf, hky, embNumAsc]]
    simp [jsonEq]

/-- On number-or-null keys, key equality is rank equality (descending
embedding). -/
theorem keyEq_rank_num_desc (p : String) (x y : Json)
    (hx : keyIsNumOrNull p x = true) (hy : keyIsNumOrNull p y = true) :
    jsonEq (sortKeyD p y) (sortKeyD p x)
      = decide (rankOf embNumDesc p y = rankOf embNumDesc p x) := by
  rcases keyNumOrNull_cases p x hx with ⟨qx, hkx⟩ | hkx <;>
    rcases keyNumOrNull_cases p y hy with ⟨qy, hky⟩ | hky
  · rw [hkx, hky,
      show rankOf embNumDesc p x = ((OrderDual.toDual qx : OrderDual ℚ) : WithTop (OrderDual ℚ)) from by simp [rankOf, hkx, embNumDesc],
      show rankOf embNumDesc p y = ((OrderDual.toDual qy : OrderDual ℚ) : WithTop (OrderDual ℚ)) from by simp [rankOf, hky, embNumDesc]]
    by_cases h : qy = qx
    · subst h
      simp [jsonEq]
    · simp [jsonEq, h, WithTop.coe_eq_coe]
  · rw [hkx, hky,
      show rankOf embNumDesc p x = ((OrderDual.toDual qx : OrderDual ℚ) : WithTop (OrderDual ℚ)) from by simp [rankOf, hkx, embNumDesc],
      show rankOf embNumDesc p y = (⊤ : WithTop (OrderDual ℚ)) from by simp [rankOf, hky, embNumDesc]]
    simp [jsonEq]
  · rw [hkx, hky,
      show rankOf embNumDesc p x = (⊤ : WithTop (OrderDual ℚ)) from by simp [rankOf, hkx, embNumDesc],
      show rankOf embNumDesc p y = ((OrderDual.toDual qy : OrderDual ℚ) : WithTop (OrderDual ℚ)) from by simp [rankOf, hky, embNumDesc]]
    simp [jsonEq]
  · rw [hkx, hky,
      show rankOf embNumDesc p x = (⊤ : WithTop (OrderDual ℚ)) from by simp [rankOf, hkx, embNumDesc],
      show rankOf embNumDesc p y = (⊤ : WithTop (OrderDual ℚ)) from by simp [rankOf, hky, embNumDesc]]
    simp [jsonEq]

/-- On string-or-null keys, key equality is rank equality (ascending
embedding). -/
theorem keyEq_rank_str_asc (p : String) (x y : Json)
    (hx : keyIsStrOrNull p x = true) (hy : keyIsStrOrNull p y = true) :
    jsonEq (sortKeyD p y) (sortKeyD p x)
      = decide (rankOf embStrAsc p y = rankOf embStrAsc p x) := by
  rcases keyStrOrNull_cases p x hx with ⟨sx, hkx⟩ | hkx <;>
    rcases keyStrOrNull_cases p y hy with ⟨sy, hky⟩ | hky
  · rw [hkx, hky,
      show rankOf embStrAsc p x = ((sx : String) : WithTop String) from by simp [rankOf, hkx, embStrAsc],
      show rankOf embStrAsc p y = ((sy : String) : WithTop String) from by simp [rankOf, hky, embStrAsc]]
    by_cases h : sy = sx
    · subst h
      simp [jsonEq]
    · simp [jsonEq, h, WithTop.coe_eq_coe]
  · rw [hkx, hky,
      show rankOf embStrAsc p x = ((sx : String) : WithTop String) from by simp [rankOf, hkx, embStrAsc],
      show rankOf embStrAsc p y = (⊤ : WithTop String) from by simp [rankOf, hky, embStrAsc]]
    simp [jsonEq]
  · rw [hkx, hky,
      show rankOf embStrAsc p x = (⊤ : WithTop String) from by simp [rankOf, hkx, embStrAsc],
      show rankOf embStrAsc p y = ((sy : String) : WithTop String) from by simp [rankOf, hky, embStrAsc]]
    simp [jsonEq]
  · rw [hkx, hky,
      show rankOf embStrAsc p x = (⊤ : WithTop String) from by simp [rankOf, hkx, embStrAsc],
      show rankOf embStrAsc p y = (⊤ : WithTop String) from by simp [rankOf, hky, embStrAsc]]
    simp [jsonEq]

/-- On string-or-null keys, key equality is rank equality (descending
embedding). -/
theorem keyEq_rank_str_desc (p : String) (x y : Json)
    (hx : keyIsStrOrNull p x = true) (hy : keyIsStrOrNull p y = true) :
    jsonEq (sortKeyD p y) (sortKeyD p x)
      = decide (rankOf embStrDesc p y = rankOf embStrDesc p x) := by
  rcases keyStrOrNull_cases p x hx with ⟨sx, hkx⟩ | hkx <;>
    rcases keyStrOrNull_cases p y hy with ⟨sy, hky⟩ | hky
  · rw [hkx, hky,
      show rankOf embStrDesc p x = ((OrderDual.toDual sx : OrderDual String) : WithTop (OrderDual String)) from by simp [rankOf, hkx, embStrDesc],
      show rankOf embStrDesc p y = ((OrderDual.toDual sy : OrderDual String) : WithTop (OrderDual String)) from by simp [rankOf, hky, embStrDesc]]
    by_cases h : sy = sx
    · subst h
      simp [jsonEq]
    · simp [jsonEq, h, WithTop.coe_eq_coe]
  · rw [hkx, hky,
      show rankOf embStrDesc p x = ((OrderDual.toDual sx : OrderDual String) : WithTop (OrderDual String)) from by simp [rankOf, hkx, embStrDesc],
      show rankOf embStrDesc p y = (⊤ : WithTop (OrderDual String)) from by simp [rankOf, hky, embStrDesc]]
    simp [jsonEq]
  · rw [hkx, hky,
      show rankOf embStrDesc p x = (⊤ : WithTop (OrderDual String)) from by simp [rankOf, hkx, embStrDesc],
      show rankOf embStrDesc p y = ((OrderDual.toDual sy : OrderDual String) : WithTop (OrderDual String)) from by simp [rankOf, hky, embStrDesc]]
    simp [jsonEq]
  · rw [hkx, hky,
      show rankOf embStrDesc p x = (⊤ : WithTop (OrderDual String)) from by simp [rankOf, hkx, embStrDesc],
      show rankOf embStrDesc p y = (⊤ : WithTop (OrderDual String)) from by simp [rankOf, hky, embStrDesc]]
    simp [jsonEq]

/-- Sortedness and stability of the stable sort under a comparator that
agrees with a rank comparator on the sorted elements. -/
theorem sortedness_of_rank {W : Type} [LinearOrder W] [DecidableEq W]
    (r : Json -> WithTop W) (cmp : Json -> Json -> Int) (items : List Json)
    (hagree : forall a, a ∈ items -> forall b, b ∈ items -> cmp a b = rankCmp (r a) (r b)) :
    List.Pairwise (fun a b => cmp a b ≤ 0) (stableSort cmp items) /\
    (forall k : WithTop W,
      (stableSort cmp items).filter (fun y => decide (r y = k))
        = items.filter (fun y => decide (r y = k))) := by
  have hcong := stableSort_congr cmp (fun a b => rankCmp (r a) (r b)) items hagree
  rw [hcong]
  have hperm := stableSort_perm (fun a b => rankCmp (r a) (r b)) items
  constructor
  · refine (stableSort_pairwise r items).imp_of_mem ?_
    intro a b ha hb hle
    rw [hagree a (hperm.subset ha) b (hperm.subset hb)]
    exact (rankCmp_nonpos_iff (r a) (r b)).mpr hle
  · intro k
    exact stableSort_filter r k items

/-- The key shape of a key-is-null test. -/
theorem keyIsNull_shape (p : String) (x : Json) (h : keyIsNull p x = true) :
    sortKeyD p x = .null := by
  cases hk : sortKeyD p x with
  | null => rfl
  | undef => simp [keyIsNull, hk] at h
  | bool b => simp [keyIsNull, hk] at h
  | num q => simp [keyIsNull, hk] at h
  | str s => simp [keyIsNull, hk] at h
  | arr xs => simp [keyIsNull, hk] at h
  | obj fs => simp [keyIsNull, hk] at h

/-- A null key compares after a homogeneous non-null key, in either
direction. -/
theorem keyedCmp_null_beats (p : String) (dir : Dir) (a b : Json)
    (hna : keyIsNull p a = true) (hnb : keyIsNull p b = false)
    (hb : keyIsNumOrNull p b = true \/ keyIsStrOrNull p b = true) :
    keyedCmp p dir a b = 1 := by
  have hka : sortKeyD p a = .null := keyIsNull_shape p a hna
  have hv : isNullish (sortKeyD p b) = false := by
    rcases hb with h | h
    · rcases keyNumOrNull_cases p b h with ⟨q, hkb⟩ | hkb
      · rw [hkb]
        rfl
      · simp [keyIsNull, hkb] at hnb
    · rcases keyStrOrNull_cases p b h with ⟨s, hkb⟩ | hkb
      · rw [hkb]
        rfl
      · simp [keyIsNull, hkb] at hnb
  show cmpValues dir (sortKeyD p a) (sortKeyD p b) = 1
  rw [hka]
  exact cmpValues_null_left dir (sortKeyD p b) hv

/-- Shared conclusions of the amended sort claim, given a rank agreement
and a tie-class agreement for the sorted elements. -/
theorem sort_conclusions_of_rank {W : Type} [LinearOrder W] [DecidableEq W]
    (r : Json -> WithTop W) (p : String) (dir : Dir) (items : List Json)
    (hagree : forall a, a ∈ items -> forall b, b ∈ items ->
      keyedCmp p dir a b = rankCmp (r a) (r b))
    (htie : forall x, x ∈ items -> forall y, y ∈ items ->
      jsonEq (sortKeyD p y) (sortKeyD p x) = decide (r y = r x))
    (hnull : forall a, a ∈ items -> forall b, b ∈ items ->
      keyIsNull p a = true -> keyIsNull p b = false -> keyedCmp p dir a b = 1) :
    List.Pairwise (fun a b => keyedCmp p dir a b ≤ 0) (stableSort (keyedCmp p dir) items) /\
    List.Pairwise (fun a b => keyIsNull p a = true -> keyIsNull p b = true)
      (stableSort (keyedCmp p dir) items) /\
    (forall x, x ∈ items ->
      (stableSort (keyedCmp p dir) items).filter
          (fun y => jsonEq (sortKeyD p y) (sortKeyD p x))
        = items.filter (fun y => jsonEq (sortKeyD p y) (sortKeyD p x))) := by
  obtain ⟨hpair, hfilt⟩ := sortedness_of_rank r (keyedCmp p dir) items hagree
  have hperm := stableSort_perm (keyedCmp p dir) items
  refine ⟨hpair, ?_, ?_⟩
  · refine hpair.imp_of_mem ?_
    intro a b ha hb hle hna
    by_cases hnb : keyIsNull p b = true
    · exact hnb
    · rw [Bool.not_eq_true] at hnb
      have h1 := hnull a (hperm.subset ha) b (hperm.subset hb) hna hnb
      rw [h1] at hle
      exact absurd hle (by norm_num)
  · intro x hx
    have h1 : (stableSort (keyedCmp p dir) items).filter
          (fun y => jsonEq (sortKeyD p y) (sortKeyD p x))
        = (stableSort (keyedCmp p dir) items).filter (fun y => decide (r y = r x)) :=
      List.filter_congr (fun y hy => htie x hx y (hperm.subset hy))
    have h2 : items.filter (fun y => jsonEq (sortKeyD p y) (sortKeyD p x))
        = items.filter (fun y => decide (r y = r x)) :=
      List.filter_congr (fun y hy => htie x hx y hy)
    rw [h1, h2]
    exact hfilt (r x)

/-- C4 (amended): sorting on a path whose strict resolution succeeds on
every record and whose keys are homogeneously numbers-or-null (or
strings-or-null) returns the stable comparator sort of the records: a
permutation of the input, pairwise ordered by the comparator, with null
keys sorted to the end regardless of direction, and with every tie class
(records with equal keys) preserved in prior relative order.  Missing or
undefined keys do not sort to the end: strict resolution throws a path
error instead (see the counterexample). -/
theorem sort_stable_nulls_last (p : String) (dir : Dir) (items : List Json)
    (hp : p ≠ "")
    (hok : forall x, x ∈ items -> isOkE (getByPathStrict x p) = true)
    (hom : (forall x, x ∈ items -> keyIsNumOrNull p x = true) \/
           (forall x, x ∈ items -> keyIsStrOrNull p x = true)) :
    applySortingModel (some p) dir items = .ok (stableSort (keyedCmp p dir) items) /\
    (stableSort (keyedCmp p dir) items).Perm items /\
    List.Pairwise (fun a b => keyedCmp p dir a b ≤ 0) (stableSort (keyedCmp p dir) items) /\
    List.Pairwise (fun a b => keyIsNull p a = true -> keyIsNull p b = true)
      (stableSort (keyedCmp p dir) items) /\
    (forall x, x ∈ items ->
      (stableSort (keyedCmp p dir) items).filter
          (fun y => jsonEq (sortKeyD p y) (sortKeyD p x))
        = items.filter (fun y => jsonEq (sortKeyD p y) (sortKeyD p x))) := by
  have hcore : List.Pairwise (fun a b => keyedCmp p dir a b ≤ 0)
        (stableSort (keyedCmp p dir) items) /\
      List.Pairwise (fun a b => keyIsNull p a = true -> keyIsNull p b = true)
        (stableSort (keyedCmp p dir) items) /\
      (forall x, x ∈ items ->
        (stableSort (keyedCmp p dir) items).filter
            (fun y => jsonEq (sortKeyD p y) (sortKeyD p x))
          = items.filter (fun y => jsonEq (sortKeyD p y) (sortKeyD p x))) := by
    rcases hom with hnum | hstr
    · cases dir with
      | asc =>
        exact sort_conclusions_of_rank (rankOf embNumAsc p) p .asc items
          (fun a ha b hb => keyedCmp_rank_num_asc p a b (hnum a ha) (hnum b hb))
          (fun x hx y hy => keyEq_rank_num_asc p x y (hnum x hx) (hnum y hy))
          (fun a ha b hb hna hnb =>
            keyedCmp_null_beats p .asc a b hna hnb (Or.inl (hnum b hb)))
      | desc =>
        exact sort_conclusions_of_rank (rankOf embNumDesc p) p .desc items
          (fun a ha b hb => keyedCmp_rank_num_desc p a b (hnum a ha) (hnum b hb))
          (fun x hx y hy => keyEq_rank_num_desc p x y (hnum x hx) (hnum y hy))
          (fun a ha b hb hna hnb =>
            keyedCmp_null_beats p .desc a b hna hnb (Or.inl (hnum b hb)))
    · cases dir with
      | asc =>
        exact sort_conclusions_of_rank (rankOf embStrAsc p) p .asc items
          (fun a ha b hb => keyedCmp_rank_str_asc p a b (hstr a ha) (hstr b hb))
          (fun x hx y hy => keyEq_rank_str_asc p x y (hstr x hx) (hstr y hy))
          (fun a ha b hb hna hnb =>
            keyedCmp_null_beats p .asc a b hna hnb (Or.inr (hstr b hb)))
      | desc =>
        exact sort_conclusions_of_rank (rankOf embStrDesc p) p .desc items
          (fun a ha b hb => keyedCmp_rank_str_desc p a b (hstr a ha) (hstr b hb))
          (fun x hx y hy => keyEq_rank_str_desc p x y (hstr x hx) (hstr y hy))
          (fun a ha b hb hna hnb =>
            keyedCmp_null_beats p .desc a b hna hnb (Or.inr (hstr b hb)))
  refine ⟨?_, stableSort_perm (keyedCmp p dir) items, hcore.1, hcore.2.1, hcore.2.2⟩
  by_cases hlen : items.length ≤ 1
  · rcases items with _ | ⟨x, _ | ⟨y, t⟩⟩
    · simp [applySortingModel, hp, stableSort]
    · simp [applySortingModel, hp, stableSort, insertSorted]
    · exfalso
      simp at hlen
  · have hfind : items.findSome? (fun it =>
        match getByPathStrict it p with
        | .error e => some e
        | .ok _ => none) = none := by
      rw [List.findSome?_eq_none_iff]
      intro x hx
      have hx2 := hok x hx
      cases hgx : getByPathStrict x p with
      | ok v => rfl
      | error e =>
        rw [hgx] at hx2
        exact absurd hx2 (by simp [isOkE])
    simp [applySortingModel, hp, hlen, hfind]

/-- C4 counterexample: a record whose sort key is absent makes the sort
throw the property path error instead of sorting the record to the end. -/
theorem sort_missing_key_throws :
    applySortingModel (some "price") .asc
        [.obj [("price", .num 2)], .obj [("name", .str "a")]]
      = .error (pathErrProp "price" "price") := rfl

/-- C4 witness: the amended theorem applied to the concrete sort scenario
records, ascending on the price path. -/
theorem sort_stable_nulls_last_witness :
    applySortingModel (some "price") Dir.asc wSortItems
        = .ok (stableSort (keyedCmp "price" Dir.asc) wSortItems) /\
    (stableSort (keyedCmp "price" Dir.asc) wSortItems).Perm wSortItems :=
  ⟨(sort_stable_nulls_last "price" Dir.asc wSortItems (by decide) (by decide)
      (Or.inl (by decide))).1,
   (sort_stable_nulls_last "price" Dir.asc wSortItems (by decide) (by decide)
      (Or.inl (by decide))).2.1⟩

/-- Retrieving below the allocation boundary is unchanged by an extension. -/
theorem storeExt_getSteps (s s2 : Store) (hext : storeExt s s2) (i : Nat)
    (h : i < s.stepArrays.length) : s2.getSteps i = s.getSteps i := by
  obtain ⟨⟨t, ht⟩, -⟩ := hext
  simp [Store.getSteps, ht, List.getElem?_append_left h]

/-- Retrieving below the allocation boundary is unchanged by an extension. -/
theorem storeExt_getClauses (s s2 : Store) (hext : storeExt s s2) (i : Nat)
    (h : i < s.clauseArrays.length) : s2.getClauses i = s.getClauses i := by
  obtain ⟨-, ⟨t, ht⟩⟩ := hext
  simp [Store.getClauses, ht, List.getElem?_append_left h]

/-- Store extension is reflexive. -/
theorem storeExt_refl (s : Store) : storeExt s s :=
  ⟨⟨[], by simp⟩, ⟨[], by simp⟩⟩

/-- A valid reference stays valid under store extension. -/
theorem validRef_mono (s s2 : Store) (p : ArrayQueryRef) (hext : storeExt s s2)
    (hv : validRef s p) : validRef s2 p := by
  obtain ⟨⟨t1, ht1⟩, ⟨t2, ht2⟩⟩ := hext
  constructor
  · rw [ht1, List.length_append]
    exact Nat.lt_of_lt_of_le hv.1 (Nat.le_add_right _ _)
  · rw [ht2, List.length_append]
    exact Nat.lt_of_lt_of_le hv.2 (Nat.le_add_right _ _)

/-- The abstract state of a valid reference is unchanged by store
extension: no chain call mutates an existing instance. -/
theorem absQuery_ext (s s2 : Store) (p : ArrayQueryRef) (hext : storeExt s s2)
    (hv : validRef s p) : absQuery s2 p = absQuery s p := by
  simp [absQuery, storeExt_getSteps s s2 hext p.stepsRef hv.1,
    storeExt_getClauses s s2 hext p.clausesRef hv.2]

/-- The fresh step array holds the allocated contents. -/
theorem getSteps_alloc_self (s : Store) (xs : List PStep) :
    ((s.allocSteps xs).1).getSteps (s.allocSteps xs).2 = xs := by
  simp [Store.allocSteps, Store.getSteps, List.getElem?_concat_length]

/-- The fresh clause array holds the allocated contents. -/
theorem getClauses_alloc_self (s : Store) (xs : List Clause) :
    ((s.allocClauses xs).1).getClauses (s.allocClauses xs).2 = xs := by
  simp [Store.allocClauses, Store.getClauses, List.getElem?_concat_length]

/-- `pushClauseRef` only appends allocations. -/
theorem pushClauseRef_ext (s : Store) (p : ArrayQueryRef) (c : Clause) :
    storeExt s (pushClauseRef s p c).1 := by
  by_cases hit : p.items.isSome
  · refine ⟨⟨[s.getSteps p.stepsRef ++ [.pushClause c]], ?_⟩,
      ⟨[s.getClauses p.clausesRef ++ [c]], ?_⟩⟩ <;>
      simp [pushClauseRef, hit, Store.allocSteps, Store.allocClauses]
  · refine ⟨⟨[s.getSteps p.stepsRef ++ [.pushClause c]], ?_⟩, ⟨[], ?_⟩⟩ <;>
      simp [pushClauseRef, hit, Store.allocSteps, Store.allocClauses]

/-- `appendStepRef` only appends allocations. -/
theorem appendStepRef_ext (s : Store) (p : ArrayQueryRef) (st : PStep) :
    storeExt s (appendStepRef s p st).1 := by
  refine ⟨⟨[s.getSteps p.stepsRef ++ [st]], ?_⟩, ⟨[], ?_⟩⟩ <;>
    simp [appendStepRef, Store.allocSteps]

/-- `sortByRef` only appends allocations. -/
theorem sortByRef_ext (s : Store) (p : ArrayQueryRef) (path : String) (dir : Dir) :
    storeExt s (sortByRef s p path dir).1 := by
  refine ⟨⟨[s.getSteps p.stepsRef ++ [.sortStep path dir]], ?_⟩, ⟨[], ?_⟩⟩ <;>
    simp [sortByRef, Store.allocSteps]

/-- `deriveUnboundRef` only appends allocations. -/
theorem deriveUnboundRef_ext (s : Store) (p : ArrayQueryRef) (st : PStep) :
    storeExt s (deriveUnboundRef s p st).1 := by
  refine ⟨⟨[s.getSteps p.stepsRef ++ [st]], ?_⟩, ⟨[[]], ?_⟩⟩ <;>
    simp [deriveUnboundRef, Store.allocSteps, Store.allocClauses]

/-- `boundMkRef` only appends allocations. -/
theorem boundMkRef_ext (s : Store) (items : List Json) :
    storeExt s (boundMkRef s items).1 := by
  refine ⟨⟨[[]], ?_⟩, ⟨[[]], ?_⟩⟩ <;>
    simp [boundMkRef, Store.allocSteps, Store.allocClauses]

/-- `pushClauseRef` computes the pure `_pushClause` of the abstraction. -/
theorem pushClauseRef_abs (s : Store) (p : ArrayQueryRef) (c : Clause) :
    absQuery (pushClauseRef s p c).1 (pushClauseRef s p c).2
      = (absQuery s p)._pushClause c := by
  by_cases hit : p.items.isSome
  · simp [pushClauseRef, hit, absQuery, ArrayQuery._pushClause, Store.allocSteps,
      Store.allocClauses, Store.getSteps, Store.getClauses,
      List.getElem?_concat_length]
  · simp [pushClauseRef, hit, absQuery, ArrayQuery._pushClause, Store.allocSteps,
      Store.getSteps, Store.getClauses, List.getElem?_concat_length]

/-- `appendStepRef` computes the pure `_appendStep` of the abstraction. -/
theorem appendStepRef_abs (s : Store) (p : ArrayQueryRef) (st : PStep) :
    absQuery (appendStepRef s p st).1 (appendStepRef s p st).2
      = (absQuery s p)._appendStep st := by
  simp [appendStepRef, absQuery, ArrayQuery._appendStep, Store.allocSteps,
    Store.getSteps, Store.getClauses, List.getElem?_concat_length]

/-- `sortByRef` computes the pure `sortBy` of the abstraction. -/
theorem sortByRef_abs (s : Store) (p : ArrayQueryRef) (path : String) (dir : Dir) :
    absQuery (sortByRef s p path dir).1 (sortByRef s p path dir).2
      = (absQuery s p).sortBy path dir := by
  simp [sortByRef, absQuery, ArrayQuery.sortBy, Store.allocSteps,
    Store.getSteps, Store.getClauses, List.getElem?_concat_length]

/-- `deriveUnboundRef` computes the pure `_deriveUnbound` of the
abstraction. -/
theorem deriveUnboundRef_abs (s : Store) (p : ArrayQueryRef) (st : PStep) :
    absQuery (deriveUnboundRef s p st).1 (deriveUnboundRef s p st).2
      = (absQuery s p)._deriveUnbound st := by
  simp [deriveUnboundRef, absQuery, ArrayQuery._deriveUnbound, Store.allocSteps,
    Store.allocClauses, Store.getSteps, Store.getClauses,
    List.getElem?_concat_length]

/-- `boundMkRef` computes the pure `_bound` with no metadata. -/
theorem boundMkRef_abs (s : Store) (items : List Json) :
    absQuery (boundMkRef s items).1 (boundMkRef s items).2
      = ArrayQuery._bound items none := by
  simp [boundMkRef, absQuery, ArrayQuery._bound, Store.allocSteps,
    Store.allocClauses, Store.getSteps, Store.getClauses,
    List.getElem?_concat_length]

/-- `pushClauseRef` returns a reference to a freshly allocated step array. -/
theorem pushClauseRef_fresh (s : Store) (p : ArrayQueryRef) (c : Clause) :
    (pushClauseRef s p c).2.stepsRef = s.stepArrays.length := by
  by_cases hit : p.items.isSome
  · simp [pushClauseRef, hit, Store.allocSteps, Store.allocClauses]
  · simp [pushClauseRef, hit, Store.allocSteps]

/-- `appendStepRef` returns a reference to a freshly allocated step array. -/
theorem appendStepRef_fresh (s : Store) (p : ArrayQueryRef) (st : PStep) :
    (appendStepRef s p st).2.stepsRef = s.stepArrays.length := by
  simp [appendStepRef, Store.allocSteps]

/-- `sortByRef` returns a reference to a freshly allocated step array. -/
theorem sortByRef_fresh (s : Store) (p : ArrayQueryRef) (path : String) (dir : Dir) :
    (sortByRef s p path dir).2.stepsRef = s.stepArrays.length := by
  simp [sortByRef, Store.allocSteps]

/-- `deriveUnboundRef` returns a reference to a freshly allocated step
array. -/
theorem deriveUnboundRef_fresh (s : Store) (p : ArrayQueryRef) (st : PStep) :
    (deriveUnboundRef s p st).2.stepsRef = s.stepArrays.length := by
  simp [deriveUnboundRef, Store.allocSteps]

/-- `boundMkRef` returns a reference to a freshly allocated step array. -/
theorem boundMkRef_fresh (s : Store) (items : List Json) :
    (boundMkRef s items).2.stepsRef = s.stepArrays.length := by
  simp [boundMkRef, Store.allocSteps]

/-- The `pushClauseRef` result is valid. -/
theorem pushClauseRef_valid (s : Store) (p : ArrayQueryRef) (c : Clause)
    (hv : validRef s p) :
    validRef (pushClauseRef s p c).1 (pushClauseRef s p c).2 := by
  by_cases hit : p.items.isSome
  · constructor <;>
      simp [pushClauseRef, hit, Store.allocSteps, Store.allocClauses, validRef]
  · constructor <;>
      simp [pushClauseRef, hit, Store.allocSteps, validRef]
    exact hv.2

/-- The `appendStepRef` result is valid. -/
theorem appendStepRef_valid (s : Store) (p : ArrayQueryRef) (st : PStep)
    (hv : validRef s p) :
    validRef (appendStepRef s p st).1 (appendStepRef s p st).2 := by
  constructor <;> simp [appendStepRef, Store.allocSteps, validRef]
  exact hv.2

/-- The `sortByRef` result is valid. -/
theorem sortByRef_valid (s : Store) (p : ArrayQueryRef) (path : String) (dir : Dir)
    (hv : validRef s p) :
    validRef (sortByRef s p path dir).1 (sortByRef s p path dir).2 := by
  constructor <;> simp [sortByRef, Store.allocSteps, validRef]
  exact hv.2

/-- The `deriveUnboundRef` result is valid. -/
theorem deriveUnboundRef_valid (s : Store) (p : ArrayQueryRef) (st : PStep) :
    validRef (deriveUnboundRef s p st).1 (deriveUnboundRef s p st).2 := by
  constructor <;>
    simp [deriveUnboundRef, Store.allocSteps, Store.allocClauses, validRef]

/-- The `boundMkRef` result is valid. -/
theorem boundMkRef_valid (s : Store) (items : List Json) :
    validRef (boundMkRef s items).1 (boundMkRef s items).2 := by
  constructor <;>
    simp [boundMkRef, Store.allocSteps, Store.allocClauses, validRef]

/-- One chain call in the heap model produces exactly the pure call on the
abstract state (observable behaviour depends only on the abstraction). -/
theorem branchObs_eq (s : Store) (p : ArrayQueryRef) (c : Call) :
    branchObs s p c = applyCall (absQuery s p) c := by
  cases c with
  | whereChain neg path mods t =>
    rcases hpr : pushClauseRef s p (whereChainClause neg path mods t) with ⟨s1, p1⟩
    have habs := pushClauseRef_abs s p (whereChainClause neg path mods t)
    rw [hpr] at habs
    simp [branchObs, applyCallRef, applyCall, hpr, habs]
  | whereSift cl =>
    rcases hpr : pushClauseRef s p cl with ⟨s1, p1⟩
    have habs := pushClauseRef_abs s p cl
    rw [hpr] at habs
    simp [branchObs, applyCallRef, applyCall, hpr, habs]
  | filterExpr e o =>
    cases hp2 : parseCompositeFilterExpression e o with
    | error err =>
      simp [branchObs, applyCallRef, applyCall, hp2, Except.bind]
      all_goals rfl
    | ok cl =>
      rcases hpr : pushClauseRef s p cl with ⟨s1, p1⟩
      have habs := pushClauseRef_abs s p cl
      rw [hpr] at habs
      simp [branchObs, applyCallRef, applyCall, hp2, hpr, habs, Except.bind]
      all_goals rfl
  | whereIn path vs =>
    cases hemp : vs.isEmpty with
    | true =>
      simp [branchObs, applyCallRef, applyCall, hemp]
    | false =>
      rcases hpr : pushClauseRef s p (singleField path (.inSet vs)) with ⟨s1, p1⟩
      have habs := pushClauseRef_abs s p (singleField path (.inSet vs))
      rw [hpr] at habs
      simp [branchObs, applyCallRef, applyCall, hemp, hpr, habs]
  | whereAll criteria =>
    rcases hpr : pushClauseRef s p (.fields (criteria.map (fun kv => (kv.1, FieldCon.eqLit kv.2)))) with ⟨s1, p1⟩
    have habs := pushClauseRef_abs s p (.fields (criteria.map (fun kv => (kv.1, FieldCon.eqLit kv.2))))
    rw [hpr] at habs
    simp [branchObs, applyCallRef, applyCall, hpr, habs]
  | sortCall path dir =>
    rcases hpr : sortByRef s p path dir with ⟨s1, p1⟩
    have habs := sortByRef_abs s p path dir
    rw [hpr] at habs
    simp [branchObs, applyCallRef, applyCall, hpr, habs]
  | takeCall n =>
    cases hitems : p.items with
    | none =>
      rcases hpr : appendStepRef s p (.takeStep n) with ⟨s1, p1⟩
      have habs := appendStepRef_abs s p (.takeStep n)
      rw [hpr] at habs
      simp [branchObs, applyCallRef, applyCall, ArrayQuery.takeN, hitems, hpr, habs,
        show (absQuery s p).items = p.items from rfl]
    | some xs =>
      cases hex : (absQuery s p)._executeFilter with
      | error e =>
        simp [branchObs, applyCallRef, applyCall, ArrayQuery.takeN, hitems, hex,
          show (absQuery s p).items = p.items from rfl, Except.bind]
        all_goals rfl
      | ok r =>
        rcases hpr : boundMkRef s (jsSliceTake r n) with ⟨s1, p1⟩
        have habs := boundMkRef_abs s (jsSliceTake r n)
        rw [hpr] at habs
        simp [branchObs, applyCallRef, applyCall, ArrayQuery.takeN, hitems, hex, hpr, habs,
          show (absQuery s p).items = p.items from rfl, Except.bind]
        all_goals rfl
  | dropCall n =>
    cases hitems : p.items with
    | none =>
      rcases hpr : appendStepRef s p (.dropStep n) with ⟨s1, p1⟩
      have habs := appendStepRef_abs s p (.dropStep n)
      rw [hpr] at habs
      simp [branchObs, applyCallRef, applyCall, ArrayQuery.dropN, hitems, hpr, habs,
        show (absQuery s p).items = p.items from rfl]
    | some xs =>
      cases hex : (absQuery s p)._executeFilter with
      | error e =>
        simp [branchObs, applyCallRef, applyCall, ArrayQuery.dropN, hitems, hex,
          show (absQuery s p).items = p.items from rfl, Except.bind]
        all_goals rfl
      | ok r =>
        rcases hpr : boundMkRef s (jsSliceDrop r n) with ⟨s1, p1⟩
        have habs := boundMkRef_abs s (jsSliceDrop r n)
        rw [hpr] at habs
        simp [branchObs, applyCallRef, applyCall, ArrayQuery.dropN, hitems, hex, hpr, habs,
          show (absQuery s p).items = p.items from rfl, Except.bind]
        all_goals rfl
  | mapCall f =>
    cases hitems : p.items with
    | none =>
      rcases hpr : deriveUnboundRef s p (.mapStep f) with ⟨s1, p1⟩
      have habs := deriveUnboundRef_abs s p (.mapStep f)
      rw [hpr] at habs
      simp [branchObs, applyCallRef, applyCall, ArrayQuery.map, hitems, hpr, habs,
        show (absQuery s p).items = p.items from rfl]
    | some xs =>
      cases hex : (absQuery s p)._executeFilter with
      | error e =>
        simp [branchObs, applyCallRef, applyCall, ArrayQuery.map, hitems, hex,
          show (absQuery s p).items = p.items from rfl, Except.bind]
        all_goals rfl
      | ok r =>
        rcases hpr : boundMkRef s (r.map f) with ⟨s1, p1⟩
        have habs := boundMkRef_abs s (r.map f)
        rw [hpr] at habs
        simp [branchObs, applyCallRef, applyCall, ArrayQuery.map, hitems, hex, hpr, habs,
          show (absQuery s p).items = p.items from rfl, Except.bind]
        all_goals rfl
  | flatMapCall f =>
    cases hitems : p.items with
    | none =>
      rcases hpr : deriveUnboundRef s p (.flatMapStep f) with ⟨s1, p1⟩
      have habs := deriveUnboundRef_abs s p (.flatMapStep f)
      rw [hpr] at habs
      simp [branchObs, applyCallRef, applyCall, ArrayQuery.flatMap, hitems, hpr, habs,
        show (absQuery s p).items = p.items from rfl]
    | some xs =>
      cases hex : (absQuery s p)._executeFilter with
      | error e =>
        simp [branchObs, applyCallRef, applyCall, ArrayQuery.flatMap, hitems, hex,
          show (absQuery s p).items = p.items from rfl, Except.bind]
        all_goals rfl
      | ok r =>
        rcases hpr : boundMkRef s (List.flatten (r.map f)) with ⟨s1, p1⟩
        have habs := boundMkRef_abs s (List.flatten (r.map f))
        rw [hpr] at habs
        simp [branchObs, applyCallRef, applyCall, ArrayQuery.flatMap, hitems, hex, hpr, habs,
          show (absQuery s p).items = p.items from rfl, Except.bind]
        all_goals rfl
  | scanCall f init =>
    cases hitems : p.items with
    | none =>
      rcases hpr : deriveUnboundRef s p (.scanStep f init) with ⟨s1, p1⟩
      have habs := deriveUnboundRef_abs s p (.scanStep f init)
      rw [hpr] at habs
      simp [branchObs, applyCallRef, applyCall, ArrayQuery.scan, hitems, hpr, habs,
        show (absQuery s p).items = p.items from rfl]
    | some xs =>
      cases hex : (absQuery s p)._executeFilter with
      | error e =>
        simp [branchObs, applyCallRef, applyCall, ArrayQuery.scan, hitems, hex,
          show (absQuery s p).items = p.items from rfl, Except.bind]
        all_goals rfl
      | ok r =>
        rcases hpr : boundMkRef s (init :: scanLoop f init r) with ⟨s1, p1⟩
        have habs := boundMkRef_abs s (init :: scanLoop f init r)
        rw [hpr] at habs
        simp [branchObs, applyCallRef, applyCall, ArrayQuery.scan, hitems, hex, hpr, habs,
          show (absQuery s p).items = p.items from rfl, Except.bind]
        all_goals rfl
  | zipCall other =>
    cases hitems : p.items with
    | none =>
      rcases hpr : deriveUnboundRef s p (.zipStep other) with ⟨s1, p1⟩
      have habs := deriveUnboundRef_abs s p (.zipStep other)
      rw [hpr] at habs
      simp [branchObs, applyCallRef, applyCall, ArrayQuery.zip, hitems, hpr, habs,
        show (absQuery s p).items = p.items from rfl]
    | some xs =>
      cases hex : (absQuery s p)._executeFilter with
      | error e =>
        simp [branchObs, applyCallRef, applyCall, ArrayQuery.zip, hitems, hex,
          show (absQuery s p).items = p.items from rfl, Except.bind]
        all_goals rfl
      | ok r =>
        rcases hpr : boundMkRef s ((r.zip other).map (fun ab => .arr [ab.1, ab.2])) with ⟨s1, p1⟩
        have habs := boundMkRef_abs s ((r.zip other).map (fun ab => .arr [ab.1, ab.2]))
        rw [hpr] at habs
        simp [branchObs, applyCallRef, applyCall, ArrayQuery.zip, hitems, hex, hpr, habs,
          show (absQuery s p).items = p.items from rfl, Except.bind]
        all_goals rfl

/-- Every chain call in the heap model only appends allocations, and a
successful call returns a reference to a freshly allocated step array. -/
theorem applyCallRef_ext_fresh (s : Store) (p : ArrayQueryRef) (c : Call)
    (hv : validRef s p) :
    storeExt s (applyCallRef s p c).1 /\
    forall p2 : ArrayQueryRef, (applyCallRef s p c).2 = .ok p2 ->
      validRef (applyCallRef s p c).1 p2 /\ p2.stepsRef = s.stepArrays.length := by
  cases c with
  | whereChain neg path mods t =>
    rcases hpr : pushClauseRef s p (whereChainClause neg path mods t) with ⟨s1, p1⟩
    have hext := pushClauseRef_ext s p (whereChainClause neg path mods t)
    have hval := pushClauseRef_valid s p (whereChainClause neg path mods t) hv
    have hfr := pushClauseRef_fresh s p (whereChainClause neg path mods t)
    rw [hpr] at hext hval hfr
    refine ⟨by simpa [applyCallRef, hpr] using hext, ?_⟩
    intro p2 hok
    simp [applyCallRef, hpr] at hok
    subst hok
    exact ⟨by simpa [applyCallRef, hpr] using hval, hfr⟩
  | whereSift cl =>
    rcases hpr : pushClauseRef s p cl with ⟨s1, p1⟩
    have hext := pushClauseRef_ext s p cl
    have hval := pushClauseRef_valid s p cl hv
    have hfr := pushClauseRef_fresh s p cl
    rw [hpr] at hext hval hfr
    refine ⟨by simpa [applyCallRef, hpr] using hext, ?_⟩
    intro p2 hok
    simp [applyCallRef, hpr] at hok
    subst hok
    exact ⟨by simpa [applyCallRef, hpr] using hval, hfr⟩
  | filterExpr e o =>
    cases hp2 : parseCompositeFilterExpression e o with
    | error err =>
      refine ⟨by simpa [applyCallRef, hp2] using storeExt_refl s, ?_⟩
      intro p2 hok
      simp [applyCallRef, hp2] at hok
    | ok cl =>
      rcases hpr : pushClauseRef s p cl with ⟨s1, p1⟩
      have hext := pushClauseRef_ext s p cl
      have hval := pushClauseRef_valid s p cl hv
      have hfr := pushClauseRef_fresh s p cl
      rw [hpr] at hext hval hfr
      refine ⟨by simpa [applyCallRef, hp2, hpr] using hext, ?_⟩
      intro p2 hok
      simp [applyCallRef, hp2, hpr] at hok
      subst hok
      exact ⟨by simpa [applyCallRef, hp2, hpr] using hval, hfr⟩
  | whereIn path vs =>
    cases hemp : vs.isEmpty with
    | true =>
      refine ⟨by simpa [applyCallRef, hemp] using storeExt_refl s, ?_⟩
      intro p2 hok
      simp [applyCallRef, hemp] at hok
    | false =>
      rcases hpr : pushClauseRef s p (singleField path (.inSet vs)) with ⟨s1, p1⟩
      have hext := pushClauseRef_ext s p (singleField path (.inSet vs))
      have hval := pushClauseRef_valid s p (singleField path (.inSet vs)) hv
      have hfr := pushClauseRef_fresh s p (singleField path (.inSet vs))
      rw [hpr] at hext hval hfr
      refine ⟨by simpa [applyCallRef, hemp, hpr] using hext, ?_⟩
      intro p2 hok
      simp [applyCallRef, hemp, hpr] at hok
      subst hok
      exact ⟨by simpa [applyCallRef, hemp, hpr] using hval, hfr⟩
  | whereAll criteria =>
    rcases hpr : pushClauseRef s p (.fields (criteria.map (fun kv => (kv.1, FieldCon.eqLit kv.2)))) with ⟨s1, p1⟩
    have hext := pushClauseRef_ext s p (.fields (criteria.map (fun kv => (kv.1, FieldCon.eqLit kv.2))))
    have hval := pushClauseRef_valid s p (.fields (criteria.map (fun kv => (kv.1, FieldCon.eqLit kv.2)))) hv
    have hfr := pushClauseRef_fresh s p (.fields (criteria.map (fun kv => (kv.1, FieldCon.eqLit kv.2))))
    rw [hpr] at hext hval hfr
    refine ⟨by simpa [applyCallRef, hpr] using hext, ?_⟩
    intro p2 hok
    simp [applyCallRef, hpr] at hok
    subst hok
    exact ⟨by simpa [applyCallRef, hpr] using hval, hfr⟩
  | sortCall path dir =>
    rcases hpr : sortByRef s p path dir with ⟨s1, p1⟩
    have hext := sortByRef_ext s p path dir
    have hval := sortByRef_valid s p path dir hv
    have hfr := sortByRef_fresh s p path dir
    rw [hpr] at hext hval hfr
    refine ⟨by simpa [applyCallRef, hpr] using hext, ?_⟩
    intro p2 hok
    simp [applyCallRef, hpr] at hok
    subst hok
    exact ⟨by simpa [applyCallRef, hpr] using hval, hfr⟩
  | takeCall n =>
    cases hitems : p.items with
    | none =>
      rcases hpr : appendStepRef s p (.takeStep n) with ⟨s1, p1⟩
      have hext := appendStepRef_ext s p (.takeStep n)
      have hval := appendStepRef_valid s p (.takeStep n) hv
      have hfr := appendStepRef_fresh s p (.takeStep n)
      rw [hpr] at hext hval hfr
      refine ⟨by simpa [applyCallRef, hitems, hpr] using hext, ?_⟩
      intro p2 hok
      simp [applyCallRef, hitems, hpr] at hok
      subst hok
      exact ⟨by simpa [applyCallRef, hitems, hpr] using hval, hfr⟩
    | some xs =>
      cases hex : (absQuery s p)._executeFilter with
      | error e =>
        refine ⟨by simpa [applyCallRef, hitems, hex] using storeExt_refl s, ?_⟩
        intro p2 hok
        simp [applyCallRef, hitems, hex] at hok
      | ok r =>
        rcases hpr : boundMkRef s (jsSliceTake r n) with ⟨s1, p1⟩
        have hext := boundMkRef_ext s (jsSliceTake r n)
        have hval := boundMkRef_valid s (jsSliceTake r n)
        have hfr := boundMkRef_fresh s (jsSliceTake r n)
        rw [hpr] at hext hval hfr
        refine ⟨by simpa [applyCallRef, hitems, hex, hpr] using hext, ?_⟩
        intro p2 hok
        simp [applyCallRef, hitems, hex, hpr] at hok
        subst hok
        exact ⟨by simpa [applyCallRef, hitems, hex, hpr] using hval, hfr⟩
  | dropCall n =>
    cases hitems : p.items with
    | none =>
      rcases hpr : appendStepRef s p (.dropStep n) with ⟨s1, p1⟩
      have hext := appendStepRef_ext s p (.dropStep n)
      have hval := appendStepRef_valid s p (.dropStep n) hv
      have hfr := appendStepRef_fresh s p (.dropStep n)
      rw [hpr] at hext hval hfr
      refine ⟨by simpa [applyCallRef, hitems, hpr] using hext, ?_⟩
      intro p2 hok
      simp [applyCallRef, hitems, hpr] at hok
      subst hok
      exact ⟨by simpa [applyCallRef, hitems, hpr] using hval, hfr⟩
    | some xs =>
      cases hex : (absQuery s p)._executeFilter with
      | error e =>
        refine ⟨by simpa [applyCallRef, hitems, hex] using storeExt_refl s, ?_⟩
        intro p2 hok
        simp [applyCallRef, hitems, hex] at hok
      | ok r =>
        rcases hpr : boundMkRef s (jsSliceDrop r n) with ⟨s1, p1⟩
        have hext := boundMkRef_ext s (jsSliceDrop r n)
        have hval := boundMkRef_valid s (jsSliceDrop r n)
        have hfr := boundMkRef_fresh s (jsSliceDrop r n)
        rw [hpr] at hext hval hfr
        refine ⟨by simpa [applyCallRef, hitems, hex, hpr] using hext, ?_⟩
        intro p2 hok
        simp [applyCallRef, hitems, hex, hpr] at hok
        subst hok
        exact ⟨by simpa [applyCallRef, hitems, hex, hpr] using hval, hfr⟩
  | mapCall f =>
    cases hitems : p.items with
    | none =>
      rcases hpr : deriveUnboundRef s p (.mapStep f) with ⟨s1, p1⟩
      have hext := deriveUnboundRef_ext s p (.mapStep f)
      have hval := deriveUnboundRef_valid s p (.mapStep f)
      have hfr := deriveUnboundRef_fresh s p (.mapStep f)
      rw [hpr] at hext hval hfr
      refine ⟨by simpa [applyCallRef, hitems, hpr] using hext, ?_⟩
      intro p2 hok
      simp [applyCallRef, hitems, hpr] at hok
      subst hok
      exact ⟨by simpa [applyCallRef, hitems, hpr] using hval, hfr⟩
    | some xs =>
      cases hex : (absQuery s p)._executeFilter with
      | error e =>
        refine ⟨by simpa [applyCallRef, hitems, hex] using storeExt_refl s, ?_⟩
        intro p2 hok
        simp [applyCallRef, hitems, hex] at hok
      | ok r =>
        rcases hpr : boundMkRef s (r.map f) with ⟨s1, p1⟩
        have hext := boundMkRef_ext s (r.map f)
        have hval := boundMkRef_valid s (r.map f)
        have hfr := boundMkRef_fresh s (r.map f)
        rw [hpr] at hext hval hfr
        refine ⟨by simpa [applyCallRef, hitems, hex, hpr] using hext, ?_⟩
        intro p2 hok
        simp [applyCallRef, hitems, hex, hpr] at hok
        subst hok
        exact ⟨by simpa [applyCallRef, hitems, hex, hpr] using hval, hfr⟩
  | flatMapCall f =>
    cases hitems : p.items with
    | none =>
      rcases hpr : deriveUnboundRef s p (.flatMapStep f) with ⟨s1, p1⟩
      have hext := deriveUnboundRef_ext s p (.flatMapStep f)
      have hval := deriveUnboundRef_valid s p (.flatMapStep f)
      have hfr := deriveUnboundRef_fresh s p (.flatMapStep f)
      rw [hpr] at hext hval hfr
      refine ⟨by simpa [applyCallRef, hitems, hpr] using hext, ?_⟩
      intro p2 hok
      simp [applyCallRef, hitems, hpr] at hok
      subst hok
      exact ⟨by simpa [applyCallRef, hitems, hpr] using hval, hfr⟩
    | some xs =>
      cases hex : (absQuery s p)._executeFilter with
      | error e =>
        refine ⟨by simpa [applyCallRef, hitems, hex] using storeExt_refl s, ?_⟩
        intro p2 hok
        simp [applyCallRef, hitems, hex] at hok
      | ok r =>
        rcases hpr : boundMkRef s (List.flatten (r.map f)) with ⟨s1, p1⟩
        have hext := boundMkRef_ext s (List.flatten (r.map f))
        have hval := boundMkRef_valid s (List.flatten (r.map f))
        have hfr := boundMkRef_fresh s (List.flatten (r.map f))
        rw [hpr] at hext hval hfr
        refine ⟨by simpa [applyCallRef, hitems, hex, hpr] using hext, ?_⟩
        intro p2 hok
        simp [applyCallRef, hitems, hex, hpr] at hok
        subst hok
        exact ⟨by simpa [applyCallRef, hitems, hex, hpr] using hval, hfr⟩
  | scanCall f init =>
    cases hitems : p.items with
    | none =>
      rcases hpr : deriveUnboundRef s p (.scanStep f init) with ⟨s1, p1⟩
      have hext := deriveUnboundRef_ext s p (.scanStep f init)
      have hval := deriveUnboundRef_valid s p (.scanStep f init)
      have hfr := deriveUnboundRef_fresh s p (.scanStep f init)
      rw [hpr] at hext hval hfr
      refine ⟨by simpa [applyCallRef, hitems, hpr] using hext, ?_⟩
      intro p2 hok
      simp [applyCallRef, hitems, hpr] at hok
      subst hok
      exact ⟨by simpa [applyCallRef, hitems, hpr] using hval, hfr⟩
    | some xs =>
      cases hex : (absQuery s p)._executeFilter with
      | error e =>
        refine ⟨by simpa [applyCallRef, hitems, hex] using storeExt_refl s, ?_⟩
        intro p2 hok
        simp [applyCallRef, hitems, hex] at hok
      | ok r =>
        rcases hpr : boundMkRef s (init :: scanLoop f init r) with ⟨s1, p1⟩
        have hext := boundMkRef_ext s (init :: scanLoop f init r)
        have hval := boundMkRef_valid s (init :: scanLoop f init r)
        have hfr := boundMkRef_fresh s (init :: scanLoop f init r)
        rw [hpr] at hext hval hfr
        refine ⟨by simpa [applyCallRef, hitems, hex, hpr] using hext, ?_⟩
        intro p2 hok
        simp [applyCallRef, hitems, hex, hpr] at hok
        subst hok
        exact ⟨by simpa [applyCallRef, hitems, hex, hpr] using hval, hfr⟩
  | zipCall other =>
    cases hitems : p.items with
    | none =>
      rcases hpr : deriveUnboundRef s p (.zipStep other) with ⟨s1, p1⟩
      have hext := deriveUnboundRef_ext s p (.zipStep other)
      have hval := deriveUnboundRef_valid s p (.zipStep other)
      have hfr := deriveUnboundRef_fresh s p (.zipStep other)
      rw [hpr] at hext hval hfr
      refine ⟨by simpa [applyCallRef, hitems, hpr] using hext, ?_⟩
      intro p2 hok
      simp [applyCallRef, hitems, hpr] at hok
      subst hok
      exact ⟨by simpa [applyCallRef, hitems, hpr] using hval, hfr⟩
    | some xs =>
      cases hex : (absQuery s p)._executeFilter with
      | error e =>
        refine ⟨by simpa [applyCallRef, hitems, hex] using storeExt_refl s, ?_⟩
        intro p2 hok
        simp [applyCallRef, hitems, hex] at hok
      | ok r =>
        rcases hpr : boundMkRef s ((r.zip other).map (fun ab => .arr [ab.1, ab.2])) with ⟨s1, p1⟩
        have hext := boundMkRef_ext s ((r.zip other).map (fun ab => .arr [ab.1, ab.2]))
        have hval := boundMkRef_valid s ((r.zip other).map (fun ab => .arr [ab.1, ab.2]))
        have hfr := boundMkRef_fresh s ((r.zip other).map (fun ab => .arr [ab.1, ab.2]))
        rw [hpr] at hext hval hfr
        refine ⟨by simpa [applyCallRef, hitems, hex, hpr] using hext, ?_⟩
        intro p2 hok
        simp [applyCallRef, hitems, hex, hpr] at hok
        subst hok
        exact ⟨by simpa [applyCallRef, hitems, hex, hpr] using hval, hfr⟩

/-- C2: Immutability and branch independence. In the heap model a chain
call on a valid instance only appends new allocations to the store,
leaving every existing array intact: the receiver abstracts to the same
query state afterwards and stays valid; a successful call returns a valid
new instance whose step array is a fresh allocation distinct from the
receiver's; the observable outcome of a call is exactly the pure call on
the abstract state; and running one call does not alter the observable
outcome of any other call made from the shared receiver. -/
theorem chain_immutability (s : Store) (p : ArrayQueryRef) (c : Call)
    (hv : validRef s p) :
    storeExt s (applyCallRef s p c).1 /\
    absQuery (applyCallRef s p c).1 p = absQuery s p /\
    validRef (applyCallRef s p c).1 p /\
    (forall p2 : ArrayQueryRef, (applyCallRef s p c).2 = .ok p2 ->
      validRef (applyCallRef s p c).1 p2 /\ p2.stepsRef = s.stepArrays.length /\
      p2.stepsRef ≠ p.stepsRef) /\
    branchObs s p c = applyCall (absQuery s p) c /\
    (forall c2 : Call, branchObs (applyCallRef s p c).1 p c2 = branchObs s p c2) := by
  obtain ⟨hext, hfresh⟩ := applyCallRef_ext_fresh s p c hv
  have habs := absQuery_ext s (applyCallRef s p c).1 p hext hv
  refine ⟨hext, habs, validRef_mono s (applyCallRef s p c).1 p hext hv, ?_,
    branchObs_eq s p c, ?_⟩
  · intro p2 hok
    obtain ⟨hv2, hfr⟩ := hfresh p2 hok
    refine ⟨hv2, hfr, fun he => ?_⟩
    have h1 := hv.1
    rw [← he, hfr] at h1
    exact absurd h1 (lt_irrefl _)
  · intro c2
    rw [branchObs_eq, branchObs_eq, habs]

/-- C2 witness: the sort call on the concrete shared unbound instance
leaves its abstract state unchanged and observably equals the pure call. -/
theorem chain_immutability_witness :
    absQuery (applyCallRef wStore wRef (.sortCall "price" .desc)).1 wRef
        = absQuery wStore wRef /\
    branchObs wStore wRef (.sortCall "price" .desc)
      = applyCall (absQuery wStore wRef) (.sortCall "price" .desc) :=
  ⟨(chain_immutability wStore wRef (.sortCall "price" .desc)
      ⟨by decide, by decide⟩).2.1,
   (chain_immutability wStore wRef (.sortCall "price" .desc)
      ⟨by decide, by decide⟩).2.2.2.2.1⟩

end FluentQuery
